import Mathlib

/-!
# Bit streams, positional binary tree and prefix-code decoder

A shallow embedding of `BitStreams.cpp`, `LinkedBinaryTree.h` and `decode.cpp`.

* The C++ type `int` is a 32-bit two's-complement integer.  It is modelled by `Int`
  together with the reduction `wrap32`, applied by every arithmetic operation
  (`iadd`, `isub`, `ishl`, `iand`), so that overflow is visible in the model.  A shift
  count outside [0, 31] is taken modulo 32.
* A byte of a file is a `Fin 256`; a file is a list of bytes.
* Heap-allocated tree nodes live in an arena (`Heap`), a pointer is an optional
  index into it, `NULL` is `none`.
-/

namespace Decode

/-! ## Machine integers -/

/-- Reduction of a mathematical integer to the range `[-2^31, 2^31)` of a 32-bit `int`. -/
def wrap32 (x : Int) : Int := (x + 2147483648) % 4294967296 - 2147483648

/-- The sum `a + b` of two `int`s. -/
def iadd (a b : Int) : Int := wrap32 (a + b)

/-- The difference `a - b` of two `int`s. -/
def isub (a b : Int) : Int := wrap32 (a - b)

/-- The shift `a << n` on `int`: multiplication by `2^n`, reduced to 32 bits.  A count
outside [0, 31], which C++ leaves undefined, is taken modulo 32, as the shift instructions
of x86-64 and AArch64 take a count held in a register. -/
def ishl (a n : Int) : Int := wrap32 (a * 2 ^ (n % 32).toNat)

/-- The shift `a >> n` on `int`: the arithmetic shift, that is the floor of `a / 2^n`.  A
count outside [0, 31] is taken modulo 32, as for `ishl`. -/
def ishr (a n : Int) : Int := a / 2 ^ (n % 32).toNat

/-- The 32-bit pattern of an `int`, as a natural number below `2^32`. -/
def bits32 (a : Int) : Nat := (a % 4294967296).toNat

/-- The bitwise conjunction `a & b` of two `int`s: the conjunction of their 32-bit patterns,
read back as a signed number. -/
def iand (a b : Int) : Int := wrap32 (Int.ofNat (Nat.land (bits32 a) (bits32 b)))

/-! ## Files -/

/-- One byte of a file. -/
abbrev Byte := Fin 256

/-- The conversion `char(x)` of an `int` to the byte that `put` writes: its low 8 bits. -/
def toByte (x : Int) : Byte := ⟨(x % 256).toNat, by omega⟩

/-- The number of bits of a byte written to a file (`FULLWORD` in `BitStreams.cpp`). -/
def FULLWORD : Int := 8

/-! ## OutBitStream -/

/-- Modelled from the spec: the class declaration, in `BitStreams.h`, is absent.  The state
is, as in the data model of the spec, the accumulation buffer (`buffer`), the count of valid
bits in it (`bufsize`) and the count of bytes written (`byteswritten`), each an `int`, and
the file: whether it is open, and the bytes put to it so far. -/
structure OutBitStream where
  isOpen : Bool
  file : List Byte
  buffer : Int
  bufsize : Int
  byteswritten : Int
  deriving DecidableEq, Repr

namespace OutBitStream

/-- `OutBitStream::_clear`. -/
def clear (s : OutBitStream) : OutBitStream :=
  { s with buffer := 0, bufsize := 0 }

/-- The stream object as constructed: no file is open. -/
def new : OutBitStream :=
  { isOpen := false, file := [], buffer := 0, bufsize := 0, byteswritten := 0 }

/-- `OutBitStream::_rawdump`: tops the buffer up to a full byte with the leading bits of
`value`, puts that byte to the file and returns the number of bits of `value` left over. -/
def rawdump (s : OutBitStream) (value numbits : Int) : OutBitStream × Int :=
  let numMissing := isub FULLWORD s.bufsize
  let shift := isub numbits numMissing
  let pre := ishr value shift
  let buffer := iadd (ishl s.buffer numMissing) pre
  let s1 := { s with buffer := buffer, file := s.file ++ [toByte buffer],
                     byteswritten := iadd s.byteswritten 1 }
  (s1.clear, isub numbits numMissing)

/-- `OutBitStream::close`: flushes a partly filled buffer, padded with trailing zeroes. -/
def close (s : OutBitStream) : OutBitStream :=
  if s.isOpen then
    let s1 := if s.bufsize != 0 then (s.rawdump 0 (isub FULLWORD s.bufsize)).1 else s
    { s1 with isOpen := false }
  else s

/-- `OutBitStream::open`, `ok` telling whether the file could be opened.  The sink of the
model is the file opened last, empty when it is opened. -/
def «open» (s : OutBitStream) (ok : Bool) : OutBitStream × Bool :=
  let s1 := if s.isOpen then s.close else s
  let s2 := { s1 with isOpen := ok, file := [] }
  let s3 := { s2.clear with byteswritten := 0 }
  (s3, s3.isOpen)

/-- `OutBitStream::write` with the recursion bounded by `fuel`; `none` when the fuel runs
out.  `LIMIT` is the constant of that name, declared in the absent `BitStreams.h`: it is a
parameter. -/
def writeAux (LIMIT : Int) : Nat → OutBitStream → Int → Int → Option OutBitStream
  | 0, _, _, _ => none
  | fuel + 1, s, value, numbits =>
    if s.isOpen && decide (numbits > 0) then
      if s.byteswritten ≥ LIMIT then
        some s.close
      else
        let cleanvalue := iand value (isub (ishl 1 numbits) 1)
        if iadd s.bufsize numbits < FULLWORD then
          let bufsize := iadd s.bufsize numbits
          let buffer := iadd (ishl s.buffer numbits) cleanvalue
          some { s with bufsize := bufsize, buffer := buffer }
        else
          let r := s.rawdump cleanvalue numbits
          let bitsLeft := r.2
          let suffix := iand cleanvalue (isub (ishl 1 bitsLeft) 1)
          writeAux LIMIT fuel r.1 suffix bitsLeft
    else some s

/-- `OutBitStream::write`: with at most 7 bits in the buffer each recursive call has fewer
bits to write, so `numbits + 1` levels are enough. -/
def write (LIMIT : Int) (s : OutBitStream) (value numbits : Int) : Option OutBitStream :=
  writeAux LIMIT (numbits.toNat + 1) s value numbits

/-- A sequence of `write(value, numbits)` calls, in order. -/
def writeAll (LIMIT : Int) : OutBitStream → List (Int × Int) → Option OutBitStream
  | s, [] => some s
  | s, (v, w) :: rest => (write LIMIT s v w).bind (fun s1 => writeAll LIMIT s1 rest)

/-- A stream just opened on an empty file. -/
def opened : OutBitStream := (new.open true).1

end OutBitStream

/-! ## InBitStream -/

/-- Modelled from the spec: the class declaration, in `BitStreams.h`, is absent.  The state
is, as in the data model of the spec, the accumulation buffer (`buffer`) and the count of
valid bits in it (`bufsize`), each an `int`, and the file: whether it is open, its bytes not
yet extracted, and its end-of-file flag (`file.eof()`). -/
structure InBitStream where
  isOpen : Bool
  file : List Byte
  eofbit : Bool
  buffer : Int
  bufsize : Int
  deriving DecidableEq, Repr

namespace InBitStream

/-- `InBitStream::_clear`. -/
def clear (s : InBitStream) : InBitStream :=
  { s with buffer := 0, bufsize := 0 }

/-- The stream object as constructed: no file is open. -/
def new : InBitStream :=
  { isOpen := false, file := [], eofbit := false, buffer := 0, bufsize := 0 }

/-- `file.get()`: the next byte of the file, or `EOF` (-1) with the end-of-file flag set when
there is none. -/
def get (s : InBitStream) : Int × InBitStream :=
  if s.eofbit then (-1, s)
  else match s.file with
    | [] => (-1, { s with eofbit := true })
    | b :: rest => ((b.val : Int), { s with file := rest })

/-- `InBitStream::eof`. -/
def eof (s : InBitStream) : Bool :=
  s.bufsize == 0 && s.eofbit

/-- `InBitStream::_prefetch`. -/
def prefetch (s : InBitStream) : InBitStream :=
  if s.isOpen && s.bufsize == 0 then
    let r := s.get
    let s1 := { r.2 with buffer := r.1 }
    if s1.eofbit then { s1 with buffer := 0 } else { s1 with bufsize := FULLWORD }
  else s

/-- `InBitStream::close`. -/
def close (s : InBitStream) : InBitStream :=
  if s.isOpen then { s with isOpen := false, eofbit := false } else s

/-- `InBitStream::open` on a file: `none` when it cannot be opened, else its bytes. -/
def «open» (s : InBitStream) (src : Option (List Byte)) : InBitStream × Bool :=
  let s1 := if s.isOpen then s.close else s
  let s2 := match src with
    | none => { s1 with isOpen := false, file := [] }
    | some bytes => { s1 with isOpen := true, file := bytes, eofbit := false }
  let s3 := s2.clear.prefetch
  (s3, s3.isOpen)

/-- The branch `numbits == 1` of `InBitStream::read`. -/
def readBit (s : InBitStream) : Int × InBitStream :=
  if s.bufsize > 0 then
    let result := ishr s.buffer (isub s.bufsize 1)
    let buffer := isub s.buffer (ishl result (isub s.bufsize 1))
    let s1 := { s with buffer := buffer, bufsize := isub s.bufsize 1 }
    (result, if s1.bufsize == 0 then s1.prefetch else s1)
  else (0, s)

/-- The call `read(1)`. -/
def read1 (s : InBitStream) : Int × InBitStream :=
  if s.isOpen then s.readBit else (-1, s)

/-- The loop `for (i=0; i<numbits; i++) result = (result<<1) + read(1);` with `k` rounds
left. -/
def readLoop : Nat → Int → InBitStream → Int × InBitStream
  | 0, result, s => (result, s)
  | k + 1, result, s =>
    let r := s.read1
    readLoop k (iadd (ishl result 1) r.1) r.2

/-- `InBitStream::read`. -/
def read (s : InBitStream) (numbits : Int) : Int × InBitStream :=
  if s.isOpen then
    if numbits == 1 then s.readBit
    else readLoop numbits.toNat 0 s
  else (-1, s)

/-- A sequence of `read(numbits)` calls, in order, with the values they return. -/
def readAll : InBitStream → List Int → List Int × InBitStream
  | s, [] => ([], s)
  | s, n :: rest =>
    let r := s.read n
    let q := readAll r.2 rest
    (r.1 :: q.1, q.2)

/-- A stream just opened on a file holding `bytes`. -/
def opened (bytes : List Byte) : InBitStream := (new.open (some bytes)).1

end InBitStream

/-! ## Heap of tree nodes -/

/-- A `Node*`: `none` is `NULL`, `some a` the address of a node. -/
abbrev Ptr := Option Nat

/-- The struct `Node` of `LinkedBinaryTree<int>`. -/
structure Node where
  elem : Int
  parent : Ptr
  left : Ptr
  right : Ptr
  aux : Int
  deriving DecidableEq, Repr

/-- The node `Node(e, p)` that the constructor makes: no children, `aux` 0. -/
def Node.fresh (e : Int) (p : Ptr) : Node :=
  { elem := e, parent := p, left := none, right := none, aux := 0 }

/-- The free store: cell `a` holds the node allocated at address `a`, or nothing once it is
deleted.  An address past the end has not been allocated. -/
abbrev Heap := List (Option Node)

namespace Heap

/-- The node at address `a`, if one is allocated there. -/
def deref (h : Heap) (a : Nat) : Option Node := h.getD a none

/-- The expression `new Node(...)`: the node gets the next unused address. -/
def alloc (h : Heap) (nd : Node) : Heap × Nat := (h ++ [some nd], h.length)

/-- An assignment to members of the node at address `a`; `none` when no node is there. -/
def update (h : Heap) (a : Nat) (f : Node → Node) : Option Heap :=
  match h.deref a with
  | none => none
  | some nd => some (h.set a (some (f nd)))

/-- The statement `delete` on the node at address `a`. -/
def free (h : Heap) (a : Nat) : Heap := h.set a none

end Heap

/-! ## LinkedBinaryTree -/

/-- The messages of the `std::runtime_error`s thrown by `validate`. -/
inductive Err where
  | nullPosition
  | wrongTree
  | notExternal
  deriving DecidableEq, Repr

/-- How a call ends: it returns a value, or throws (`state` is the state at the `throw`), or
dereferences a pointer to no node (`fault`, undefined in C++), or the fuel of the model runs
out (`timeout`). -/
inductive Outcome (σ α : Type) where
  | ok (val : α) (state : σ)
  | thrown (e : Err) (state : σ)
  | fault
  | timeout
  deriving DecidableEq, Repr

/-- The members `rt` and `n` of a `LinkedBinaryTree<int>`, and the address `self` of the
tree object, which a `Position` compares with `this`. -/
structure Tree where
  self : Nat
  rt : Ptr
  n : Int
  deriving DecidableEq, Repr

/-- The class `Position`: a node pointer and a tree pointer. -/
structure Position where
  node : Ptr
  tree : Option Nat
  deriving DecidableEq, Repr

namespace Position

/-- `Position::isNull`. -/
def isNull (p : Position) : Bool := p.node.isNone

/-- `Position::isExternal`; `none` when the position points to no node. -/
def isExternal (h : Heap) (p : Position) : Option Bool :=
  match p.node with
  | none => none
  | some a => (h.deref a).map (fun nd => nd.left.isNone && nd.right.isNone)

/-- `Position::left`. -/
def left (h : Heap) (p : Position) : Option Position :=
  match p.node with
  | none => none
  | some a => (h.deref a).map (fun nd => { node := nd.left, tree := p.tree })

/-- `Position::right`. -/
def right (h : Heap) (p : Position) : Option Position :=
  match p.node with
  | none => none
  | some a => (h.deref a).map (fun nd => { node := nd.right, tree := p.tree })

/-- `Position::parent`. -/
def parent (h : Heap) (p : Position) : Option Position :=
  match p.node with
  | none => none
  | some a => (h.deref a).map (fun nd => { node := nd.parent, tree := p.tree })

/-- `Position::hasLeftChild`. -/
def hasLeftChild (h : Heap) (p : Position) : Option Bool :=
  match p.node with
  | none => none
  | some a => (h.deref a).map (fun nd => nd.left.isSome)

/-- `Position::hasRightChild`. -/
def hasRightChild (h : Heap) (p : Position) : Option Bool :=
  match p.node with
  | none => none
  | some a => (h.deref a).map (fun nd => nd.right.isSome)

/-- `Position::operator*` read: the element of the node. -/
def elem (h : Heap) (p : Position) : Option Int :=
  match p.node with
  | none => none
  | some a => (h.deref a).map (fun nd => nd.elem)

/-- `Position::operator*` written: `*p = value`. -/
def setElem (h : Heap) (p : Position) (value : Int) : Option Heap :=
  match p.node with
  | none => none
  | some a => h.update a (fun nd => { nd with elem := value })

end Position

namespace LinkedBinaryTree

/-- The default constructor: an empty tree (at address `self`). -/
def empty (self : Nat) : Tree := { self := self, rt := none, n := 0 }

/-- `LinkedBinaryTree::size`. -/
def size (t : Tree) : Int := t.n

/-- `LinkedBinaryTree::root`. -/
def root (t : Tree) : Position := { node := t.rt, tree := some t.self }

/-- `Position::isRoot` for a position of the tree `t`. -/
def isRoot (t : Tree) (p : Position) : Bool := p.node == t.rt

/-- `LinkedBinaryTree::validate`: the node of the position, or the error thrown. -/
def validate (t : Tree) (h : Heap) (p : Position) (forceExternal : Bool) :
    Outcome (Heap × Tree) Nat :=
  match p.node with
  | none => .thrown .nullPosition (h, t)
  | some a =>
    if p.tree ≠ some t.self then .thrown .wrongTree (h, t)
    else if forceExternal then
      match p.isExternal h with
      | none => .fault
      | some true => .ok a (h, t)
      | some false => .thrown .notExternal (h, t)
    else .ok a (h, t)

/-- `LinkedBinaryTree::addRoot`. -/
def addRoot (t : Tree) (h : Heap) (value : Int) : Heap × Tree :=
  let r := h.alloc (Node.fresh value none)
  (r.1, { t with rt := some r.2, n := 1 })

/-- `LinkedBinaryTree::expandExternal`.  (`n` counts nodes of the heap, whose number stays
far below `2^31`; it is not reduced to 32 bits.) -/
def expandExternal (t : Tree) (h : Heap) (p : Position) : Outcome (Heap × Tree) Unit :=
  match validate t h p true with
  | .ok ext _ =>
    let l := h.alloc (Node.fresh 0 (some ext))
    match l.1.update ext (fun nd => { nd with left := some l.2 }) with
    | none => .fault
    | some h1 =>
      let r := h1.alloc (Node.fresh 0 (some ext))
      match r.1.update ext (fun nd => { nd with right := some r.2 }) with
      | none => .fault
      | some h2 => .ok () (h2, { t with n := t.n + 2 })
  | .thrown e st => .thrown e st
  | .fault => .fault
  | .timeout => .timeout

/-- `LinkedBinaryTree::removeAboveExternal`: the position returned and the new state.  A
null `parent`, `sib` or `grand` is dereferenced by the code: a `fault`. -/
def removeAboveExternal (t : Tree) (h : Heap) (p : Position) :
    Outcome (Heap × Tree) Position :=
  match validate t h p true with
  | .ok ext _ =>
    match (h.deref ext).bind (fun nd => nd.parent) with
    | none => .fault
    | some parent =>
      match h.deref parent with
      | none => .fault
      | some parentNode =>
        let sib := if some ext = parentNode.left then parentNode.right else parentNode.left
        match sib with
        | none => .fault
        | some sibA =>
          if some parent = t.rt then
            match h.update sibA (fun nd => { nd with parent := none }) with
            | none => .fault
            | some h1 =>
              .ok { node := some sibA, tree := some t.self }
                ((h1.free ext).free parent, { t with rt := some sibA, n := t.n - 2 })
          else
            match parentNode.parent with
            | none => .fault
            | some grand =>
              match h.deref grand with
              | none => .fault
              | some grandNode =>
                let h1 : Heap :=
                  if some parent = grandNode.left then
                    h.set grand (some { grandNode with left := some sibA })
                  else h.set grand (some { grandNode with right := some sibA })
                match h1.update sibA (fun nd => { nd with parent := some grand }) with
                | none => .fault
                | some h2 =>
                  .ok { node := some sibA, tree := some t.self }
                    ((h2.free ext).free parent, { t with n := t.n - 2 })
  | .thrown e st => .thrown e st
  | .fault => .fault
  | .timeout => .timeout

/-- `LinkedBinaryTree::replaceExternalWithSubtree` on the receiver `t` and the tree `t2`,
another object than the receiver: the new heap, receiver and `t2`. -/
def replaceExternalWithSubtree (t : Tree) (h : Heap) (p : Position) (t2 : Tree) :
    Outcome (Heap × Tree × Tree) Unit :=
  match validate t h p true with
  | .ok ext _ =>
    let n1 := t.n + (t2.n - 1)
    if some ext = t.rt then
      .ok () (h.free ext, { t with rt := t2.rt, n := n1 }, { t2 with n := 0, rt := none })
    else
      match h.deref ext with
      | none => .fault
      | some extNode =>
        match t2.rt with
        | none => .fault
        | some r2 =>
          match h.update r2 (fun nd => { nd with parent := extNode.parent }) with
          | none => .fault
          | some h1 =>
            match extNode.parent with
            | none => .fault
            | some parent =>
              match h1.deref parent with
              | none => .fault
              | some parentNode =>
                let h2 : Heap :=
                  if some ext = parentNode.left then
                    h1.set parent (some { parentNode with left := some r2 })
                  else h1.set parent (some { parentNode with right := some r2 })
                .ok () (h2.free ext, { t with n := n1 }, { t2 with n := 0, rt := none })
  | .thrown e st => .thrown e (st.1, st.2, t2)
  | .fault => .fault
  | .timeout => .timeout

/-- `LinkedBinaryTree::replaceExternalWithSubtree` when the argument `T2` is the receiver
itself: `T2.n` and `T2.rt` are then the members `n` and `rt`, and the last two assignments
leave the receiver empty. -/
def replaceExternalWithSubtreeSelf (t : Tree) (h : Heap) (p : Position) :
    Outcome (Heap × Tree) Unit :=
  match validate t h p true with
  | .ok ext _ =>
    if some ext = t.rt then
      .ok () (h.free ext, { t with n := 0, rt := none })
    else
      match h.deref ext with
      | none => .fault
      | some extNode =>
        match t.rt with
        | none => .fault
        | some r2 =>
          match h.update r2 (fun nd => { nd with parent := extNode.parent }) with
          | none => .fault
          | some h1 =>
            match extNode.parent with
            | none => .fault
            | some parent =>
              match h1.deref parent with
              | none => .fault
              | some parentNode =>
                let h2 : Heap := if some ext = parentNode.left then
                    h1.set parent (some { parentNode with left := some r2 })
                  else h1.set parent (some { parentNode with right := some r2 })
                .ok () (h2.free ext, { t with n := 0, rt := none })
  | .thrown e st => .thrown e st
  | .fault => .fault
  | .timeout => .timeout

end LinkedBinaryTree

/-! ## decode.cpp -/

/-- The global variables of `decode.cpp` that the decoder uses, with the free store. -/
structure Globals where
  heap : Heap
  huffman : Tree
  stream : InBitStream
  message : List Byte
  deriving DecidableEq, Repr

namespace Globals

/-- The globals when `main` starts: an empty tree, a stream not opened, an empty string. -/
def init : Globals :=
  { heap := [], huffman := LinkedBinaryTree.empty 0, stream := InBitStream.new, message := [] }

/-- The call `huffman.addRoot()`. -/
def addRoot (g : Globals) : Globals :=
  let r := LinkedBinaryTree.addRoot g.huffman g.heap 0
  { g with heap := r.1, huffman := r.2 }

/-- The call `stream.read(numbits)`.  The call `stream.read()` of `decode.cpp` is
`stream.read(1)`: it reads one bit, as the spec has it (the default argument is declared in
the absent `BitStreams.h`). -/
def read (g : Globals) (numbits : Int) : Int × Globals :=
  let r := g.stream.read numbits
  (r.1, { g with stream := r.2 })

end Globals

/-- `buildTree` of `decode.cpp`, the depth of the recursion bounded by `fuel`. -/
def buildTree : Nat → Globals → Position → Outcome Globals Unit
  | 0, _, _ => .timeout
  | fuel + 1, g, p =>
    let b := g.read 1
    if b.1 == 1 then
      let v := b.2.read 9
      match p.setElem v.2.heap v.1 with
      | none => .fault
      | some h => .ok () { v.2 with heap := h }
    else
      match LinkedBinaryTree.expandExternal b.2.huffman b.2.heap p with
      | .ok _ st =>
        let g1 := { b.2 with heap := st.1, huffman := st.2 }
        match p.left g1.heap with
        | none => .fault
        | some pl =>
          match buildTree fuel g1 pl with
          | .ok _ g2 =>
            match p.right g2.heap with
            | none => .fault
            | some pr => buildTree fuel g2 pr
          | other => other
      | .thrown e st => .thrown e { b.2 with heap := st.1, huffman := st.2 }
      | .fault => .fault
      | .timeout => .timeout

/-- The character `'#'`. -/
def hashChar : Byte := 35

/-- `decode` of `decode.cpp`, the number of rounds of its loop bounded by `fuel`. -/
def decode : Nat → Globals → Position → Outcome Globals Byte
  | 0, _, _ => .timeout
  | fuel + 1, g, pos =>
    match pos.isExternal g.heap with
    | none => .fault
    | some false =>
      let b := g.read 1
      if b.1 == 0 then
        match pos.left b.2.heap with
        | none => .fault
        | some pl => decode fuel b.2 pl
      else
        match pos.right b.2.heap with
        | none => .fault
        | some pr => decode fuel b.2 pr
    | some true =>
      match pos.elem g.heap with
      | none => .fault
      | some v => if v == 256 then .ok hashChar g else .ok (toByte v) g

/-- The loop `while (!stream.eof()) stream.read();` of `main`. -/
def drain : Nat → Globals → Outcome Globals Unit
  | 0, _ => .timeout
  | fuel + 1, g => if g.stream.eof then .ok () g else drain fuel (g.read 1).2

/-- The message loop of `main`, the number of rounds of each loop bounded by `fuel`. -/
def messageLoop : Nat → Globals → Outcome Globals Unit
  | 0, _ => .timeout
  | fuel + 1, g =>
    if g.stream.eof then .ok () g
    else
      match decode (fuel + 1) g (LinkedBinaryTree.root g.huffman) with
      | .ok character g1 =>
        if character ≠ hashChar then
          messageLoop fuel { g1 with message := g1.message ++ [character] }
        else
          match drain (fuel + 1) g1 with
          | .ok _ g2 => messageLoop fuel g2
          | other => other
      | .thrown e st => .thrown e st
      | .fault => .fault
      | .timeout => .timeout

/-- `main` of `decode.cpp` on the file named by the user (`none` when it cannot be opened):
the globals at the end, `message` being the string printed. -/
def main (fuel : Nat) (src : Option (List Byte)) : Outcome Globals Unit :=
  let g := Globals.init.addRoot
  let position := LinkedBinaryTree.root g.huffman
  let g1 := { g with stream := (g.stream.open src).1 }
  match buildTree fuel g1 position with
  | .ok _ g2 => messageLoop fuel g2
  | other => other

/-! ## Bit sequences -/

/-- The bit of `v` at position `k` (position 0 is the least significant). -/
def bitAt (v : Int) (k : Nat) : Bool := decide ((v / 2 ^ k) % 2 = 1)

/-- The bits of `v` at positions `w-1, ..., 0`, most significant first. -/
def bitsMSB : Nat → Int → List Bool
  | 0, _ => []
  | w + 1, v => bitAt v w :: bitsMSB w v

/-- The number whose binary representation, most significant bit first, is `bs`. -/
def valMSB (bs : List Bool) : Int :=
  bs.foldl (fun acc b => 2 * acc + (if b then 1 else 0)) 0

/-- The bits of a sequence of bytes: the bytes in order, each most significant bit first. -/
def bitsOfBytes : List Byte → List Bool
  | [] => []
  | b :: rest => bitsMSB 8 (b.val : Int) ++ bitsOfBytes rest

/-- A bit sequence padded with trailing zero bits to the next byte boundary. -/
def padZeros (bs : List Bool) : List Bool :=
  bs ++ List.replicate ((8 - bs.length % 8) % 8) false

/-- Well-formed state of an open output stream: the buffer holds `bufsize` bits, at most 7,
and `byteswritten` counts the bytes put to the file. -/
def OutBitStream.Inv (s : OutBitStream) : Prop :=
  s.isOpen = true ∧ 0 ≤ s.bufsize ∧ s.bufsize ≤ 7 ∧ 0 ≤ s.buffer ∧
    s.buffer < 2 ^ s.bufsize.toNat ∧ s.byteswritten = s.file.length

/-- The bits an output stream has accepted so far: those of the bytes put to the file,
then the `bufsize` bits waiting in the buffer. -/
def OutBitStream.written (s : OutBitStream) : List Bool :=
  bitsOfBytes s.file ++ bitsMSB s.bufsize.toNat s.buffer

/-- The bits a sequence of `write(value, numbits)` calls is to append: for each call in
order the low `numbits` bits of `value`, most significant bit first. -/
def specBits : List (Int × Int) → List Bool
  | [] => []
  | (v, w) :: rest => bitsMSB w.toNat v ++ specBits rest

/-- Well-formed state of an open input stream: the buffer holds `bufsize` bits, at most 8,
and it is empty exactly when the file has reported its end. -/
def InBitStream.Inv (s : InBitStream) : Prop :=
  s.isOpen = true ∧ 0 ≤ s.bufsize ∧ s.bufsize ≤ 8 ∧ 0 ≤ s.buffer ∧
    s.buffer < 2 ^ s.bufsize.toNat ∧ (s.bufsize = 0 → s.eofbit = true ∧ s.file = []) ∧
    (0 < s.bufsize → s.eofbit = false)

/-- The bits an input stream has not delivered yet: the `bufsize` bits of the buffer, then
those of the bytes still in the file. -/
def InBitStream.pending (s : InBitStream) : List Bool :=
  bitsMSB s.bufsize.toNat s.buffer ++ bitsOfBytes s.file

/-- The next `k` bits of a bit sequence, a bit past its end counting as 0. -/
def nextBits : Nat → List Bool → List Bool
  | 0, _ => []
  | k + 1, [] => false :: nextBits k []
  | k + 1, b :: rest => b :: nextBits k rest

/-- The values a sequence of `read(numbits)` calls is to return on a source with the bits
`bits`: each the number written by the next `numbits` bits, most significant bit first. -/
def specReads : List Bool → List Int → List Int
  | _, [] => []
  | bits, n :: rest => valMSB (nextBits n.toNat bits) :: specReads (bits.drop n.toNat) rest

/-- The values of `k` successive calls `read(1)`, in order, and the state after them. -/
def InBitStream.readBits : Nat → InBitStream → List Int × InBitStream
  | 0, s => ([], s)
  | k + 1, s =>
    let r := s.read1
    let q := readBits k r.2
    (r.1 :: q.1, q.2)

/-- The number accumulated from a sequence of bit values, most significant first. -/
def accumulate (bs : List Int) : Int :=
  bs.foldl (fun acc b => 2 * acc + b) 0

/-- The value `read(1)` returns for the first of the pending bits. -/
def headBit : List Bool → Int
  | [] => 0
  | b :: _ => if b then 1 else 0

/-! ## Trees as values -/

/-- A sequence of `expandExternal` calls on one tree, up to the first that does not return. -/
def LinkedBinaryTree.expandAll : Heap × Tree → List Position → Outcome (Heap × Tree) Unit
  | st, [] => .ok () st
  | st, p :: ps =>
    match LinkedBinaryTree.expandExternal st.2 st.1 p with
    | .ok _ st1 => expandAll st1 ps
    | other => other

/-- The node at address `b` can be reached from the node at address `a` along `left` and
`right` pointers: it is a node of the tree rooted at `a`. -/
inductive Reach (h : Heap) (a : Nat) : Nat → Prop where
  | root : Reach h a a
  | left {b c : Nat} {nd : Node} : Reach h a b → h.deref b = some nd → nd.left = some c →
      Reach h a c
  | right {b c : Nat} {nd : Node} : Reach h a b → h.deref b = some nd → nd.right = some c →
      Reach h a c

/-- A node is proper: it has no children or it has two. -/
def Node.proper (nd : Node) : Prop :=
  (nd.left = none ∧ nd.right = none) ∨ (nd.left.isSome = true ∧ nd.right.isSome = true)

/-- A binary tree in which a node is a leaf holding a value or has exactly two children. -/
inductive BTree where
  | leaf (v : Int)
  | node (l r : BTree)
  deriving DecidableEq, Repr

namespace BTree

/-- The serialization of a tree: in preorder, `1` and the 9-bit value for a leaf, `0` and
the two children, left first, for another node. -/
def ser : BTree → List Bool
  | leaf v => true :: bitsMSB 9 v
  | node l r => false :: (ser l ++ ser r)

/-- The number of edges of the longest path from the root to a leaf. -/
def height : BTree → Nat
  | leaf _ => 0
  | node l r => max (height l) (height r) + 1

/-- The number of nodes. -/
def size : BTree → Nat
  | leaf _ => 1
  | node l r => size l + size r + 1

/-- Every leaf holds a value in `[0, 511]`. -/
def leavesInRange : BTree → Prop
  | leaf v => 0 ≤ v ∧ v ≤ 511
  | node l r => leavesInRange l ∧ leavesInRange r

/-- The leaf that the choices `bits` (0 = left, 1 = right) lead to from the root, with the
bits left over; `none` when the bits end at a node with children. -/
def walk : BTree → List Bool → Option (Int × List Bool)
  | leaf v, bits => some (v, bits)
  | node _ _, [] => none
  | node l _, false :: bits => walk l bits
  | node _ r, true :: bits => walk r bits

end BTree

/-- The nodes of the heap `h` reached from address `a` form the tree `t`: a leaf of `t` is an
external node with that element, another node of `t` has two children, left and right, which
form its subtrees.  (`lo` bounds the addresses of the nodes below the root from below.) -/
def reprIn (h : Heap) (lo : Nat) : Nat → BTree → Prop
  | a, .leaf v => ∃ nd, h.deref a = some nd ∧ nd.elem = v ∧ nd.left = none ∧ nd.right = none
  | a, .node l r => ∃ nd la ra, h.deref a = some nd ∧ nd.left = some la ∧ nd.right = some ra ∧
      lo ≤ la ∧ lo ≤ ra ∧ reprIn h lo la l ∧ reprIn h lo ra r

/-- The tree rooted at the pointer `p` in the heap `h` has the shape and leaf values of
`t`. -/
def Represents (h : Heap) (p : Ptr) (t : BTree) : Prop :=
  ∃ a, p = some a ∧ reprIn h 0 a t

/-- The string that `main` prints, when it returns. -/
def printed : Outcome Globals Unit → Option (List Byte)
  | .ok _ g => some g.message
  | _ => none

/-- The character `decode` returns at a leaf holding `v`. -/
def symbolChar (v : Int) : Byte := if v = 256 then hashChar else toByte v

/-- One call on an output stream: `write(value, numbits)` or `close()`. -/
inductive OutOp where
  | write (value numbits : Int)
  | close
  deriving DecidableEq, Repr

/-- A sequence of `write` and `close` calls, in order. -/
def OutBitStream.run (LIMIT : Int) : OutBitStream → List OutOp → Option OutBitStream
  | s, [] => some s
  | s, .write v n :: rest => (write LIMIT s v n).bind (fun s1 => run LIMIT s1 rest)
  | s, .close :: rest => run LIMIT s.close rest

/-- The number of bits a call is to write; `close()` writes no value. -/
def OutOp.numbits : OutOp → Int
  | .write _ n => n
  | .close => 0

/-- The state of an output stream respects the byte limit: `byteswritten` counts the bytes
of the file, they are at most `LIMIT`, fewer when bits wait in the buffer (so that the flush
of `close` has room), and `bufsize` is in [0,7]. -/
def OutBitStream.Capped (LIMIT : Int) (s : OutBitStream) : Prop :=
  s.byteswritten = s.file.length ∧ (s.file.length : Int) ≤ LIMIT ∧
    (s.bufsize ≠ 0 → (s.file.length : Int) < LIMIT) ∧ 0 ≤ s.bufsize ∧ s.bufsize ≤ 7

/-- The values at the leaves of a tree, from left to right. -/
def BTree.leaves : BTree → List Int
  | .leaf v => [v]
  | .node l r => leaves l ++ leaves r

/-- The tree of height `k` whose right children are all leaves (holding 0). -/
def BTree.comb : Nat → BTree
  | 0 => .leaf 0
  | k + 1 => .node (comb k) (.leaf 0)

/-- The bytes of a bit sequence: each run of 8 bits is one byte, most significant bit
first; fewer than 8 bits at the end make no byte. -/
def packBits : List Bool → List Byte
  | b7 :: b6 :: b5 :: b4 :: b3 :: b2 :: b1 :: b0 :: rest =>
    toByte (valMSB [b7, b6, b5, b4, b3, b2, b1, b0]) :: packBits rest
  | _ => []

/-- The value of the leaf that the choices `bits` (0 = left, 1 = right), a missing bit
counting as 0, lead to from the root, and the number of choices made. -/
def BTree.descend : BTree → List Bool → Int × Nat
  | .leaf v, _ => (v, 0)
  | .node l _, [] => ((descend l []).1, (descend l []).2 + 1)
  | .node l _, false :: bits => ((descend l bits).1, (descend l bits).2 + 1)
  | .node _ r, true :: bits => ((descend r bits).1, (descend r bits).2 + 1)

/-- Whether the root of the tree is a leaf (an external node). -/
def BTree.isLeaf : BTree → Bool
  | .leaf _ => true
  | .node _ _ => false

/-- The message loop of `main` once more, with separate bounds: the condition of the loop
`while (!stream.eof())` is tested at most `calls` times, so that `decode` is called fewer
than `calls` times, and each inner loop makes at most `fuel` rounds. -/
def messageLoopCalls : Nat → Nat → Globals → Outcome Globals Unit
  | 0, _, _ => .timeout
  | calls + 1, fuel, g =>
    if g.stream.eof then .ok () g
    else
      match decode fuel g (LinkedBinaryTree.root g.huffman) with
      | .ok character g1 =>
        if character ≠ hashChar then
          messageLoopCalls calls fuel { g1 with message := g1.message ++ [character] }
        else
          match drain fuel g1 with
          | .ok _ g2 => messageLoopCalls calls fuel g2
          | other => other
      | .thrown e st => .thrown e st
      | .fault => .fault
      | .timeout => .timeout

/-! ## Well-formed trees -/

/-- A binary tree of node addresses: the shape of a tree in the heap, a node having no
children or two. -/
inductive ATree where
  | leaf (a : Nat)
  | node (a : Nat) (l r : ATree)
  deriving DecidableEq, Repr

namespace ATree

/-- The address of the root. -/
def root : ATree → Nat
  | leaf a => a
  | node a _ _ => a

/-- The addresses of the nodes, in preorder. -/
def addrs : ATree → List Nat
  | leaf a => [a]
  | node a l r => a :: (addrs l ++ addrs r)

/-- The number of nodes. -/
def size : ATree → Nat
  | leaf _ => 1
  | node _ l r => size l + size r + 1

/-- The tree with the subtree rooted at address `x` replaced by `s`. -/
def replaceAt : ATree → Nat → ATree → ATree
  | leaf a, x, s => if a = x then s else leaf a
  | node a l r, x, s => if a = x then s else node a (replaceAt l x s) (replaceAt r x s)

/-- The relation `Sub X T`: `X` is a subtree of `T`, a node of `T` with all below it. -/
inductive Sub (X : ATree) : ATree → Prop where
  | refl : Sub X X
  | left {a : Nat} {l r : ATree} : Sub X l → Sub X (node a l r)
  | right {a : Nat} {l r : ATree} : Sub X r → Sub X (node a l r)

end ATree

/-- The nodes of the heap at the addresses of `T` are linked as `T` is: a leaf of `T` is an
external node, another node of `T` points to the roots of its two subtrees, and the parent
link of each node is its owner, that of the root being `par`. -/
def wfAt (h : Heap) : Ptr → ATree → Prop
  | par, .leaf a => ∃ nd, h.deref a = some nd ∧ nd.parent = par ∧ nd.left = none ∧
      nd.right = none
  | par, .node a l r => ∃ nd, h.deref a = some nd ∧ nd.parent = par ∧
      nd.left = some l.root ∧ nd.right = some r.root ∧ wfAt h (some a) l ∧ wfAt h (some a) r

/-- The tree `t` is well-formed, with the nodes `T`: the root of `t` is the root of `T`, the
nodes are linked as in `T` with a null parent link at the root, they are pairwise different,
and `n` is their number. -/
def WFWith (h : Heap) (t : Tree) (T : ATree) : Prop :=
  t.rt = some T.root ∧ wfAt h none T ∧ T.addrs.Nodup ∧ t.n = T.size

/-- A path of `k` child links from the node `a` to a node. -/
inductive ReachN (h : Heap) (a : Nat) : Nat → Nat → Prop where
  | root : ReachN h a 0 a
  | step {k b c : Nat} {nd : Node} : ReachN h a k b → h.deref b = some nd →
      (nd.left = some c ∨ nd.right = some c) → ReachN h a (k + 1) c

/-- Well-formedness of a tree.  An empty tree, with a null root, has size 0.  Otherwise
`size()` is the number of nodes reachable from the root; every reachable node has no
children or two children, which are two nodes; the parent link of every child is the node
that owns it; and the parent link of the root is null. -/
def WF (h : Heap) (t : Tree) : Prop :=
  (t.rt = none → t.n = 0) ∧
  ∀ r, t.rt = some r →
    (∃ l : List Nat, l.Nodup ∧ (∀ b, b ∈ l ↔ Reach h r b) ∧ t.n = l.length) ∧
    (∀ b, Reach h r b → ∃ nd, h.deref b = some nd ∧
      ((nd.left = none ∧ nd.right = none) ∨
        ∃ c1 c2, nd.left = some c1 ∧ nd.right = some c2 ∧ c1 ≠ c2) ∧
      (∀ c, (nd.left = some c ∨ nd.right = some c) →
        ∃ ndc, h.deref c = some ndc ∧ ndc.parent = some b)) ∧
    (∃ nd, h.deref r = some nd ∧ nd.parent = none)

/-- The parent links of the nodes reachable from `r`: the one of `r` is null and the one of
a child is its owner. -/
def Linked (h : Heap) (r : Nat) : Prop :=
  (∃ nd, h.deref r = some nd ∧ nd.parent = none) ∧
  ∀ b, Reach h r b → ∀ nd c, h.deref b = some nd → (nd.left = some c ∨ nd.right = some c) →
    ∃ ndc, h.deref c = some ndc ∧ ndc.parent = some b

/-! ## Sample trees -/

/-- A heap with two trees: the nodes 0 to 4 are a tree whose root 0 has the internal node 1,
with the leaves 3 and 4, on the left and the leaf 2 on the right; the node 5 is a tree of
one node. -/
def demoHeap : Heap :=
  [some ⟨0, none, some 1, some 2, 0⟩, some ⟨0, some 0, some 3, some 4, 0⟩,
    some ⟨66, some 0, none, none, 0⟩, some ⟨65, some 1, none, none, 0⟩,
    some ⟨256, some 1, none, none, 0⟩, some ⟨67, none, none, none, 0⟩]

/-- The tree object at address 0 that owns the nodes 0 to 4 of `demoHeap`. -/
def demoTree : Tree := ⟨0, some 0, 5⟩

/-- The nodes of `demoTree`. -/
def demoShape : ATree := .node 0 (.node 1 (.leaf 3) (.leaf 4)) (.leaf 2)

/-- The tree object at address 1 that owns the node 5 of `demoHeap`. -/
def demoOther : Tree := ⟨1, some 5, 1⟩

/-- The values of `demoTree`: the leaves hold `A`, the sentinel 256 and `B`. -/
def demoCode : BTree := .node (.node (.leaf 65) (.leaf 256)) (.leaf 66)

/-- The globals of `decode.cpp` with `demoTree` as the Huffman tree and a stream opened on
a file of the one byte 64. -/
def demoGlobals : Globals := ⟨demoHeap, demoTree, InBitStream.opened [64], []⟩

/-! # Theorems -/

/-! ## Machine integers -/

theorem wrap32_eq {x : Int} (h1 : -2147483648 ≤ x) (h2 : x < 2147483648) : wrap32 x = x := by
  unfold wrap32; omega

theorem two_pow_le_of_le {n : Nat} (h : n ≤ 31) : (2 : Int) ^ n ≤ 2147483648 := by
  have : (2 : Int) ^ n ≤ 2 ^ 31 := pow_le_pow_right₀ (by norm_num) h
  simpa using this

theorem two_pow_pos (n : Nat) : (0 : Int) < 2 ^ n := by positivity

theorem shift_count {n : Nat} (h : n ≤ 31) : ((n : Int) % 32).toNat = n := by
  omega

theorem mask_eq {n : Nat} (h : n ≤ 31) : isub (ishl 1 (n : Int)) 1 = 2 ^ n - 1 := by
  have hp := two_pow_pos n
  rcases Nat.lt_or_ge n 31 with h1 | h1
  · have h2 : (2 : Int) ^ n ≤ 2 ^ 30 := pow_le_pow_right₀ (by norm_num) (by omega)
    norm_num at h2
    simp only [isub, ishl, shift_count h, one_mul]
    rw [wrap32_eq (x := 2 ^ n) (by omega) (by omega), wrap32_eq (by omega) (by omega)]
  · have : n = 31 := by omega
    subst this
    decide

theorem iand_mask (v : Int) {n : Nat} (h : n ≤ 31) : iand v (2 ^ n - 1) = v % 2 ^ n := by
  have hp := two_pow_pos n
  have hle := two_pow_le_of_le h
  have hb : bits32 (2 ^ n - 1) = 2 ^ n - 1 := by
    unfold bits32
    rw [Int.emod_eq_of_lt (by omega) (by omega)]
    have : ((2 : Int) ^ n - 1) = ((2 ^ n - 1 : Nat) : Int) := by
      have : 1 ≤ 2 ^ n := Nat.one_le_two_pow
      push_cast [Nat.cast_sub this]; ring
    rw [this, Int.toNat_ofNat]
  unfold iand
  rw [hb]
  have h3 : Nat.land (bits32 v) (2 ^ n - 1) = bits32 v % 2 ^ n :=
    Nat.and_pow_two_sub_one_eq_mod _ _
  rw [h3]
  have h4 : ((bits32 v % 2 ^ n : Nat) : Int) = v % 2 ^ n := by
    unfold bits32
    have h5 : (0 : Int) ≤ v % 4294967296 := Int.emod_nonneg _ (by norm_num)
    rw [Int.ofNat_emod, Int.toNat_of_nonneg h5]
    have : ((2 ^ n : Nat) : Int) = 2 ^ n := by push_cast; rfl
    rw [this]
    apply Int.emod_emod_of_dvd
    have : (4294967296 : Int) = 2 ^ 32 := by norm_num
    rw [this]
    exact pow_dvd_pow 2 (by omega)
  show wrap32 ((bits32 v % 2 ^ n : Nat) : Int) = _
  rw [h4]
  have h6 := Int.emod_nonneg v (ne_of_gt hp)
  have h7 := Int.emod_lt_of_pos v hp
  exact wrap32_eq (by omega) (by omega)

/-! ## Bit sequences -/

theorem emod_mul_eq (v : Int) {a b : Int} (ha : 0 < a) (hb : 0 < b) :
    v / (a * b) = v / a / b ∧ v % (a * b) = a * ((v / a) % b) + v % a := by
  have hab : 0 < a * b := Int.mul_pos ha hb
  have h1 := Int.emod_add_ediv v a
  have h2 := Int.emod_add_ediv (v / a) b
  have h3 := Int.emod_nonneg v (ne_of_gt ha)
  have h4 := Int.emod_lt_of_pos v ha
  have h5 := Int.emod_nonneg (v / a) (ne_of_gt hb)
  have h6 := Int.emod_lt_of_pos (v / a) hb
  apply (Int.ediv_emod_unique hab).2
  refine ⟨?_, ?_, ?_⟩
  · calc a * (v / a % b) + v % a + a * b * (v / a / b)
        = v % a + a * (v / a % b + b * (v / a / b)) := by ring
      _ = v := by rw [h2, h1]
  · have := Int.mul_nonneg (le_of_lt ha) h5
    omega
  · have h7 : a * (v / a % b) ≤ a * (b - 1) :=
      Int.mul_le_mul_of_nonneg_left (by omega) (le_of_lt ha)
    have h8 : a * (b - 1) = a * b - a := by ring
    omega

theorem ediv_ediv_pos (v : Int) {a b : Int} (ha : 0 < a) (hb : 0 < b) :
    v / a / b = v / (a * b) := (emod_mul_eq v ha hb).1.symm

theorem emod_mul_ediv (v : Int) {a b : Int} (ha : 0 < a) (hb : 0 < b) :
    v % (a * b) / a = v / a % b := by
  rw [(emod_mul_eq v ha hb).2]
  have h3 := Int.emod_nonneg v (ne_of_gt ha)
  have h4 := Int.emod_lt_of_pos v ha
  rw [Int.add_comm, Int.add_mul_ediv_left _ _ (ne_of_gt ha), Int.ediv_eq_zero_of_lt h3 h4]
  simp

theorem bitsMSB_succ (w : Nat) (v : Int) : bitsMSB (w + 1) v = bitAt v w :: bitsMSB w v := rfl

theorem bitsMSB_length (w : Nat) (v : Int) : (bitsMSB w v).length = w := by
  induction w with
  | zero => rfl
  | succ w ih => simp [bitsMSB, ih]

theorem bitAt_emod (v : Int) {k w : Nat} (h : k < w) : bitAt (v % 2 ^ w) k = bitAt v k := by
  obtain ⟨d, rfl⟩ : ∃ d, w = k + (d + 1) := ⟨w - k - 1, by omega⟩
  unfold bitAt
  rw [pow_add, emod_mul_ediv v (two_pow_pos k) (two_pow_pos (d + 1)),
    Int.emod_emod_of_dvd _ (dvd_pow_self 2 (by omega))]

theorem bitAt_ediv (v : Int) (a b : Nat) : bitAt (v / 2 ^ b) a = bitAt v (a + b) := by
  unfold bitAt
  rw [ediv_ediv_pos v (two_pow_pos b) (two_pow_pos a), ← pow_add, Nat.add_comm]

theorem bitsMSB_emod (v : Int) {k w : Nat} (h : k ≤ w) : bitsMSB k (v % 2 ^ w) = bitsMSB k v := by
  induction k with
  | zero => rfl
  | succ k ih => rw [bitsMSB_succ, bitsMSB_succ, bitAt_emod v (by omega), ih (by omega)]

theorem bitsMSB_split (v : Int) (a b : Nat) :
    bitsMSB (a + b) v = bitsMSB a (v / 2 ^ b) ++ bitsMSB b v := by
  induction a with
  | zero => simp [bitsMSB]
  | succ a ih =>
    rw [show a + 1 + b = (a + b) + 1 by omega, bitsMSB_succ, bitsMSB_succ, ih, bitAt_ediv]
    rfl

theorem bitsMSB_concat (x y : Int) (a : Nat) {b : Nat} (h0 : 0 ≤ y) (h1 : y < 2 ^ b) :
    bitsMSB (a + b) (x * 2 ^ b + y) = bitsMSB a x ++ bitsMSB b y := by
  have hp := two_pow_pos b
  rw [bitsMSB_split]
  have e1 : (x * 2 ^ b + y) / 2 ^ b = x := by
    rw [Int.add_comm, Int.add_mul_ediv_right _ _ (ne_of_gt hp), Int.ediv_eq_zero_of_lt h0 h1]
    simp
  have e2 : (x * 2 ^ b + y) % 2 ^ b = y := by
    rw [Int.add_comm, Int.add_mul_emod_self, Int.emod_eq_of_lt h0 h1]
  rw [e1, ← bitsMSB_emod (x * 2 ^ b + y) (le_refl b), e2]

theorem foldl_bitsMSB (acc v : Int) (w : Nat) :
    (bitsMSB w v).foldl (fun acc b => 2 * acc + (if b then 1 else 0)) acc
      = acc * 2 ^ w + v % 2 ^ w := by
  induction w generalizing acc with
  | zero => simp [bitsMSB, Int.emod_one]
  | succ w ih =>
    rw [bitsMSB_succ, List.foldl_cons, ih]
    have h := (emod_mul_eq v (two_pow_pos w) (show (0 : Int) < 2 by norm_num)).2
    rw [pow_succ, h]
    have h2 := Int.emod_nonneg (v / 2 ^ w) (show (2 : Int) ≠ 0 by norm_num)
    have h3 := Int.emod_lt_of_pos (v / 2 ^ w) (show (0 : Int) < 2 by norm_num)
    unfold bitAt
    by_cases hb : v / 2 ^ w % 2 = 1
    · simp [hb]; ring
    · have : v / 2 ^ w % 2 = 0 := by omega
      simp [this]; ring

theorem valMSB_bitsMSB (v : Int) (w : Nat) : valMSB (bitsMSB w v) = v % 2 ^ w := by
  unfold valMSB
  rw [foldl_bitsMSB]; simp

theorem bitsMSB_zero (w : Nat) : bitsMSB w 0 = List.replicate w false := by
  induction w with
  | zero => rfl
  | succ w ih => rw [bitsMSB_succ, ih, List.replicate_succ]; simp [bitAt]


theorem ishl_eq {x : Int} {n : Nat} (h0 : 0 ≤ x) (h1 : x * 2 ^ n < 2147483648) :
    ishl x (n : Int) = x * 2 ^ n := by
  have := Int.mul_nonneg h0 (le_of_lt (two_pow_pos n))
  rcases eq_or_lt_of_le h0 with hx | hx
  · subst hx
    simp only [ishl, zero_mul]
    rfl
  · have hn : n ≤ 31 := by
      by_contra hc
      have h2 : (2 : Int) ^ 31 ≤ 2 ^ n := pow_le_pow_right₀ (by norm_num) (by omega)
      norm_num at h2
      have h3 : (2 : Int) ^ n ≤ x * 2 ^ n := le_mul_of_one_le_left (le_of_lt (two_pow_pos n)) hx
      omega
    simp only [ishl, shift_count hn]
    exact wrap32_eq (by omega) h1

theorem concat_lt {x y : Int} {a b : Nat} (hx : x < 2 ^ a) (hy : y < 2 ^ b) :
    x * 2 ^ b + y < 2 ^ (a + b) := by
  have hp := two_pow_pos b
  have h1 : (x + 1) * 2 ^ b ≤ 2 ^ a * 2 ^ b :=
    Int.mul_le_mul_of_nonneg_right (by omega) (le_of_lt hp)
  have h2 : (x + 1) * 2 ^ b = x * 2 ^ b + 2 ^ b := by ring
  rw [pow_add]; omega

theorem two_pow_le_pow {a b : Nat} (h : a ≤ b) : (2 : Int) ^ a ≤ 2 ^ b :=
  pow_le_pow_right₀ (by norm_num) h

theorem bitsOfBytes_append (f g : List Byte) :
    bitsOfBytes (f ++ g) = bitsOfBytes f ++ bitsOfBytes g := by
  induction f with
  | nil => rfl
  | cons b f ih => simp [bitsOfBytes, ih]

theorem bitsOfBytes_singleton (b : Byte) : bitsOfBytes [b] = bitsMSB 8 (b.val : Int) := by
  simp [bitsOfBytes]

theorem bitsMSB_zero_width (v : Int) : bitsMSB 0 v = [] := rfl

theorem toByte_val {x : Int} (h0 : 0 ≤ x) (h1 : x < 256) : ((toByte x).val : Int) = x := by
  simp only [toByte]
  omega

theorem OutBitStream.rawdump_eq (s : OutBitStream) {k n : Nat} {c : Int}
    (hk : s.bufsize = (k : Int)) (hk7 : k ≤ 7) (hkn : 8 ≤ k + n) (hn : n ≤ 31)
    (hc0 : 0 ≤ c) (hc1 : c < 2 ^ n) (hb0 : 0 ≤ s.buffer) (hb1 : s.buffer < 2 ^ k)
    (hbw0 : 0 ≤ s.byteswritten) (hbw : s.byteswritten < 2147483647) :
    s.rawdump c (n : Int) =
      ({ s with buffer := 0, bufsize := 0,
                file := s.file ++ [toByte (s.buffer * 2 ^ (8 - k) + c / 2 ^ (k + n - 8))],
                byteswritten := s.byteswritten + 1 }, ((k + n - 8 : Nat) : Int)) := by
  have e1 : isub FULLWORD s.bufsize = ((8 - k : Nat) : Int) := by
    rw [hk]; unfold isub FULLWORD; rw [wrap32_eq (by omega) (by omega)]; omega
  have e2 : isub (n : Int) ((8 - k : Nat) : Int) = ((k + n - 8 : Nat) : Int) := by
    unfold isub; rw [wrap32_eq (by omega) (by omega)]; omega
  have e3 : ishr c ((k + n - 8 : Nat) : Int) = c / 2 ^ (k + n - 8) := by
    simp only [ishr, shift_count (show k + n - 8 ≤ 31 by omega)]
  have h3 : c / 2 ^ (k + n - 8) < 2 ^ (8 - k) := by
    apply Int.ediv_lt_of_lt_mul (two_pow_pos _)
    rw [← pow_add, show 8 - k + (k + n - 8) = n by omega]; exact hc1
  have h4 : s.buffer * 2 ^ (8 - k) + c / 2 ^ (k + n - 8) < 2 ^ (k + (8 - k)) := concat_lt hb1 h3
  rw [show k + (8 - k) = 8 by omega] at h4
  have h5 := Int.mul_nonneg hb0 (le_of_lt (two_pow_pos (8 - k)))
  have h6 : 0 ≤ c / 2 ^ (k + n - 8) := Int.ediv_nonneg hc0 (le_of_lt (two_pow_pos _))
  norm_num at h4
  have e4 : ishl s.buffer ((8 - k : Nat) : Int) = s.buffer * 2 ^ (8 - k) :=
    ishl_eq hb0 (by omega)
  unfold OutBitStream.rawdump
  simp only [e1, e2, e3, e4, OutBitStream.clear]
  have e5 : iadd (s.buffer * 2 ^ (8 - k)) (c / 2 ^ (k + n - 8))
      = s.buffer * 2 ^ (8 - k) + c / 2 ^ (k + n - 8) := by
    unfold iadd
    exact wrap32_eq (by omega) (by omega)
  have e6 : iadd s.byteswritten 1 = s.byteswritten + 1 := by
    unfold iadd; exact wrap32_eq (by omega) (by omega)
  rw [e5, e6]

theorem OutBitStream.writeAux_spec (LIMIT : Int) (hL : LIMIT ≤ 2147483647) :
    ∀ (fuel n : Nat) (s : OutBitStream) (v : Int),
    s.Inv → n ≤ 31 → n < fuel → (8 * (s.file.length : Int) + s.bufsize + n + 7) / 8 ≤ LIMIT →
    ∃ s1, OutBitStream.writeAux LIMIT fuel s v (n : Int) = some s1 ∧ s1.Inv ∧
      s1.written = s.written ++ bitsMSB n v := by
  intro fuel
  induction fuel with
  | zero => intro n s v _ _ h; omega
  | succ fuel ih =>
    intro n s v hinv hn hfuel hlim
    obtain ⟨hopen, hb0, hb7, hbuf0, hbuf1, hbw⟩ := hinv
    obtain ⟨k, hk⟩ := Int.eq_ofNat_of_zero_le hb0
    rw [hk] at hb7 hbuf1 hlim
    simp only [Int.toNat_ofNat] at hbuf1
    have hk7 : k ≤ 7 := by omega
    rcases Nat.eq_zero_or_pos n with h0 | hpos
    · subst h0
      refine ⟨s, ?_, ⟨hopen, hb0, by omega, hbuf0, by rw [hk]; simpa using hbuf1, hbw⟩, ?_⟩
      · simp [OutBitStream.writeAux]
      · simp [bitsMSB]
    · have hlt : ¬ (s.byteswritten ≥ LIMIT) := by rw [hbw]; omega
      have hc0 := Int.emod_nonneg v (ne_of_gt (two_pow_pos n))
      have hc1 := Int.emod_lt_of_pos v (two_pow_pos n)
      have hpn := two_pow_le_of_le hn
      have hsum : iadd s.bufsize n = ((k + n : Nat) : Int) := by
        rw [hk]; unfold iadd; push_cast; exact wrap32_eq (by omega) (by omega)
      unfold OutBitStream.writeAux
      simp only [hopen, Bool.true_and, decide_eq_true_eq, show (n : Int) > 0 by omega, if_true,
        hlt, if_false, mask_eq hn, iand_mask v hn, hsum, FULLWORD]
      by_cases hsmall : ((k + n : Nat) : Int) < 8
      · simp only [hsmall, if_true]
        have h1 : s.buffer * 2 ^ n + v % 2 ^ n < 2 ^ (k + n) := concat_lt hbuf1 hc1
        have h2 : (2 : Int) ^ (k + n) ≤ 2 ^ 7 := two_pow_le_pow (by omega)
        norm_num at h2
        have h3 := Int.mul_nonneg hbuf0 (le_of_lt (two_pow_pos n))
        have e1 : ishl s.buffer (n : Int) = s.buffer * 2 ^ n := ishl_eq hbuf0 (by omega)
        have e2 : iadd (s.buffer * 2 ^ n) (v % 2 ^ n) = s.buffer * 2 ^ n + v % 2 ^ n := by
          unfold iadd; exact wrap32_eq (by omega) (by omega)
        rw [e1, e2]
        refine ⟨_, rfl, ⟨by simp, by simp; omega, by simp; omega, by simp; omega,
          by simpa using h1, hbw⟩, ?_⟩
        simp only [OutBitStream.written, Int.toNat_ofNat, hk, List.append_assoc]
        rw [bitsMSB_concat _ _ k hc0 hc1, bitsMSB_emod v (le_refl n)]
      · simp only [hsmall, if_false]
        have hkn : 8 ≤ k + n := by omega
        have hbw1 : s.byteswritten < 2147483647 := by rw [hbw]; omega
        rw [OutBitStream.rawdump_eq s hk hk7 hkn hn hc0 hc1 hbuf0 hbuf1 (by rw [hbw]; omega) hbw1]
        simp only
        have hd : k + n - 8 ≤ 31 := by omega
        rw [mask_eq hd, iand_mask _ hd]
        obtain ⟨s1, hs1, hinv1, hw1⟩ := ih (k + n - 8)
          (OutBitStream.mk s.isOpen
            (s.file ++ [toByte (s.buffer * 2 ^ (8 - k) + v % 2 ^ n / 2 ^ (k + n - 8))])
            0 0 (s.byteswritten + 1))
          (v % 2 ^ n % 2 ^ (k + n - 8))
          ⟨hopen, by simp, by simp, by simp, by simp, by simp [hbw]⟩ hd (by omega)
          (by simp; omega)
        refine ⟨s1, hs1, hinv1, ?_⟩
        rw [hw1]
        have h3 : v % 2 ^ n / 2 ^ (k + n - 8) < 2 ^ (8 - k) := by
          apply Int.ediv_lt_of_lt_mul (two_pow_pos _)
          rw [← pow_add, show 8 - k + (k + n - 8) = n by omega]; exact hc1
        have h4 : 0 ≤ v % 2 ^ n / 2 ^ (k + n - 8) :=
          Int.ediv_nonneg hc0 (le_of_lt (two_pow_pos _))
        have h5 : s.buffer * 2 ^ (8 - k) + v % 2 ^ n / 2 ^ (k + n - 8) < 2 ^ (k + (8 - k)) :=
          concat_lt hbuf1 h3
        rw [show k + (8 - k) = 8 by omega] at h5
        norm_num at h5
        have h6 := Int.mul_nonneg hbuf0 (le_of_lt (two_pow_pos (8 - k)))
        simp only [OutBitStream.written, Int.toNat_ofNat, hk, bitsOfBytes_append,
          bitsOfBytes_singleton, Int.toNat_zero, bitsMSB_zero_width, List.append_nil,
          List.append_assoc]
        rw [toByte_val (by omega) h5]
        have e8 : bitsMSB 8 (s.buffer * 2 ^ (8 - k) + v % 2 ^ n / 2 ^ (k + n - 8))
            = bitsMSB k s.buffer ++ bitsMSB (8 - k) (v % 2 ^ n / 2 ^ (k + n - 8)) := by
          rw [← bitsMSB_concat _ _ k h4 h3, show k + (8 - k) = 8 by omega]
        have e9 : bitsMSB n v = bitsMSB (8 - k) (v % 2 ^ n / 2 ^ (k + n - 8))
            ++ bitsMSB (k + n - 8) (v % 2 ^ n % 2 ^ (k + n - 8)) := by
          rw [bitsMSB_emod _ (le_refl _), ← bitsMSB_split, show 8 - k + (k + n - 8) = n by omega,
            bitsMSB_emod _ (le_refl _)]
        rw [e8, e9, List.append_assoc]

theorem bitsOfBytes_length (f : List Byte) : (bitsOfBytes f).length = 8 * f.length := by
  induction f with
  | nil => rfl
  | cons b f ih => simp only [bitsOfBytes, List.length_append, bitsMSB_length, ih, List.length_cons]; omega

theorem OutBitStream.written_length {s : OutBitStream} (h : s.Inv) :
    ((s.written.length : Nat) : Int) = 8 * (s.file.length : Int) + s.bufsize := by
  obtain ⟨_, hb0, _⟩ := h
  simp only [OutBitStream.written, List.length_append, bitsOfBytes_length, bitsMSB_length]
  push_cast
  rw [Int.toNat_of_nonneg hb0]

theorem OutBitStream.write_spec (LIMIT : Int) (hL : LIMIT ≤ 2147483647) (s : OutBitStream)
    (v : Int) (n : Nat) (hinv : s.Inv) (hn : n ≤ 31)
    (hlim : ((s.written.length : Int) + n + 7) / 8 ≤ LIMIT) :
    ∃ s1, OutBitStream.write LIMIT s v (n : Int) = some s1 ∧ s1.Inv ∧
      s1.written = s.written ++ bitsMSB n v := by
  unfold OutBitStream.write
  rw [OutBitStream.written_length hinv] at hlim
  exact OutBitStream.writeAux_spec LIMIT hL _ n s v hinv hn (by simp) hlim

theorem specBits_length_nonneg (ws : List (Int × Int)) : 0 ≤ ((specBits ws).length : Int) :=
  Int.ofNat_nonneg _

theorem OutBitStream.writeAll_spec (LIMIT : Int) (hL : LIMIT ≤ 2147483647) :
    ∀ (ws : List (Int × Int)) (s : OutBitStream), s.Inv →
    (∀ p ∈ ws, 0 ≤ p.2 ∧ p.2 ≤ 31) →
    ((s.written.length : Int) + (specBits ws).length + 7) / 8 ≤ LIMIT →
    ∃ s1, OutBitStream.writeAll LIMIT s ws = some s1 ∧ s1.Inv ∧
      s1.written = s.written ++ specBits ws := by
  intro ws
  induction ws with
  | nil => intro s hinv _ _; exact ⟨s, rfl, hinv, by simp [specBits]⟩
  | cons p ws ih =>
    intro s hinv hw hlim
    obtain ⟨v, w⟩ := p
    have hw0 := hw (v, w) (List.mem_cons_self _ _)
    obtain ⟨n, rfl⟩ := Int.eq_ofNat_of_zero_le hw0.1
    have hn : n ≤ 31 := by have := hw0.2; simp only at this; omega
    simp only [specBits, Int.toNat_ofNat, List.length_append, bitsMSB_length] at hlim ⊢
    push_cast at hlim
    have h0 := specBits_length_nonneg ws
    obtain ⟨s1, hs1, hinv1, hw1⟩ := OutBitStream.write_spec LIMIT hL s v n hinv hn
      (le_trans (Int.ediv_le_ediv (by norm_num) (by omega)) hlim)
    obtain ⟨s2, hs2, hinv2, hw2⟩ := ih s1 hinv1
      (fun p hp => hw p (List.mem_cons_of_mem _ hp))
      (by rw [hw1, List.length_append, bitsMSB_length]; push_cast
          rw [show (s.written.length : Int) + n + (specBits ws).length
            = s.written.length + (n + (specBits ws).length) by ring]
          exact hlim)
    refine ⟨s2, ?_, hinv2, ?_⟩
    · simp only [OutBitStream.writeAll, Int.ofNat_eq_coe] at hs1 ⊢
      rw [hs1]; exact hs2
    · rw [hw2, hw1, List.append_assoc]

theorem OutBitStream.opened_inv : OutBitStream.opened.Inv := by
  refine ⟨rfl, ?_, ?_, ?_, ?_, rfl⟩ <;> decide

theorem OutBitStream.opened_written : OutBitStream.opened.written = [] := by
  rfl

theorem OutBitStream.close_spec {s : OutBitStream} (h : s.Inv) :
    bitsOfBytes s.close.file = padZeros s.written ∧ s.close.isOpen = false := by
  have hlen := OutBitStream.written_length h
  obtain ⟨hopen, hb0, hb7, hbuf0, hbuf1, hbw⟩ := h
  obtain ⟨k, hk⟩ := Int.eq_ofNat_of_zero_le hb0
  rw [hk] at hb7 hbuf1 hlen
  simp only [Int.toNat_ofNat] at hbuf1
  have hmod : s.written.length % 8 = k := by omega
  unfold OutBitStream.close padZeros
  rw [hmod]
  simp only [hopen, if_true, and_true]
  rcases Nat.eq_zero_or_pos k with h0 | hpos
  · subst h0
    have : (s.bufsize != 0) = false := by rw [hk]; rfl
    simp [this, OutBitStream.written, hk, bitsMSB_zero_width]
  · have hne : (s.bufsize != 0) = true := by
      rw [hk]; simp only [bne_iff_ne, ne_eq]; omega
    have e1 : isub FULLWORD s.bufsize = ((8 - k : Nat) : Int) := by
      rw [hk]; unfold isub FULLWORD; rw [wrap32_eq (by omega) (by omega)]; omega
    have e2 : isub ((8 - k : Nat) : Int) ((8 - k : Nat) : Int) = 0 := by
      unfold isub; rw [wrap32_eq (by omega) (by omega)]; omega
    have h4 : s.buffer * 2 ^ (8 - k) + 0 < 2 ^ (k + (8 - k)) := concat_lt hbuf1 (two_pow_pos _)
    rw [show k + (8 - k) = 8 by omega] at h4
    norm_num at h4
    have h6 := Int.mul_nonneg hbuf0 (le_of_lt (two_pow_pos (8 - k)))
    have e4 : ishl s.buffer ((8 - k : Nat) : Int) = s.buffer * 2 ^ (8 - k) :=
      ishl_eq hbuf0 (by omega)
    have e5 : iadd (s.buffer * 2 ^ (8 - k)) 0 = s.buffer * 2 ^ (8 - k) := by
      unfold iadd; rw [add_zero]; exact wrap32_eq (by omega) (by omega)
    simp only [hne, if_true, OutBitStream.rawdump, e1, e2, e4, OutBitStream.clear, ishr,
      Int.zero_emod, Int.toNat_zero, pow_zero, Int.ediv_one, e5, bitsOfBytes_append,
      bitsOfBytes_singleton]
    rw [toByte_val h6 h4]
    have e8 : bitsMSB 8 (s.buffer * 2 ^ (8 - k))
        = bitsMSB k s.buffer ++ List.replicate (8 - k) false := by
      have := bitsMSB_concat s.buffer 0 k (le_refl 0) (two_pow_pos (8 - k))
      rw [show k + (8 - k) = 8 by omega, add_zero, bitsMSB_zero] at this
      exact this
    rw [e8, show (8 - k) % 8 = 8 - k by omega]
    simp [OutBitStream.written, hk]
/-! ## InBitStream -/

theorem InBitStream.prefetch_spec (s : InBitStream) (hopen : s.isOpen = true)
    (hb : s.bufsize = 0) (he : s.eofbit = false) :
    s.prefetch.Inv ∧ s.prefetch.pending = bitsOfBytes s.file := by
  unfold InBitStream.prefetch InBitStream.get
  simp only [hopen, hb, he, Bool.true_and, beq_self_eq_true, if_true, Bool.false_eq_true, if_false]
  cases hf : s.file with
  | nil =>
    simp [InBitStream.Inv, InBitStream.pending, hopen, hb, bitsOfBytes, bitsMSB_zero_width, hf]
  | cons b rest =>
    have h1 : (b.val : Int) < 256 := by have := b.isLt; omega
    simp only [he, Bool.false_eq_true, if_false]
    refine ⟨⟨rfl, by simp [FULLWORD], by simp [FULLWORD], by simp, ?_, by simp [FULLWORD],
      fun _ => rfl⟩, ?_⟩
    · simp only [FULLWORD]; exact h1
    · simp [InBitStream.pending, FULLWORD, bitsOfBytes]

theorem InBitStream.readBit_spec (s : InBitStream) (h : s.Inv) :
    s.readBit.1 = headBit s.pending ∧ s.readBit.2.Inv ∧ s.readBit.2.pending = s.pending.tail := by
  obtain ⟨hopen, hb0, hb8, hbuf0, hbuf1, hz, hp⟩ := h
  obtain ⟨k, hk⟩ := Int.eq_ofNat_of_zero_le hb0
  rw [hk] at hb8 hbuf1 hz hp
  simp only [Int.toNat_ofNat] at hbuf1
  rcases Nat.eq_zero_or_pos k with h0 | hpos
  · subst h0
    obtain ⟨he, hf⟩ := hz rfl
    have : ¬ (s.bufsize > 0) := by rw [hk]; simp
    have hrb : s.readBit = (0, s) := by unfold InBitStream.readBit; rw [if_neg this]
    rw [hrb]
    have hpend : s.pending = [] := by
      simp [InBitStream.pending, hk, hf, bitsOfBytes, bitsMSB_zero_width]
    rw [hpend]
    exact ⟨rfl, ⟨hopen, hb0, by rw [hk]; simp, hbuf0, by rw [hk]; simpa using hbuf1,
      fun _ => ⟨he, hf⟩, fun h => by rw [hk] at h; simp at h⟩, rfl⟩
  · obtain ⟨j, rfl⟩ : ∃ j, k = j + 1 := ⟨k - 1, by omega⟩
    have he := hp (by omega)
    have hgt : s.bufsize > 0 := by rw [hk]; omega
    have e1 : isub s.bufsize 1 = (j : Int) := by
      rw [hk]; unfold isub; rw [wrap32_eq (by omega) (by omega)]; omega
    have hpj := two_pow_pos j
    have e2 : ishr s.buffer (j : Int) = s.buffer / 2 ^ j := by
      simp only [ishr, shift_count (show j ≤ 31 by omega)]
    have hr0 : 0 ≤ s.buffer / 2 ^ j := Int.ediv_nonneg hbuf0 (le_of_lt hpj)
    have hr1 : s.buffer / 2 ^ j < 2 := by
      apply Int.ediv_lt_of_lt_mul hpj
      rw [pow_succ] at hbuf1; omega
    have hle : s.buffer / 2 ^ j * 2 ^ j ≤ s.buffer := Int.ediv_mul_le _ (ne_of_gt hpj)
    have hm := Int.emod_add_ediv s.buffer (2 ^ j)
    have hm0 := Int.emod_nonneg s.buffer (ne_of_gt hpj)
    have hm1 := Int.emod_lt_of_pos s.buffer hpj
    have hj : (2 : Int) ^ j ≤ 2 ^ 7 := two_pow_le_pow (by omega)
    norm_num at hj
    have hbuf2 : s.buffer < 256 := by
      have : (2 : Int) ^ (j + 1) ≤ 2 ^ 8 := two_pow_le_pow (by omega)
      norm_num at this; omega
    have e3 : ishl (s.buffer / 2 ^ j) (j : Int) = s.buffer / 2 ^ j * 2 ^ j :=
      ishl_eq hr0 (by omega)
    have e4 : isub s.buffer (s.buffer / 2 ^ j * 2 ^ j) = s.buffer % 2 ^ j := by
      unfold isub
      have : s.buffer - s.buffer / 2 ^ j * 2 ^ j = s.buffer % 2 ^ j := by
        rw [Int.mul_comm]; omega
      rw [this]; exact wrap32_eq (by omega) (by omega)
    have hhead : headBit s.pending = s.buffer / 2 ^ j := by
      simp only [InBitStream.pending, hk, Int.toNat_ofNat, bitsMSB_succ, List.cons_append,
        headBit, bitAt]
      by_cases hb : s.buffer / 2 ^ j % 2 = 1
      · simp only [hb, decide_True, if_true]; omega
      · simp only [hb, decide_False]; simp; omega
    have htail : s.pending.tail = bitsMSB j s.buffer ++ bitsOfBytes s.file := by
      simp only [InBitStream.pending, hk, Int.toNat_ofNat, bitsMSB_succ, List.cons_append,
        List.tail_cons]
    unfold InBitStream.readBit
    rw [if_pos hgt]
    simp only [e1, e2, e3, e4]
    rw [hhead, htail]
    refine ⟨rfl, ?_⟩
    rcases Nat.eq_zero_or_pos j with hj0 | hjpos
    · subst hj0
      simp only [Nat.cast_zero, beq_self_eq_true, if_true]
      have := InBitStream.prefetch_spec
        (InBitStream.mk s.isOpen s.file s.eofbit (s.buffer % 2 ^ 0) 0) hopen rfl he
      simpa [bitsMSB_zero_width] using this
    · have hne : ((j : Int) == 0) = false := by
        simp only [beq_eq_false_iff_ne, ne_eq]; omega
      simp only [hne, Bool.false_eq_true, if_false]
      refine ⟨⟨hopen, by simp, by simp; omega, hm0, by simpa using hm1, ?_, fun _ => he⟩, ?_⟩
      · intro h; simp at h; omega
      · simp only [InBitStream.pending, Int.toNat_ofNat]
        rw [bitsMSB_emod _ (le_refl j)]
theorem InBitStream.read1_eq (s : InBitStream) (h : s.Inv) : s.read1 = s.readBit := by
  unfold InBitStream.read1; rw [if_pos h.1]

theorem headBit_range (l : List Bool) : 0 ≤ headBit l ∧ headBit l ≤ 1 := by
  rcases l with _ | ⟨b, l⟩
  · simp [headBit]
  · cases b <;> simp [headBit]

theorem InBitStream.readLoop_state (k : Nat) : ∀ (acc : Int) (s : InBitStream), s.Inv →
    (InBitStream.readLoop k acc s).2.Inv ∧
      (InBitStream.readLoop k acc s).2.pending = s.pending.drop k := by
  induction k with
  | zero => intro acc s h; exact ⟨h, by simp [InBitStream.readLoop]⟩
  | succ k ih =>
    intro acc s h
    obtain ⟨_, h2, h3⟩ := InBitStream.readBit_spec s h
    simp only [InBitStream.readLoop, InBitStream.read1_eq s h]
    obtain ⟨i1, i2⟩ := ih (iadd (ishl acc 1) s.readBit.1) s.readBit.2 h2
    refine ⟨i1, ?_⟩
    rw [i2, h3, List.drop_tail]

theorem foldl_valMSB (l : List Bool) : ∀ acc : Int,
    l.foldl (fun acc b => 2 * acc + (if b then 1 else 0)) acc = acc * 2 ^ l.length + valMSB l := by
  induction l with
  | nil => intro acc; simp [valMSB]
  | cons b l ih =>
    intro acc
    unfold valMSB
    rw [List.foldl_cons, List.foldl_cons, ih, ih (2 * 0 + _), List.length_cons, pow_succ]
    ring

theorem valMSB_cons (b : Bool) (l : List Bool) :
    valMSB (b :: l) = (if b then 1 else 0) * 2 ^ l.length + valMSB l := by
  show List.foldl _ _ _ = _
  rw [List.foldl_cons, foldl_valMSB]; simp

theorem nextBits_length (k : Nat) : ∀ l : List Bool, (nextBits k l).length = k := by
  induction k with
  | zero => intro l; rfl
  | succ k ih => intro l; cases l <;> simp [nextBits, ih]

theorem valMSB_nextBits_succ (k : Nat) (l : List Bool) :
    valMSB (nextBits (k + 1) l) = headBit l * 2 ^ k + valMSB (nextBits k l.tail) := by
  rcases l with _ | ⟨b, l⟩
  · simp only [nextBits, valMSB_cons, nextBits_length, headBit, List.tail_nil]; simp
  · simp only [nextBits, valMSB_cons, nextBits_length, headBit, List.tail_cons]

theorem InBitStream.readLoop_value (k : Nat) : ∀ (acc : Int) (s : InBitStream), s.Inv →
    0 ≤ acc → acc * 2 ^ k + 2 ^ k ≤ 2147483648 →
    (InBitStream.readLoop k acc s).1 = acc * 2 ^ k + valMSB (nextBits k s.pending) := by
  induction k with
  | zero => intro acc s _ _ _; simp [InBitStream.readLoop, nextBits, valMSB]
  | succ k ih =>
    intro acc s h h0 h1
    obtain ⟨e1, h2, h3⟩ := InBitStream.readBit_spec s h
    obtain ⟨r0, r1⟩ := headBit_range s.pending
    have hp := two_pow_pos k
    rw [pow_succ] at h1
    have hacc : acc * 2 + 2 ≤ 2147483648 := by
      by_contra hc
      have : (2147483648 : Int) * 1 ≤ (acc * 2 + 2 - 1) * 2 ^ k :=
        Int.mul_le_mul (by omega) (by omega) (by norm_num) (by omega)
      have e : (acc * 2 + 2 - 1) * 2 ^ k = acc * (2 ^ k * 2) + 2 ^ k * 2 - 2 ^ k := by ring
      omega
    have e2 : iadd (ishl acc 1) (headBit s.pending) = acc * 2 + headBit s.pending := by
      have : ishl acc 1 = acc * 2 := by
        have := ishl_eq (x := acc) (n := 1) h0 (by omega)
        simpa using this
      rw [this]; unfold iadd; exact wrap32_eq (by omega) (by omega)
    simp only [InBitStream.readLoop, InBitStream.read1_eq s h]
    rw [e1, e2, ih _ _ h2 (by omega), h3, valMSB_nextBits_succ]
    · ring
    · have e : (acc * 2 + headBit s.pending) * 2 ^ k + 2 ^ k
          ≤ (acc * 2 + 1) * 2 ^ k + 2 ^ k :=
        Int.add_le_add_right (Int.mul_le_mul_of_nonneg_right (by omega) (le_of_lt hp)) _
      have e' : (acc * 2 + 1) * 2 ^ k + 2 ^ k = acc * (2 ^ k * 2) + 2 ^ k * 2 := by ring
      omega
theorem InBitStream.readLoop_readBits (k : Nat) : ∀ (acc : Int) (s : InBitStream),
    (InBitStream.readLoop k acc s).2 = (InBitStream.readBits k s).2 := by
  induction k with
  | zero => intro acc s; rfl
  | succ k ih => intro acc s; simp only [InBitStream.readLoop, InBitStream.readBits, ih]

theorem InBitStream.readBits_value (k : Nat) : ∀ (acc : Int) (s : InBitStream), s.Inv →
    (InBitStream.readBits k s).1.foldl (fun acc b => 2 * acc + b) acc
      = acc * 2 ^ k + valMSB (nextBits k s.pending) := by
  induction k with
  | zero => intro acc s _; simp [InBitStream.readBits, nextBits, valMSB]
  | succ k ih =>
    intro acc s h
    obtain ⟨e1, h2, h3⟩ := InBitStream.readBit_spec s h
    simp only [InBitStream.readBits, InBitStream.read1_eq s h, List.foldl_cons]
    rw [ih _ _ h2, e1, h3, valMSB_nextBits_succ]
    ring

theorem InBitStream.read_state (s : InBitStream) (n : Int) (h : s.Inv) :
    (s.read n).2.Inv ∧ (s.read n).2.pending = s.pending.drop n.toNat := by
  unfold InBitStream.read
  rw [if_pos h.1]
  by_cases h1 : n = 1
  · subst h1
    obtain ⟨_, h2, h3⟩ := InBitStream.readBit_spec s h
    simp only [beq_self_eq_true, if_true]
    exact ⟨h2, by rw [h3]; simp⟩
  · have : (n == 1) = false := by simpa using h1
    simp only [this, Bool.false_eq_true, if_false]
    exact InBitStream.readLoop_state _ 0 s h

theorem InBitStream.read_value (s : InBitStream) (n : Nat) (h : s.Inv) (h1 : 1 ≤ n)
    (h31 : n ≤ 31) : (s.read (n : Int)).1 = valMSB (nextBits n s.pending) := by
  unfold InBitStream.read
  rw [if_pos h.1]
  by_cases hn : n = 1
  · subst hn
    obtain ⟨e1, _, _⟩ := InBitStream.readBit_spec s h
    simp only [Nat.cast_one, beq_self_eq_true, if_true, e1]
    rw [valMSB_nextBits_succ]; simp [nextBits, valMSB]
  · have : ((n : Int) == 1) = false := by
      simp only [beq_eq_false_iff_ne, ne_eq]; omega
    simp only [this, Bool.false_eq_true, if_false, Int.toNat_ofNat]
    have hp := two_pow_le_of_le h31
    rw [InBitStream.readLoop_value n 0 s h (le_refl 0) (by omega)]
    simp

theorem InBitStream.read_eq_readBits (s : InBitStream) (n : Nat) (h : s.Inv) (h1 : 1 ≤ n)
    (h31 : n ≤ 31) :
    s.read (n : Int) = (accumulate (InBitStream.readBits n s).1, (InBitStream.readBits n s).2) := by
  have hv := InBitStream.read_value s n h h1 h31
  have ha : accumulate (InBitStream.readBits n s).1 = valMSB (nextBits n s.pending) := by
    unfold accumulate; rw [InBitStream.readBits_value n 0 s h]; simp
  apply Prod.ext
  · rw [hv, ha]
  · show (s.read (n : Int)).2 = (InBitStream.readBits n s).2
    unfold InBitStream.read
    rw [if_pos h.1]
    by_cases hn : n = 1
    · subst hn
      simp [InBitStream.readBits, InBitStream.read1_eq s h]
    · have : ((n : Int) == 1) = false := by
        simp only [beq_eq_false_iff_ne, ne_eq]; omega
      simp only [this, Bool.false_eq_true, if_false, Int.toNat_ofNat]
      exact InBitStream.readLoop_readBits n 0 s

theorem InBitStream.opened_spec (bytes : List Byte) :
    (InBitStream.opened bytes).Inv ∧ (InBitStream.opened bytes).pending = bitsOfBytes bytes := by
  exact InBitStream.prefetch_spec
    (InBitStream.mk true bytes false 0 0) rfl rfl rfl

theorem InBitStream.readAll_state : ∀ (ns : List Int) (s : InBitStream), s.Inv →
    (InBitStream.readAll s ns).2.Inv ∧
      (InBitStream.readAll s ns).2.pending = s.pending.drop (ns.map Int.toNat).sum := by
  intro ns
  induction ns with
  | nil => intro s h; exact ⟨h, by simp [InBitStream.readAll]⟩
  | cons n ns ih =>
    intro s h
    obtain ⟨h1, h2⟩ := InBitStream.read_state s n h
    obtain ⟨h3, h4⟩ := ih _ h1
    simp only [InBitStream.readAll, List.map_cons, List.sum_cons]
    exact ⟨h3, by rw [h4, h2, List.drop_drop, Nat.add_comm]⟩

theorem InBitStream.readAll_value : ∀ (ns : List Int) (s : InBitStream), s.Inv →
    (∀ n ∈ ns, 1 ≤ n ∧ n ≤ 31) →
    (InBitStream.readAll s ns).1 = specReads s.pending ns := by
  intro ns
  induction ns with
  | nil => intro s _ _; rfl
  | cons n ns ih =>
    intro s h hn
    obtain ⟨h1, h31⟩ := hn n (List.mem_cons_self _ _)
    obtain ⟨k, rfl⟩ := Int.eq_ofNat_of_zero_le (show 0 ≤ n by omega)
    obtain ⟨i1, i2⟩ := InBitStream.read_state s (k : Int) h
    simp only [InBitStream.readAll, specReads, Int.ofNat_eq_coe, Int.toNat_ofNat]
    rw [InBitStream.read_value s k h (by omega) (by omega),
      ih _ i1 (fun m hm => hn m (List.mem_cons_of_mem _ hm)), i2]
    simp
theorem nextBits_append_left (l : List Bool) (rest : List Bool) :
    nextBits l.length (l ++ rest) = l := by
  induction l with
  | nil => rfl
  | cons b l ih => simp [nextBits, ih]

theorem specBits_length : ∀ (ps : List (Int × Int)), (∀ p ∈ ps, 0 ≤ p.2) →
    ((specBits ps).length : Int) = (ps.map Prod.snd).sum := by
  intro ps
  induction ps with
  | nil => intro _; rfl
  | cons p ps ih =>
    intro h
    obtain ⟨v, w⟩ := p
    have h0 : 0 ≤ w := h (v, w) (List.mem_cons_self _ _)
    simp only [specBits, List.length_append, bitsMSB_length, List.map_cons, List.sum_cons]
    push_cast
    rw [ih (fun p hp => h p (List.mem_cons_of_mem _ hp)), Int.toNat_of_nonneg h0]

/-- C2: for every sequence of `write(v, w)` calls with each `w` in [1,30] on a freshly opened
`OutBitStream` whose output is within the byte limit, with `B` the concatenation in call
order of the low `w` bits of each `v`, most significant bit first: before `close` the bytes
put to the file are exactly the first `|B| / 8` bytes of `B`, and after `close` the file
holds exactly `B` padded with trailing zero bits to the next byte boundary. -/
theorem output_wire_format (LIMIT : Int) (hL : LIMIT ≤ 2147483647) (ws : List (Int × Int))
    (hw : ∀ p ∈ ws, 1 ≤ p.2 ∧ p.2 ≤ 30)
    (hlim : ((ws.map Prod.snd).sum + 7) / 8 ≤ LIMIT) :
    ∃ s, OutBitStream.writeAll LIMIT OutBitStream.opened ws = some s ∧
      s.file.length = (specBits ws).length / 8 ∧
      bitsOfBytes s.file = (specBits ws).take (8 * ((specBits ws).length / 8)) ∧
      bitsOfBytes s.close.file = padZeros (specBits ws) := by
  have hlen := specBits_length ws (fun p hp => by have := (hw p hp).1; omega)
  obtain ⟨s, hs, hinv, hwr⟩ := OutBitStream.writeAll_spec LIMIT hL ws OutBitStream.opened
    OutBitStream.opened_inv
    (fun p hp => ⟨by have := (hw p hp).1; omega, by have := (hw p hp).2; omega⟩)
    (by rw [OutBitStream.opened_written, hlen]; simpa using hlim)
  rw [OutBitStream.opened_written, List.nil_append] at hwr
  obtain ⟨hc, _⟩ := OutBitStream.close_spec hinv
  have hl := OutBitStream.written_length hinv
  obtain ⟨_, hb0, hb7, _⟩ := hinv
  rw [hwr] at hl hc
  have hdiv : (specBits ws).length / 8 = s.file.length := by omega
  refine ⟨s, hs, hdiv.symm, ?_, hc⟩
  rw [hdiv, ← hwr, OutBitStream.written, ← bitsOfBytes_length, List.take_left]

/-- Witness of C2: 3, 7 and 9 bits, 19 in all, make two bytes before `close` and three
after. -/
theorem output_wire_format_witness :
    ∃ s, OutBitStream.writeAll 16 OutBitStream.opened [(5, 3), (300, 7), (1, 9)] = some s ∧
      s.file.length = (specBits [(5, 3), (300, 7), (1, 9)]).length / 8 ∧
      bitsOfBytes s.file = (specBits [(5, 3), (300, 7), (1, 9)]).take
        (8 * ((specBits [(5, 3), (300, 7), (1, 9)]).length / 8)) ∧
      bitsOfBytes s.close.file = padZeros (specBits [(5, 3), (300, 7), (1, 9)]) :=
  output_wire_format 16 (by decide) [(5, 3), (300, 7), (1, 9)] (by decide) (by decide)

/-- C3: for every byte sequence `S` and every sequence of `read(n)` calls with `n` in
[1,31] on an `InBitStream` opened on `S`, each call returns the number written, most
significant bit first, by the next `n` bits of `S`, a bit past the end of `S` counting as 0;
and a further `read(n)` returns the accumulation, most significant first, of `n` successive
`read(1)` results and leaves the stream where they leave it. -/
theorem input_read_semantics (S : List Byte) (ns : List Int) (n : Int)
    (hns : ∀ m ∈ ns, 1 ≤ m ∧ m ≤ 31) (hn : 1 ≤ n ∧ n ≤ 31) :
    (InBitStream.readAll (InBitStream.opened S) ns).1 = specReads (bitsOfBytes S) ns ∧
    (InBitStream.readAll (InBitStream.opened S) ns).2.read n =
      (accumulate (InBitStream.readBits n.toNat
          (InBitStream.readAll (InBitStream.opened S) ns).2).1,
        (InBitStream.readBits n.toNat (InBitStream.readAll (InBitStream.opened S) ns).2).2) := by
  obtain ⟨hi, hp⟩ := InBitStream.opened_spec S
  obtain ⟨hi2, _⟩ := InBitStream.readAll_state ns _ hi
  obtain ⟨k, rfl⟩ := Int.eq_ofNat_of_zero_le (show 0 ≤ n by omega)
  refine ⟨?_, ?_⟩
  · rw [InBitStream.readAll_value ns _ hi hns, hp]
  · exact InBitStream.read_eq_readBits _ k hi2 (by omega) (by omega)

/-- Witness of C3: two bytes, read as 3, 9 and 7 bits, then 5 bits past the end. -/
theorem input_read_semantics_witness :
    (InBitStream.readAll (InBitStream.opened [0xA5, 0x3C]) [3, 9, 7]).1
      = specReads (bitsOfBytes [0xA5, 0x3C]) [3, 9, 7] ∧
    (InBitStream.readAll (InBitStream.opened [0xA5, 0x3C]) [3, 9, 7]).2.read 5 =
      (accumulate (InBitStream.readBits (5 : Int).toNat
          (InBitStream.readAll (InBitStream.opened [0xA5, 0x3C]) [3, 9, 7]).2).1,
        (InBitStream.readBits (5 : Int).toNat
          (InBitStream.readAll (InBitStream.opened [0xA5, 0x3C]) [3, 9, 7]).2).2) :=
  input_read_semantics [0xA5, 0x3C] [3, 9, 7] 5 (by decide) (by decide)

/-- C4: for every byte sequence `S` and every sequence of reads on an `InBitStream` opened
on `S`, `eof()` is true if and only if the number of bits requested so far is at least
`8 * |S|`. -/
theorem eof_exactness (S : List Byte) (ns : List Int) :
    (InBitStream.readAll (InBitStream.opened S) ns).2.eof = true ↔
      8 * S.length ≤ (ns.map Int.toNat).sum := by
  obtain ⟨hi, hp⟩ := InBitStream.opened_spec S
  obtain ⟨hi2, hp2⟩ := InBitStream.readAll_state ns _ hi
  rw [hp] at hp2
  have hlen : (InBitStream.readAll (InBitStream.opened S) ns).2.pending.length
      = 8 * S.length - (ns.map Int.toNat).sum := by
    rw [hp2, List.length_drop, bitsOfBytes_length]
  generalize (InBitStream.readAll (InBitStream.opened S) ns).2 = s at hi2 hlen
  obtain ⟨_, hb0, _, _, _, hz, hpz⟩ := hi2
  simp only [InBitStream.pending, List.length_append, bitsMSB_length, bitsOfBytes_length] at hlen
  unfold InBitStream.eof
  constructor
  · intro h
    simp only [Bool.and_eq_true, beq_iff_eq] at h
    obtain ⟨_, hf⟩ := hz h.1
    rw [h.1, hf] at hlen
    simp at hlen
    omega
  · intro h
    have h0 : s.bufsize = 0 := by omega
    simp only [Bool.and_eq_true, beq_iff_eq]
    exact ⟨h0, (hz h0).1⟩
/-! ## Heap -/

theorem Heap.deref_lt {h : Heap} {a : Nat} {nd : Node} (hd : h.deref a = some nd) :
    a < h.length := by
  by_contra hc
  have : h.deref a = none := by
    simp [Heap.deref, List.getD_eq_getElem?_getD, List.getElem?_eq_none (not_lt.1 hc)]
  rw [this] at hd; cases hd

theorem Heap.deref_append_left (h l : Heap) {a : Nat} (ha : a < h.length) :
    Heap.deref (h ++ l) a = h.deref a := by
  simp [Heap.deref, List.getD_eq_getElem?_getD, List.getElem?_append_left ha]

theorem Heap.deref_append_new (h : Heap) (x : Option Node) :
    Heap.deref (h ++ [x]) h.length = x := by
  simp [Heap.deref, List.getD_eq_getElem?_getD]

theorem Heap.deref_set_eq (h : Heap) {a : Nat} (x : Option Node) (ha : a < h.length) :
    Heap.deref (h.set a x) a = x := by
  simp [Heap.deref, List.getD_eq_getElem?_getD, List.getElem?_set, ha]

theorem Heap.deref_set_ne (h : Heap) {a b : Nat} (x : Option Node) (hab : a ≠ b) :
    Heap.deref (h.set a x) b = h.deref b := by
  simp [Heap.deref, List.getD_eq_getElem?_getD, List.getElem?_set, hab]

theorem Heap.update_eq {h : Heap} {a : Nat} {nd : Node} (hd : h.deref a = some nd)
    (f : Node → Node) : h.update a f = some (h.set a (some (f nd))) := by
  simp [Heap.update, hd]

/-! ## LinkedBinaryTree -/

theorem LinkedBinaryTree.validate_external {t : Tree} {h : Heap} {p : Position} {a : Nat}
    {nd : Node} (hp : p.node = some a) (ht : p.tree = some t.self) (hd : h.deref a = some nd)
    (hl : nd.left = none) (hr : nd.right = none) :
    LinkedBinaryTree.validate t h p true = .ok a (h, t) := by
  simp [LinkedBinaryTree.validate, hp, ht, Position.isExternal, hd, hl, hr]

theorem LinkedBinaryTree.expandExternal_spec {t : Tree} {h : Heap} {p : Position} {a : Nat}
    {nd : Node} (hp : p.node = some a) (ht : p.tree = some t.self) (hd : h.deref a = some nd)
    (hl : nd.left = none) (hr : nd.right = none) :
    ∃ h2, LinkedBinaryTree.expandExternal t h p = .ok () (h2, { t with n := t.n + 2 }) ∧
      h2.length = h.length + 2 ∧
      h2.deref a = some { nd with left := some h.length, right := some (h.length + 1) } ∧
      h2.deref h.length = some (Node.fresh 0 (some a)) ∧
      h2.deref (h.length + 1) = some (Node.fresh 0 (some a)) ∧
      ∀ b, b < h.length → b ≠ a → h2.deref b = h.deref b := by
  have ha := Heap.deref_lt hd
  have hd1 : Heap.deref (h ++ [some (Node.fresh 0 (some a))]) a = some nd := by
    rw [Heap.deref_append_left h _ ha, hd]
  have hlen1 : a < (h ++ [some (Node.fresh 0 (some a))]).length := by simp; omega
  have hd2 : Heap.deref (((h ++ [some (Node.fresh 0 (some a))]).set a
      (some { nd with left := some h.length })) ++ [some (Node.fresh 0 (some a))]) a
      = some { nd with left := some h.length } := by
    rw [Heap.deref_append_left _ _ (by simp; omega), Heap.deref_set_eq _ _ hlen1]
  refine ⟨(((h ++ [some (Node.fresh 0 (some a))]).set a
      (some { nd with left := some h.length })) ++ [some (Node.fresh 0 (some a))]).set a
      (some { nd with left := some h.length, right := some (h.length + 1) }),
    ?_, ?_, ?_, ?_, ?_, ?_⟩
  · simp only [LinkedBinaryTree.expandExternal, LinkedBinaryTree.validate_external hp ht hd hl hr,
      Heap.alloc, Heap.update_eq hd1, Heap.update_eq hd2, List.length_set, List.length_append,
      List.length_singleton]
  · simp
  · rw [Heap.deref_set_eq _ _ (by simp; omega)]
  · rw [Heap.deref_set_ne _ _ (by omega), Heap.deref_append_left _ _ (by simp),
      Heap.deref_set_ne _ _ (by omega), Heap.deref_append_new]
  · rw [Heap.deref_set_ne _ _ (by omega)]
    have := Heap.deref_append_new ((h ++ [some (Node.fresh 0 (some a))]).set a
      (some { nd with left := some h.length })) (some (Node.fresh 0 (some a)))
    simpa using this
  · intro b hb hba
    rw [Heap.deref_set_ne _ _ (Ne.symm hba), Heap.deref_append_left _ _ (by simp; omega),
      Heap.deref_set_ne _ _ (Ne.symm hba), Heap.deref_append_left _ _ hb]
theorem LinkedBinaryTree.expandExternal_ok_inv {t : Tree} {h : Heap} {p : Position} {u : Unit}
    {st : Heap × Tree} (hok : LinkedBinaryTree.expandExternal t h p = .ok u st) :
    ∃ a nd, p.node = some a ∧ p.tree = some t.self ∧ h.deref a = some nd ∧
      nd.left = none ∧ nd.right = none := by
  unfold LinkedBinaryTree.expandExternal LinkedBinaryTree.validate at hok
  rcases hp : p.node with _ | a
  · simp [hp] at hok
  · by_cases ht : p.tree = some t.self
    · rcases hd : h.deref a with _ | nd
      · simp [hp, ht, Position.isExternal, hd] at hok
      · refine ⟨a, nd, rfl, ht, hd, ?_⟩
        rcases hl : nd.left with _ | l
        · rcases hr : nd.right with _ | r
          · exact ⟨rfl, rfl⟩
          · simp [hp, ht, Position.isExternal, hd, hl, hr] at hok
        · simp [hp, ht, Position.isExternal, hd, hl] at hok
    · simp [hp, ht] at hok

theorem LinkedBinaryTree.expandExternal_thrown {t : Tree} {h : Heap} {p : Position} {e : Err}
    {st : Heap × Tree} (hth : LinkedBinaryTree.expandExternal t h p = .thrown e st) :
    st = (h, t) ∧ (p.isNull = true ∨ p.tree ≠ some t.self ∨ p.isExternal h = some false) := by
  have hth0 := hth
  unfold LinkedBinaryTree.expandExternal LinkedBinaryTree.validate at hth
  rcases hp : p.node with _ | a
  · simp only [hp] at hth
    cases hth
    exact ⟨rfl, Or.inl (by simp [Position.isNull, hp])⟩
  · by_cases ht : p.tree = some t.self
    · rcases hx : p.isExternal h with _ | b
      · simp [hp, ht, hx] at hth
      · cases b
        · simp only [hp, ht, hx, ne_eq, not_true_eq_false, if_false, if_true] at hth
          cases hth
          exact ⟨rfl, Or.inr (Or.inr rfl)⟩
        · exfalso
          simp only [Position.isExternal, hp, Option.map_eq_some'] at hx
          obtain ⟨nd, hd, hb⟩ := hx
          simp only [Bool.and_eq_true, Option.isNone_iff_eq_none] at hb
          obtain ⟨h2, hok, _⟩ := LinkedBinaryTree.expandExternal_spec (t := t) hp ht hd hb.1 hb.2
          rw [hok] at hth0
          cases hth0
    · simp only [hp, ne_eq, ht, not_false_eq_true, if_true] at hth
      cases hth
      exact ⟨rfl, Or.inr (Or.inl ht)⟩

theorem LinkedBinaryTree.expandExternal_bad {t : Tree} {h : Heap} {p : Position}
    (hbad : p.isNull = true ∨ p.tree ≠ some t.self ∨ p.isExternal h = some false) :
    ∃ e, LinkedBinaryTree.expandExternal t h p = .thrown e (h, t) := by
  unfold LinkedBinaryTree.expandExternal LinkedBinaryTree.validate
  rcases hp : p.node with _ | a
  · exact ⟨.nullPosition, rfl⟩
  · by_cases ht : p.tree = some t.self
    · rcases hbad with hn | hne | hx
      · simp [Position.isNull, hp] at hn
      · exact absurd ht hne
      · exact ⟨.notExternal, by simp [ht, hx]⟩
    · exact ⟨.wrongTree, by simp [ht]⟩

/-- C10: for a position `p` that is null or points to a node, `expandExternal(p)` throws if
and only if `p` is null, or is bound to another tree, or its node is not external; when it
throws, heap and tree are as before; otherwise it returns, the node of `p` has got two
children, new external nodes holding 0 whose parent is that node, `n` is larger by 2, and
every other node is as before. -/
theorem expandExternal_error_handling (t : Tree) (h : Heap) (p : Position)
    (hlive : p.isNull = true ∨ (p.isExternal h).isSome = true) :
    ((∃ e st, LinkedBinaryTree.expandExternal t h p = .thrown e st) ↔
      (p.isNull = true ∨ p.tree ≠ some t.self ∨ p.isExternal h = some false)) ∧
    (∀ e st, LinkedBinaryTree.expandExternal t h p = .thrown e st → st = (h, t)) ∧
    ((¬ ∃ e st, LinkedBinaryTree.expandExternal t h p = .thrown e st) →
      ∃ a nd h2, p.node = some a ∧ h.deref a = some nd ∧
        LinkedBinaryTree.expandExternal t h p = .ok () (h2, { t with n := t.n + 2 }) ∧
        h2.length = h.length + 2 ∧
        h2.deref a = some { nd with left := some h.length, right := some (h.length + 1) } ∧
        h2.deref h.length = some (Node.fresh 0 (some a)) ∧
        h2.deref (h.length + 1) = some (Node.fresh 0 (some a)) ∧
        ∀ b, b < h.length → b ≠ a → h2.deref b = h.deref b) := by
  have key : (p.isNull = true ∨ p.tree ≠ some t.self ∨ p.isExternal h = some false) ∨
      ∃ a nd, p.node = some a ∧ p.tree = some t.self ∧ h.deref a = some nd ∧
        nd.left = none ∧ nd.right = none := by
    rcases hp : p.node with _ | a
    · exact Or.inl (Or.inl (by simp [Position.isNull, hp]))
    · by_cases ht : p.tree = some t.self
      · rcases hlive with hn | hx
        · simp [Position.isNull, hp] at hn
        · simp only [Position.isExternal, hp, Option.isSome_map'] at hx
          obtain ⟨nd, hd⟩ := Option.isSome_iff_exists.1 hx
          by_cases hb : nd.left = none ∧ nd.right = none
          · exact Or.inr ⟨a, nd, rfl, ht, hd, hb.1, hb.2⟩
          · refine Or.inl (Or.inr (Or.inr ?_))
            simp only [Position.isExternal, hp, hd, Option.map_some', Option.some.injEq,
              Bool.and_eq_false_imp, Option.isNone_iff_eq_none]
            intro hl
            cases hr : nd.right with
            | none => exact absurd ⟨hl, hr⟩ hb
            | some r => rfl
      · exact Or.inl (Or.inr (Or.inl ht))
  refine ⟨⟨?_, ?_⟩, ?_, ?_⟩
  · rintro ⟨e, st, hth⟩
    exact (LinkedBinaryTree.expandExternal_thrown hth).2
  · intro hbad
    obtain ⟨e, he⟩ := LinkedBinaryTree.expandExternal_bad (t := t) hbad
    exact ⟨e, _, he⟩
  · intro e st hth
    exact (LinkedBinaryTree.expandExternal_thrown hth).1
  · intro hno
    rcases key with hbad | ⟨a, nd, hp, ht, hd, hl, hr⟩
    · obtain ⟨e, he⟩ := LinkedBinaryTree.expandExternal_bad (t := t) hbad
      exact absurd ⟨e, _, he⟩ hno
    · obtain ⟨h2, hh⟩ := LinkedBinaryTree.expandExternal_spec (t := t) hp ht hd hl hr
      exact ⟨a, nd, h2, hp, hd, hh⟩

/-- Witness of C10: the root of a one-node tree is expanded. -/
theorem expandExternal_error_handling_witness :
    ((∃ e st, LinkedBinaryTree.expandExternal ⟨0, some 0, 1⟩ [some (Node.fresh 7 none)]
        ⟨some 0, some 0⟩ = .thrown e st) ↔
      ((⟨some 0, some 0⟩ : Position).isNull = true ∨
        (⟨some 0, some 0⟩ : Position).tree ≠ some (⟨0, some 0, 1⟩ : Tree).self ∨
        (⟨some 0, some 0⟩ : Position).isExternal [some (Node.fresh 7 none)] = some false)) ∧
    (∀ e st, LinkedBinaryTree.expandExternal ⟨0, some 0, 1⟩ [some (Node.fresh 7 none)]
        ⟨some 0, some 0⟩ = .thrown e st → st = ([some (Node.fresh 7 none)], ⟨0, some 0, 1⟩)) ∧
    ((¬ ∃ e st, LinkedBinaryTree.expandExternal ⟨0, some 0, 1⟩ [some (Node.fresh 7 none)]
        ⟨some 0, some 0⟩ = .thrown e st) →
      ∃ a nd h2, (⟨some 0, some 0⟩ : Position).node = some a ∧
        Heap.deref [some (Node.fresh 7 none)] a = some nd ∧
        LinkedBinaryTree.expandExternal ⟨0, some 0, 1⟩ [some (Node.fresh 7 none)]
          ⟨some 0, some 0⟩ = .ok () (h2, { (⟨0, some 0, 1⟩ : Tree) with n := (1 : Int) + 2 }) ∧
        h2.length = [some (Node.fresh 7 none)].length + 2 ∧
        h2.deref a = some { nd with left := some [some (Node.fresh 7 none)].length,
                                    right := some ([some (Node.fresh 7 none)].length + 1) } ∧
        h2.deref [some (Node.fresh 7 none)].length = some (Node.fresh 0 (some a)) ∧
        h2.deref ([some (Node.fresh 7 none)].length + 1) = some (Node.fresh 0 (some a)) ∧
        ∀ b, b < [some (Node.fresh 7 none)].length → b ≠ a →
          h2.deref b = Heap.deref [some (Node.fresh 7 none)] b) :=
  expandExternal_error_handling ⟨0, some 0, 1⟩ [some (Node.fresh 7 none)] ⟨some 0, some 0⟩
    (Or.inr (by decide))
/-- Every node allocated at or after address `lo` is proper, with children allocated at or
after `lo`. -/
theorem LinkedBinaryTree.expandAll_inv (lo : Nat) : ∀ (ps : List Position) (st st1 : Heap × Tree),
    LinkedBinaryTree.expandAll st ps = .ok () st1 →
    lo ≤ st.1.length →
    (∀ b, lo ≤ b → b < st.1.length → ∃ nd, st.1.deref b = some nd ∧
      ((nd.left = none ∧ nd.right = none) ∨
        ∃ l r, nd.left = some l ∧ nd.right = some r ∧ lo ≤ l ∧ l < st.1.length ∧
          lo ≤ r ∧ r < st.1.length)) →
    st1.2.n = st.2.n + 2 * ps.length ∧ st1.2.rt = st.2.rt ∧ st.1.length ≤ st1.1.length ∧
    (∀ b, lo ≤ b → b < st1.1.length → ∃ nd, st1.1.deref b = some nd ∧
      ((nd.left = none ∧ nd.right = none) ∨
        ∃ l r, nd.left = some l ∧ nd.right = some r ∧ lo ≤ l ∧ l < st1.1.length ∧
          lo ≤ r ∧ r < st1.1.length)) := by
  intro ps
  induction ps with
  | nil =>
    intro st st1 hrun hlo hinv
    simp only [LinkedBinaryTree.expandAll, Outcome.ok.injEq, true_and] at hrun
    subst hrun
    exact ⟨by simp, rfl, le_refl _, hinv⟩
  | cons p ps ih =>
    intro st st1 hrun hlo hinv
    obtain ⟨h, t⟩ := st
    simp only [LinkedBinaryTree.expandAll] at hrun
    rcases hx : LinkedBinaryTree.expandExternal t h p with ⟨u, st2⟩ | ⟨e, st2⟩ | _ | _
    · obtain ⟨a, nd, hp, ht, hd, hl, hr⟩ := LinkedBinaryTree.expandExternal_ok_inv hx
      obtain ⟨h2, hok, hlen, hda, hdl, hdr, hframe⟩ :=
        LinkedBinaryTree.expandExternal_spec (t := t) hp ht hd hl hr
      rw [hok] at hx
      simp only [Outcome.ok.injEq, true_and] at hx
      subst hx
      rw [hok] at hrun
      simp only at hrun hlo hinv
      have ha := Heap.deref_lt hd
      obtain ⟨i1, i2, i3, i4⟩ := ih _ st1 hrun (by simp only; omega) (by
        intro b hb1 hb2
        simp only at hb2 ⊢
        by_cases hba : b = a
        · subst hba
          exact ⟨_, hda, Or.inr ⟨_, _, rfl, rfl, by omega, by omega, by omega, by omega⟩⟩
        · by_cases hbl : b = h.length
          · subst hbl; exact ⟨_, hdl, Or.inl ⟨rfl, rfl⟩⟩
          · by_cases hbr : b = h.length + 1
            · subst hbr; exact ⟨_, hdr, Or.inl ⟨rfl, rfl⟩⟩
            · have hb : b < h.length := by omega
              obtain ⟨nd1, hd1, hc⟩ := hinv b hb1 hb
              refine ⟨nd1, by rw [hframe b hb hba, hd1], ?_⟩
              rcases hc with hc | ⟨l, r, e1, e2, b1, b2, b3, b4⟩
              · exact Or.inl hc
              · exact Or.inr ⟨l, r, e1, e2, b1, by omega, b3, by omega⟩)
      simp only at i1 i2 i3
      refine ⟨?_, i2, by show h.length ≤ _; omega, i4⟩
      rw [i1]; simp only [List.length_cons]; push_cast; ring
    · rw [hx] at hrun; cases hrun
    · rw [hx] at hrun; cases hrun
    · rw [hx] at hrun; cases hrun

theorem Reach.bounds {h : Heap} {lo r : Nat} (hr0 : lo ≤ r) (hr1 : r < h.length)
    (hinv : ∀ b, lo ≤ b → b < h.length → ∃ nd, h.deref b = some nd ∧
      ((nd.left = none ∧ nd.right = none) ∨
        ∃ l r, nd.left = some l ∧ nd.right = some r ∧ lo ≤ l ∧ l < h.length ∧
          lo ≤ r ∧ r < h.length))
    {b : Nat} (hb : Reach h r b) : lo ≤ b ∧ b < h.length := by
  induction hb with
  | root => exact ⟨hr0, hr1⟩
  | left _ hd hl ih =>
    obtain ⟨nd1, hd1, hc⟩ := hinv _ ih.1 ih.2
    rw [hd] at hd1; cases hd1
    rcases hc with hc | ⟨l, r, e1, e2, b1, b2, b3, b4⟩
    · rw [hc.1] at hl; cases hl
    · rw [e1] at hl; cases hl; exact ⟨b1, b2⟩
  | right _ hd hl ih =>
    obtain ⟨nd1, hd1, hc⟩ := hinv _ ih.1 ih.2
    rw [hd] at hd1; cases hd1
    rcases hc with hc | ⟨l, r, e1, e2, b1, b2, b3, b4⟩
    · rw [hc.2] at hl; cases hl
    · rw [e2] at hl; cases hl; exact ⟨b3, b4⟩

/-- C9: after `k` successful `expandExternal` calls on a tree that starts as a single root
made by `addRoot`, every node of the tree is external or has exactly two children, and the
size is `1 + 2 * k`. -/
theorem tree_structural_invariant (h0 : Heap) (t0 : Tree) (value : Int) (ps : List Position)
    (st : Heap × Tree)
    (hrun : LinkedBinaryTree.expandAll (LinkedBinaryTree.addRoot t0 h0 value) ps = .ok () st) :
    LinkedBinaryTree.size st.2 = 1 + 2 * ps.length ∧
    ∃ r, st.2.rt = some r ∧
      ∀ b, Reach st.1 r b → ∃ nd, st.1.deref b = some nd ∧ nd.proper := by
  obtain ⟨i1, i2, i3, i4⟩ := LinkedBinaryTree.expandAll_inv h0.length ps _ st hrun
    (by simp [LinkedBinaryTree.addRoot, Heap.alloc])
    (by
      intro b hb1 hb2
      simp only [LinkedBinaryTree.addRoot, Heap.alloc, List.length_append,
        List.length_singleton] at hb2 ⊢
      have : b = h0.length := by omega
      subst this
      exact ⟨_, Heap.deref_append_new _ _, Or.inl ⟨rfl, rfl⟩⟩)
  simp only [LinkedBinaryTree.addRoot, Heap.alloc, List.length_append,
    List.length_singleton] at i1 i2 i3
  refine ⟨by simp only [LinkedBinaryTree.size]; rw [i1], h0.length, i2, ?_⟩
  intro b hb
  obtain ⟨b0, b1⟩ := Reach.bounds (le_refl _) (by omega) i4 hb
  obtain ⟨nd, hd, hc⟩ := i4 b b0 b1
  refine ⟨nd, hd, ?_⟩
  rcases hc with hc | ⟨l, r, e1, e2, _⟩
  · exact Or.inl hc
  · exact Or.inr ⟨by simp [e1], by simp [e2]⟩

/-- Witness of C9: the root and then its left child are expanded. -/
theorem tree_structural_invariant_witness :
    LinkedBinaryTree.size (⟨0, some 0, 5⟩ : Tree)
      = 1 + 2 * ([⟨some 0, some 0⟩, ⟨some 1, some 0⟩] : List Position).length ∧
    ∃ r, (⟨0, some 0, 5⟩ : Tree).rt = some r ∧
      ∀ b, Reach [some ⟨6, none, some 1, some 2, 0⟩, some ⟨0, some 0, some 3, some 4, 0⟩,
          some (Node.fresh 0 (some 0)), some (Node.fresh 0 (some 1)),
          some (Node.fresh 0 (some 1))] r b →
        ∃ nd, Heap.deref [some ⟨6, none, some 1, some 2, 0⟩,
          some ⟨0, some 0, some 3, some 4, 0⟩, some (Node.fresh 0 (some 0)),
          some (Node.fresh 0 (some 1)), some (Node.fresh 0 (some 1))] b = some nd ∧ nd.proper :=
  tree_structural_invariant [] (LinkedBinaryTree.empty 0) 6
    [⟨some 0, some 0⟩, ⟨some 1, some 0⟩]
    ([some ⟨6, none, some 1, some 2, 0⟩, some ⟨0, some 0, some 3, some 4, 0⟩,
      some (Node.fresh 0 (some 0)), some (Node.fresh 0 (some 1)),
      some (Node.fresh 0 (some 1))], ⟨0, some 0, 5⟩) (by decide)
/-! ## buildTree -/

theorem InBitStream.read_one {s : InBitStream} {b : Bool} {r : List Bool} (h : s.Inv)
    (hp : s.pending = b :: r) :
    (s.read 1).1 = (if b then 1 else 0) ∧ (s.read 1).2.Inv ∧ (s.read 1).2.pending = r := by
  have hv := InBitStream.read_value s 1 h (le_refl 1) (by omega)
  have hs := InBitStream.read_state s 1 h
  simp only [Nat.cast_one] at hv
  rw [hp] at hv hs
  refine ⟨?_, hs.1, by simpa using hs.2⟩
  rw [hv]
  simp [nextBits, valMSB]

theorem InBitStream.read_nine {s : InBitStream} {v : Int} {rest : List Bool} (h : s.Inv)
    (hp : s.pending = bitsMSB 9 v ++ rest) (h0 : 0 ≤ v) (h1 : v ≤ 511) :
    (s.read 9).1 = v ∧ (s.read 9).2.Inv ∧ (s.read 9).2.pending = rest := by
  have hv := InBitStream.read_value s 9 h (by omega) (by omega)
  have hs := InBitStream.read_state s 9 h
  simp only [Nat.cast_ofNat] at hv
  rw [hp] at hv hs
  have e1 := nextBits_append_left (bitsMSB 9 v) rest
  rw [bitsMSB_length] at e1
  have e2 := List.drop_left (bitsMSB 9 v) rest
  rw [bitsMSB_length] at e2
  refine ⟨?_, hs.1, ?_⟩
  · rw [hv, e1, valMSB_bitsMSB]; norm_num; omega
  · rw [hs.2]; simpa using e2

theorem reprIn_mono {h : Heap} {m lo1 : Nat} (hlo : lo1 ≤ m) : ∀ (t : BTree) (a : Nat),
    reprIn h m a t → reprIn h lo1 a t := by
  intro t
  induction t with
  | leaf v => intro a hr; exact hr
  | node l r ihl ihr =>
    rintro a ⟨nd, la, ra, hd, hl, hr, b1, b2, r1, r2⟩
    exact ⟨nd, la, ra, hd, hl, hr, by omega, by omega, ihl la r1, ihr ra r2⟩

theorem reprIn_frame {h h1 : Heap} {lo : Nat} : ∀ (t : BTree) (a : Nat),
    reprIn h lo a t →
    (∀ b nd, (b = a ∨ lo ≤ b) → h.deref b = some nd → h1.deref b = some nd) →
    reprIn h1 lo a t := by
  intro t
  induction t with
  | leaf v =>
    rintro a ⟨nd, hd, he, hl, hr⟩ hf
    exact ⟨nd, hf a nd (Or.inl rfl) hd, he, hl, hr⟩
  | node l r ihl ihr =>
    rintro a ⟨nd, la, ra, hd, hl, hr, b1, b2, r1, r2⟩ hf
    refine ⟨nd, la, ra, hf a nd (Or.inl rfl) hd, hl, hr, b1, b2, ?_, ?_⟩
    · exact ihl la r1 (fun b nd1 hb hd1 => hf b nd1 (Or.inr (by omega)) hd1)
    · exact ihr ra r2 (fun b nd1 hb hd1 => hf b nd1 (Or.inr (by omega)) hd1)

theorem BTree.size_pos (t : BTree) : 1 ≤ t.size := by
  cases t <;> simp [BTree.size]

theorem buildTree_spec : ∀ (t : BTree) (fuel : Nat) (g : Globals) (a : Nat) (nd : Node)
    (rest : List Bool),
    t.height < fuel → t.leavesInRange →
    g.stream.Inv → g.stream.pending = t.ser ++ rest →
    g.heap.deref a = some nd → nd.left = none → nd.right = none →
    ∃ g1, buildTree fuel g ⟨some a, some g.huffman.self⟩ = .ok () g1 ∧
      g1.stream.Inv ∧ g1.stream.pending = rest ∧ g1.message = g.message ∧
      g1.huffman = { g.huffman with n := g.huffman.n + (t.size - 1 : Nat) } ∧
      g.heap.length ≤ g1.heap.length ∧
      (∀ b, b < g.heap.length → b ≠ a → g1.heap.deref b = g.heap.deref b) ∧
      reprIn g1.heap g.heap.length a t := by
  intro t
  induction t with
  | leaf v =>
    intro fuel g a nd rest hfuel hrange hinv hpend hd hl hr
    obtain ⟨f, rfl⟩ : ∃ f, fuel = f + 1 := ⟨fuel - 1, by simp [BTree.height] at hfuel; omega⟩
    obtain ⟨e1, i1, p1⟩ := InBitStream.read_one hinv (by rw [hpend]; rfl)
    obtain ⟨e2, i2, p2⟩ := InBitStream.read_nine i1 p1 hrange.1 hrange.2
    have ha := Heap.deref_lt hd
    refine ⟨{ g with stream := ((g.stream.read 1).2.read 9).2,
                     heap := g.heap.set a (some { nd with elem := v }) }, ?_, i2, p2, rfl, ?_, ?_,
      ?_, ?_⟩
    · simp only [buildTree, Globals.read, e1, if_true, beq_self_eq_true, e2, Position.setElem,
        Heap.update_eq hd]
    · simp [BTree.size]
    · simp
    · intro b _ hba
      exact Heap.deref_set_ne _ _ (Ne.symm hba)
    · exact ⟨_, Heap.deref_set_eq _ _ ha, rfl, hl, hr⟩
  | node l r ihl ihr =>
    intro fuel g a nd rest hfuel hrange hinv hpend hd hl hr
    obtain ⟨f, rfl⟩ : ∃ f, fuel = f + 1 := ⟨fuel - 1, by omega⟩
    simp only [BTree.height] at hfuel
    obtain ⟨e1, i1, p1⟩ := InBitStream.read_one (b := false) (r := l.ser ++ (r.ser ++ rest))
      hinv (by rw [hpend]; simp [BTree.ser])
    have ha := Heap.deref_lt hd
    obtain ⟨h2, hok, hlen, hda, hdl, hdr, hframe⟩ :=
      LinkedBinaryTree.expandExternal_spec (t := g.huffman)
        (p := ⟨some a, some g.huffman.self⟩) rfl rfl hd hl hr
    -- the left subtree
    obtain ⟨g3, hb3, i3, p3, m3, t3, len3, fr3, rep3⟩ := ihl f
      { g with stream := (g.stream.read 1).2, heap := h2,
               huffman := { g.huffman with n := g.huffman.n + 2 } }
      g.heap.length (Node.fresh 0 (some a)) (r.ser ++ rest) (by omega) hrange.1 i1 p1 hdl rfl rfl
    simp only at hb3 p3 m3 t3 len3 fr3 rep3
    have hda3 : g3.heap.deref a
        = some { nd with left := some g.heap.length, right := some (g.heap.length + 1) } := by
      rw [fr3 a (by omega) (by omega), hda]
    have hdr3 : g3.heap.deref (g.heap.length + 1) = some (Node.fresh 0 (some a)) := by
      rw [fr3 _ (by omega) (by omega), hdr]
    -- the right subtree
    obtain ⟨g4, hb4, i4, p4, m4, t4, len4, fr4, rep4⟩ := ihr f g3
      (g.heap.length + 1) (Node.fresh 0 (some a)) rest (by omega) hrange.2 i3 p3 hdr3 rfl rfl
    have hself : g3.huffman.self = g.huffman.self := by rw [t3]
    have hda4 : g4.heap.deref a
        = some { nd with left := some g.heap.length, right := some (g.heap.length + 1) } := by
      rw [fr4 a (by omega) (by omega), hda3]
    refine ⟨g4, ?_, i4, p4, by rw [m4, m3], ?_, by omega, ?_, ?_⟩
    · simp only [buildTree, Globals.read, e1, if_false, show ((0 : Int) == 1) = false by decide,
        Bool.false_eq_true, hok, Position.left, hda, Option.map_some', hb3, Position.right, hda3]
      rw [← hself]; exact hb4
    · rw [t4, t3]
      have s1 := BTree.size_pos l
      have s2 := BTree.size_pos r
      simp only [BTree.size, Tree.mk.injEq, true_and]
      omega
    · intro b hb hba
      rw [fr4 b (by omega) (by omega), fr3 b (by omega) (by omega), hframe b hb hba]
    · refine ⟨_, _, _, hda4, rfl, rfl, le_refl _, by omega, ?_, ?_⟩
      · apply reprIn_mono (m := h2.length) (by omega)
        apply reprIn_frame l _ rep3
        intro b nd1 hb hd1
        have hb1 := Heap.deref_lt hd1
        rw [fr4 b hb1 (by omega), hd1]
      · exact reprIn_mono (by omega) r _ rep4
/-- C5: for every tree `t` with leaf values in [0,511] and every bit sequence `rest`, on a
stream positioned at `ser t ++ rest` the call `buildTree` on the root of the tree made by
`addRoot` returns (a recursion depth above the height of `t` is enough), the tree it leaves
has exactly the shape and leaf values of `t`, and the stream is positioned at the first bit
of `rest`. -/
theorem deserializer_faithful (t : BTree) (rest : List Bool) (g : Globals) (fuel : Nat)
    (hfuel : t.height < fuel) (hrange : t.leavesInRange) (hinv : g.stream.Inv)
    (hpend : g.stream.pending = t.ser ++ rest) :
    ∃ g1, buildTree fuel g.addRoot (LinkedBinaryTree.root g.addRoot.huffman) = .ok () g1 ∧
      Represents g1.heap g1.huffman.rt t ∧ LinkedBinaryTree.size g1.huffman = t.size ∧
      g1.stream.Inv ∧ g1.stream.pending = rest := by
  obtain ⟨g1, hb, i1, p1, _, t1, _, _, rep⟩ := buildTree_spec t fuel g.addRoot g.heap.length
    (Node.fresh 0 none) rest hfuel hrange hinv hpend
    (by simp only [Globals.addRoot, LinkedBinaryTree.addRoot, Heap.alloc]
        exact Heap.deref_append_new _ _) rfl rfl
  refine ⟨g1, hb, ⟨g.heap.length, by rw [t1]; rfl, reprIn_mono (Nat.zero_le _) t _ rep⟩, ?_,
    i1, p1⟩
  rw [t1]
  have := BTree.size_pos t
  simp only [LinkedBinaryTree.size, Globals.addRoot, LinkedBinaryTree.addRoot]
  omega

/-- Witness of C5: a tree of two leaves, 65 and 256, followed by the bits `1 0 1`. -/
theorem deserializer_faithful_witness :
    ∃ g1, buildTree 2 ({ Globals.init with stream := InBitStream.opened [72, 56, 5] }).addRoot
        (LinkedBinaryTree.root
          ({ Globals.init with stream := InBitStream.opened [72, 56, 5] }).addRoot.huffman)
        = .ok () g1 ∧
      Represents g1.heap g1.huffman.rt (.node (.leaf 65) (.leaf 256)) ∧
      LinkedBinaryTree.size g1.huffman = (BTree.node (.leaf 65) (.leaf 256)).size ∧
      g1.stream.Inv ∧ g1.stream.pending = [true, false, true] :=
  deserializer_faithful (.node (.leaf 65) (.leaf 256)) [true, false, true]
    { Globals.init with stream := InBitStream.opened [72, 56, 5] } 2 (by decide)
    ⟨⟨by decide, by decide⟩, ⟨by decide, by decide⟩⟩
    (InBitStream.opened_spec [72, 56, 5]).1 (by decide)

/-! ## decode -/

theorem decode_spec : ∀ (t : BTree) (fuel : Nat) (g : Globals) (lo a : Nat) (tr : Option Nat)
    (bits rest : List Bool) (v : Int),
    reprIn g.heap lo a t → g.stream.Inv → g.stream.pending = bits ++ rest →
    t.walk bits = some (v, []) → bits.length < fuel →
    ∃ s, decode fuel g ⟨some a, tr⟩ = .ok (symbolChar v) { g with stream := s } ∧
      s.Inv ∧ s.pending = rest := by
  intro t
  induction t with
  | leaf w =>
    intro fuel g lo a tr bits rest v hrep hinv hpend hwalk hfuel
    obtain ⟨f, rfl⟩ : ∃ f, fuel = f + 1 := ⟨fuel - 1, by omega⟩
    obtain ⟨nd, hd, he, hl, hr⟩ := hrep
    simp only [BTree.walk, Option.some.injEq, Prod.mk.injEq] at hwalk
    obtain ⟨rfl, rfl⟩ := hwalk
    refine ⟨g.stream, ?_, hinv, by simpa using hpend⟩
    simp only [decode, Position.isExternal, hd, Option.map_some', hl, hr, Option.isNone_none,
      Bool.and_self, Position.elem, he, symbolChar]
    by_cases h256 : w = 256
    · simp [h256]
    · simp [h256]
  | node l r ihl ihr =>
    intro fuel g lo a tr bits rest v hrep hinv hpend hwalk hfuel
    obtain ⟨f, rfl⟩ : ∃ f, fuel = f + 1 := ⟨fuel - 1, by omega⟩
    obtain ⟨nd, la, ra, hd, hl, hr, _, _, r1, r2⟩ := hrep
    rcases bits with _ | ⟨b, bits⟩
    · simp [BTree.walk] at hwalk
    · obtain ⟨e1, i1, p1⟩ := InBitStream.read_one (b := b) (r := bits ++ rest) hinv
        (by rw [hpend]; rfl)
      simp only [List.length_cons] at hfuel
      cases b
      · have e1 : (g.stream.read 1).1 = 0 := by simpa using e1
        simp only [BTree.walk] at hwalk
        obtain ⟨s, hs, i2, p2⟩ := ihl f { g with stream := (g.stream.read 1).2 } lo la tr
          bits rest v r1 i1 p1 hwalk (by omega)
        refine ⟨s, ?_, i2, p2⟩
        simp only [decode, Position.isExternal, hd, Option.map_some', hl, Option.isNone_some,
          Bool.false_and, Globals.read, e1, Bool.false_eq_true, if_false, beq_self_eq_true,
          if_true, Position.left, hs]
      · have e1 : (g.stream.read 1).1 = 1 := by simpa using e1
        simp only [BTree.walk] at hwalk
        obtain ⟨s, hs, i2, p2⟩ := ihr f { g with stream := (g.stream.read 1).2 } lo ra tr
          bits rest v r2 i1 p1 hwalk (by omega)
        refine ⟨s, ?_, i2, p2⟩
        simp only [decode, Position.isExternal, hd, Option.map_some', hl, Option.isNone_some,
          Bool.false_and, Globals.read, e1, if_true, show ((1 : Int) == 0) = false by decide,
          Bool.false_eq_true, if_false, Position.right, hr, hs]

/-- C6: for every tree in which a node is external or has two children, and every bit
sequence `bits` whose choices (0 = left, 1 = right) from the root first reach an external
node after exactly its `k` bits, `decode(root)` on a stream whose next bits are `bits`
returns (`k + 1` rounds are enough), consumes exactly those bits, changes nothing else, and
returns the symbol stored at that node, `'#'` when the value stored is 256. -/
theorem decoder_traversal (t : BTree) (bits rest : List Bool) (v : Int) (g : Globals)
    (fuel : Nat) (hrep : Represents g.heap g.huffman.rt t) (hinv : g.stream.Inv)
    (hpend : g.stream.pending = bits ++ rest) (hwalk : t.walk bits = some (v, []))
    (hfuel : bits.length < fuel) :
    ∃ s, decode fuel g (LinkedBinaryTree.root g.huffman)
        = .ok (if v = 256 then hashChar else toByte v) { g with stream := s } ∧
      s.Inv ∧ s.pending = rest := by
  obtain ⟨a, ha, rep⟩ := hrep
  have := decode_spec t fuel g 0 a (some g.huffman.self) bits rest v rep hinv hpend hwalk hfuel
  simpa only [LinkedBinaryTree.root, ha, symbolChar] using this

/-- Witness of C6: in the tree with the leaves 65 and 256, the bit 0 leads to the leaf 65;
the stream holds the byte `0x40`. -/
theorem decoder_traversal_witness :
    ∃ s, decode 2
        { heap := [some ⟨0, none, some 1, some 2, 0⟩, some ⟨65, some 0, none, none, 0⟩,
            some ⟨256, some 0, none, none, 0⟩],
          huffman := ⟨0, some 0, 3⟩, stream := InBitStream.opened [64], message := [] }
        (LinkedBinaryTree.root ⟨0, some 0, 3⟩)
        = .ok (if (65 : Int) = 256 then hashChar else toByte 65)
          { heap := [some ⟨0, none, some 1, some 2, 0⟩, some ⟨65, some 0, none, none, 0⟩,
              some ⟨256, some 0, none, none, 0⟩],
            huffman := ⟨0, some 0, 3⟩, stream := s, message := [] } ∧
      s.Inv ∧ s.pending = [true, false, false, false, false, false, false] :=
  decoder_traversal (.node (.leaf 65) (.leaf 256)) [false]
    [true, false, false, false, false, false, false] 65
    { heap := [some ⟨0, none, some 1, some 2, 0⟩, some ⟨65, some 0, none, none, 0⟩,
        some ⟨256, some 0, none, none, 0⟩],
      huffman := ⟨0, some 0, 3⟩, stream := InBitStream.opened [64], message := [] }
    2 ⟨0, rfl, by simp [reprIn, Heap.deref]⟩ (InBitStream.opened_spec [64]).1 (by decide)
    (by decide) (by decide)

/-! ## main -/

set_option maxRecDepth 100000 in
/-- C7, the input on which the code fails: the tree with the leaves 35 (`'#'`) and 256, the
path of the symbol 35, the path of the sentinel and one pad bit are the bytes `44 78 02`;
the message is the one character `'#'`, and `main` prints the empty string, since it takes
the `'#'` that `decode` returns for the sentinel. -/
theorem sentinel_collision :
    bitsOfBytes [68, 120, 2]
      = padZeros ((BTree.node (.leaf 35) (.leaf 256)).ser ++ [false] ++ [true]) ∧
    (BTree.node (.leaf 35) (.leaf 256)).walk [false] = some (35, []) ∧
    (BTree.node (.leaf 35) (.leaf 256)).walk [true] = some (256, []) ∧
    printed (main 16 (some [68, 120, 2])) = some [] := by
  decide

set_option maxRecDepth 100000 in
/-- C8: the 7 bytes made of the tree bits `0 0 1<65> 1<66> 0 1<256> 1<67>` (each leaf value
in 9 bits), the message bits `00`, `01` and `10` (the paths of 65, of 66 and of the
sentinel) and zero padding are decoded by `main` to the string `"AB"`. -/
theorem spec_example :
    bitsOfBytes [36, 25, 9, 128, 72, 99, 0]
      = padZeros ((BTree.node (.node (.leaf 65) (.leaf 66)) (.node (.leaf 256) (.leaf 67))).ser
          ++ [false, false] ++ [false, true] ++ [true, false]) ∧
    printed (main 16 (some [36, 25, 9, 128, 72, 99, 0])) = some [65, 66] := by
  decide

/-! ## addRoot -/

/-- C13 (as amended): `addRoot` does not test whether the tree is empty.  On every tree,
empty or not, `addRoot(value)` makes a newly allocated external node holding `value` the
root and sets the size to 1; the nodes already in the heap stay as they are.  In particular
on an empty tree it yields a tree of size 1 whose root is external and holds `value`. -/
theorem addRoot_postcondition (t : Tree) (h : Heap) (value : Int) :
    LinkedBinaryTree.size (LinkedBinaryTree.addRoot t h value).2 = 1 ∧
    (LinkedBinaryTree.addRoot t h value).2.rt = some h.length ∧
    (LinkedBinaryTree.addRoot t h value).1.deref h.length = some (Node.fresh value none) ∧
    (LinkedBinaryTree.root (LinkedBinaryTree.addRoot t h value).2).isExternal
      (LinkedBinaryTree.addRoot t h value).1 = some true ∧
    (LinkedBinaryTree.root (LinkedBinaryTree.addRoot t h value).2).elem
      (LinkedBinaryTree.addRoot t h value).1 = some value ∧
    (LinkedBinaryTree.addRoot t h value).1.length = h.length + 1 ∧
    ∀ b, b < h.length → (LinkedBinaryTree.addRoot t h value).1.deref b = h.deref b := by
  have hd : Heap.deref (h ++ [some (Node.fresh value none)]) h.length
      = some (Node.fresh value none) := Heap.deref_append_new _ _
  refine ⟨rfl, rfl, hd, ?_, ?_, ?_, ?_⟩
  · simp only [LinkedBinaryTree.addRoot, LinkedBinaryTree.root, Heap.alloc,
      Position.isExternal, hd]
    rfl
  · simp only [LinkedBinaryTree.addRoot, LinkedBinaryTree.root, Heap.alloc, Position.elem, hd]
    rfl
  · simp [LinkedBinaryTree.addRoot, Heap.alloc]
  · intro b hb
    exact Heap.deref_append_left _ _ hb

/-- Counterexample to C13 as stated: on a tree of three nodes `addRoot(9)` is not refused;
the root changes from the node at address 0 to a new node and the size from 3 to 1. -/
theorem addRoot_not_refused :
    ¬ ((LinkedBinaryTree.addRoot ⟨0, some 0, 3⟩
          [some ⟨5, none, some 1, some 2, 0⟩, some (Node.fresh 0 (some 0)),
            some (Node.fresh 0 (some 0))] 9).2.rt = some 0 ∧
        LinkedBinaryTree.size (LinkedBinaryTree.addRoot ⟨0, some 0, 3⟩
          [some ⟨5, none, some 1, some 2, 0⟩, some (Node.fresh 0 (some 0)),
            some (Node.fresh 0 (some 0))] 9).2 = 3) := by
  decide

/-! ## Buffer invariants -/

/-- C17 (as amended): after `open` and after every `read` call on an `InBitStream`, for
every source, `bufsize` is in [0,8] and it is 0 exactly when the stream is at its end
(`eof()`).  While the stream is not at its end, `bufsize` is 8 less the number of bits read
so far modulo 8; so it is 8, the buffer holding a full byte, exactly when the stream is not
at its end and the number of bits read so far is a multiple of 8, that is when a byte has
just been pre-fetched (as right after `open` on a source that is not empty).  The bits read
so far are those the calls asked for, a `read(n)` with `n ≤ 0` asking for none; before the
end of the stream every bit asked for has been delivered. -/
theorem input_buffer_invariant (S : List Byte) (ns : List Int) :
    0 ≤ (InBitStream.readAll (InBitStream.opened S) ns).2.bufsize ∧
    (InBitStream.readAll (InBitStream.opened S) ns).2.bufsize ≤ 8 ∧
    ((InBitStream.readAll (InBitStream.opened S) ns).2.bufsize = 0 ↔
      (InBitStream.readAll (InBitStream.opened S) ns).2.eof = true) ∧
    ((InBitStream.readAll (InBitStream.opened S) ns).2.eof = false →
      (InBitStream.readAll (InBitStream.opened S) ns).2.bufsize
        = 8 - (((ns.map Int.toNat).sum % 8 : Nat) : Int)) ∧
    ((InBitStream.readAll (InBitStream.opened S) ns).2.bufsize = 8 ↔
      ((ns.map Int.toNat).sum < 8 * S.length ∧ (ns.map Int.toNat).sum % 8 = 0)) := by
  obtain ⟨hi, hp⟩ := InBitStream.opened_spec S
  obtain ⟨hi2, hp2⟩ := InBitStream.readAll_state ns _ hi
  rw [hp] at hp2
  have hlen : (InBitStream.readAll (InBitStream.opened S) ns).2.pending.length
      = 8 * S.length - (ns.map Int.toNat).sum := by
    rw [hp2, List.length_drop, bitsOfBytes_length]
  generalize (InBitStream.readAll (InBitStream.opened S) ns).2 = s at hi2 hlen
  generalize (ns.map Int.toNat).sum = k at hlen
  obtain ⟨_, hb0, hb8, _, _, hz, _⟩ := hi2
  simp only [InBitStream.pending, List.length_append, bitsMSB_length, bitsOfBytes_length]
    at hlen
  have hzero : s.bufsize = 0 → 8 * S.length ≤ k := by
    intro h0
    obtain ⟨_, hf⟩ := hz h0
    rw [h0, hf] at hlen
    simp at hlen
    omega
  have heof : s.bufsize = 0 ↔ s.eof = true := by
    constructor
    · intro h0
      simp [InBitStream.eof, h0, (hz h0).1]
    · intro he
      simp only [InBitStream.eof, Bool.and_eq_true, beq_iff_eq] at he
      exact he.1
  refine ⟨hb0, hb8, heof, ?_, ?_, ?_⟩
  · intro he
    have hne : s.bufsize ≠ 0 := fun h0 => by
      rw [heof.1 h0] at he; cases he
    omega
  · intro h8
    omega
  · rintro ⟨hk, hm⟩
    have hne : s.bufsize ≠ 0 := fun h0 => by
      have := hzero h0
      omega
    omega

/-- Counterexample to C17 as stated: right after `open` on a file of one byte the buffer
holds the whole byte, `bufsize` is 8. -/
theorem input_buffer_holds_full_byte :
    ¬ ((InBitStream.readAll (InBitStream.opened [0]) []).2.bufsize ≤ 7) := by
  decide

theorem OutBitStream.rawdump_fields (s : OutBitStream) (c n : Int) :
    (s.rawdump c n).1.bufsize = 0 ∧ (s.rawdump c n).1.buffer = 0 ∧
    (s.rawdump c n).1.isOpen = s.isOpen ∧
    (s.rawdump c n).1.file.length = s.file.length + 1 ∧
    (s.rawdump c n).1.byteswritten = iadd s.byteswritten 1 ∧
    (s.rawdump c n).2 = isub n (isub FULLWORD s.bufsize) := by
  simp [OutBitStream.rawdump, OutBitStream.clear]

theorem OutBitStream.close_bufsize (s : OutBitStream) (h0 : 0 ≤ s.bufsize)
    (h7 : s.bufsize ≤ 7) : 0 ≤ s.close.bufsize ∧ s.close.bufsize ≤ 7 := by
  unfold OutBitStream.close
  by_cases ho : s.isOpen = true
  · by_cases hb : s.bufsize = 0
    · simp [ho, hb]
    · have : (s.bufsize != 0) = true := by simpa using hb
      simp [ho, this, (OutBitStream.rawdump_fields s 0 _).1]
  · simp [ho, h0, h7]

/-- The count of buffered bits stays in [0,7] through `write`, whatever the limit. -/
theorem OutBitStream.writeAux_bufsize (LIMIT : Int) : ∀ (fuel : Nat) (s : OutBitStream)
    (v n : Int), 0 ≤ s.bufsize → s.bufsize ≤ 7 → n ≤ 2147483640 → n.toNat < fuel →
    ∃ s1, OutBitStream.writeAux LIMIT fuel s v n = some s1 ∧ 0 ≤ s1.bufsize ∧
      s1.bufsize ≤ 7 := by
  intro fuel
  induction fuel with
  | zero => intro s v n _ _ _ h; omega
  | succ fuel ih =>
    intro s v n h0 h7 hn hfuel
    unfold OutBitStream.writeAux
    by_cases hc : (s.isOpen && decide (n > 0)) = true
    · simp only [hc, if_true]
      have hpos : 0 < n := by
        simp only [Bool.and_eq_true, decide_eq_true_eq] at hc; exact hc.2
      by_cases hl : s.byteswritten ≥ LIMIT
      · simp only [hl, if_true]
        exact ⟨_, rfl, OutBitStream.close_bufsize s h0 h7⟩
      · simp only [hl, if_false]
        have hsum : iadd s.bufsize n = s.bufsize + n := by
          unfold iadd; exact wrap32_eq (by omega) (by omega)
        by_cases hs : iadd s.bufsize n < FULLWORD
        · simp only [hs, if_true]
          rw [hsum] at hs ⊢
          simp only [FULLWORD] at hs
          exact ⟨_, rfl, by simp only; omega, by simp only; omega⟩
        · simp only [hs, if_false]
          rw [hsum] at hs
          simp only [FULLWORD] at hs
          obtain ⟨f1, f2, _, _, _, f6⟩ :=
            OutBitStream.rawdump_fields s (iand v (isub (ishl 1 n) 1)) n
          have hleft : isub n (isub FULLWORD s.bufsize) = n - (8 - s.bufsize) := by
            unfold isub FULLWORD
            rw [wrap32_eq (x := 8 - s.bufsize) (by omega) (by omega)]
            exact wrap32_eq (by omega) (by omega)
          rw [f6, hleft]
          exact ih _ _ _ (by rw [f1]) (by rw [f1]; omega) (by omega) (by omega)
    · simp only [hc, Bool.false_eq_true, if_false]
      exact ⟨s, rfl, h0, h7⟩

theorem OutBitStream.writeAll_bufsize (LIMIT : Int) : ∀ (ws : List (Int × Int))
    (s : OutBitStream), 0 ≤ s.bufsize → s.bufsize ≤ 7 → (∀ p ∈ ws, p.2 ≤ 2147483640) →
    ∃ s1, OutBitStream.writeAll LIMIT s ws = some s1 ∧ 0 ≤ s1.bufsize ∧ s1.bufsize ≤ 7 := by
  intro ws
  induction ws with
  | nil => intro s h0 h7 _; exact ⟨s, rfl, h0, h7⟩
  | cons p ws ih =>
    intro s h0 h7 hw
    obtain ⟨v, w⟩ := p
    obtain ⟨s1, hs1, a0, a7⟩ := OutBitStream.writeAux_bufsize LIMIT (w.toNat + 1) s v w h0 h7
      (hw (v, w) (List.mem_cons_self _ _)) (by omega)
    obtain ⟨s2, hs2, b0, b7⟩ := ih s1 a0 a7 (fun q hq => hw q (List.mem_cons_of_mem _ hq))
    refine ⟨s2, ?_, b0, b7⟩
    simp only [OutBitStream.writeAll, OutBitStream.write, hs1, Option.bind_eq_bind,
      Option.some_bind, hs2]

/-- C16: after `open` and after every `write` call on an `OutBitStream`, for any value and
any `numbits` in [1,30] (and whatever the byte limit), the call returns and `bufsize` is in
[0,7]. -/
theorem output_buffer_invariant (LIMIT : Int) (ws : List (Int × Int))
    (hw : ∀ p ∈ ws, 1 ≤ p.2 ∧ p.2 ≤ 30) :
    ∃ s, OutBitStream.writeAll LIMIT OutBitStream.opened ws = some s ∧
      0 ≤ s.bufsize ∧ s.bufsize ≤ 7 :=
  OutBitStream.writeAll_bufsize LIMIT ws OutBitStream.opened (by decide) (by decide)
    (fun p hp => by have := (hw p hp).2; omega)

/-- Witness of C16: three writes that fill the buffer to 7 bits, then across two bytes. -/
theorem output_buffer_invariant_witness :
    ∃ s, OutBitStream.writeAll 2 OutBitStream.opened [(5, 3), (9, 4), (-1, 30)] = some s ∧
      0 ≤ s.bufsize ∧ s.bufsize ≤ 7 :=
  output_buffer_invariant 2 [(5, 3), (9, 4), (-1, 30)] (by decide)

/-! ## The byte limit -/

theorem OutBitStream.close_closed (s : OutBitStream) : s.close.isOpen = false := by
  unfold OutBitStream.close
  by_cases ho : s.isOpen = true
  · simp [ho]
  · simp [ho]

theorem OutBitStream.close_of_closed {s : OutBitStream} (h : s.isOpen = false) :
    s.close = s := by
  simp [OutBitStream.close, h]

theorem OutBitStream.close_of_empty {s : OutBitStream} (h : s.bufsize = 0) :
    s.close.file = s.file := by
  unfold OutBitStream.close
  by_cases ho : s.isOpen = true
  · simp [ho, h]
  · simp [ho]

theorem OutBitStream.close_capped {LIMIT : Int} (hL : LIMIT ≤ 2147483647) {s : OutBitStream}
    (h : s.Capped LIMIT) : s.close.Capped LIMIT := by
  obtain ⟨hbw, hle, hlt, h0, h7⟩ := h
  unfold OutBitStream.close
  by_cases ho : s.isOpen = true
  · by_cases hb : s.bufsize = 0
    · simp only [ho, if_true, hb, bne_self_eq_false, Bool.false_eq_true, if_false]
      exact ⟨hbw, hle, fun hne => absurd rfl hne, by simp, by simp⟩
    · have hne : (s.bufsize != 0) = true := by simpa using hb
      obtain ⟨f1, _, _, f4, f5, _⟩ := OutBitStream.rawdump_fields s 0 (isub FULLWORD s.bufsize)
      have hlt1 := hlt hb
      have e5 : iadd s.byteswritten 1 = s.byteswritten + 1 := by
        unfold iadd; exact wrap32_eq (by omega) (by omega)
      simp only [ho, if_true, hne]
      refine ⟨?_, ?_, ?_, ?_, ?_⟩
      · simp only [f5, f4]; rw [e5, hbw]; push_cast; ring
      · simp only [f4]; push_cast; omega
      · intro hc; exact absurd f1 hc
      · simp only [f1]; exact le_refl _
      · simp only [f1]; norm_num
  · simp only [ho, Bool.false_eq_true, if_false]
    exact ⟨hbw, hle, hlt, h0, h7⟩

theorem OutBitStream.writeAux_capped (LIMIT : Int) (hL : LIMIT ≤ 2147483647) :
    ∀ (fuel : Nat) (s : OutBitStream) (v n : Int), s.Capped LIMIT → n ≤ 2147483640 →
    n.toNat < fuel →
    ∃ s1, OutBitStream.writeAux LIMIT fuel s v n = some s1 ∧ s1.Capped LIMIT := by
  intro fuel
  induction fuel with
  | zero => intro s v n _ _ h; omega
  | succ fuel ih =>
    intro s v n hcap hn hfuel
    unfold OutBitStream.writeAux
    by_cases hc : (s.isOpen && decide (n > 0)) = true
    · simp only [hc, if_true]
      have hpos : 0 < n := by
        simp only [Bool.and_eq_true, decide_eq_true_eq] at hc; exact hc.2
      by_cases hl : s.byteswritten ≥ LIMIT
      · simp only [hl, if_true]
        exact ⟨_, rfl, OutBitStream.close_capped hL hcap⟩
      · simp only [hl, if_false]
        obtain ⟨hbw, hle, hlt, h0, h7⟩ := hcap
        have hsum : iadd s.bufsize n = s.bufsize + n := by
          unfold iadd; exact wrap32_eq (by omega) (by omega)
        by_cases hs : iadd s.bufsize n < FULLWORD
        · simp only [hs, if_true]
          rw [hsum] at hs ⊢
          simp only [FULLWORD] at hs
          exact ⟨_, rfl, hbw, hle, fun _ => by simp only; rw [← hbw]; omega,
            by simp only; omega, by simp only; omega⟩
        · simp only [hs, if_false]
          rw [hsum] at hs
          simp only [FULLWORD] at hs
          obtain ⟨f1, f2, _, f4, f5, f6⟩ :=
            OutBitStream.rawdump_fields s (iand v (isub (ishl 1 n) 1)) n
          have hleft : isub n (isub FULLWORD s.bufsize) = n - (8 - s.bufsize) := by
            unfold isub FULLWORD
            rw [wrap32_eq (x := 8 - s.bufsize) (by omega) (by omega)]
            exact wrap32_eq (by omega) (by omega)
          have e5 : iadd s.byteswritten 1 = s.byteswritten + 1 := by
            unfold iadd; exact wrap32_eq (by omega) (by omega)
          rw [f6, hleft]
          refine ih _ _ _ ⟨?_, ?_, ?_, ?_, ?_⟩ (by omega) (by omega)
          · rw [f5, e5, f4, hbw]; push_cast; ring
          · rw [f4]; push_cast; omega
          · intro hne; exact absurd f1 hne
          · rw [f1]
          · rw [f1]; norm_num
    · simp only [hc, Bool.false_eq_true, if_false]
      exact ⟨s, rfl, hcap⟩

theorem OutBitStream.write_of_closed (LIMIT : Int) {s : OutBitStream} (h : s.isOpen = false)
    (v n : Int) : OutBitStream.write LIMIT s v n = some s := by
  simp [OutBitStream.write, OutBitStream.writeAux, h]

theorem OutBitStream.run_of_closed (LIMIT : Int) : ∀ (ops : List OutOp) (s : OutBitStream),
    s.isOpen = false → OutBitStream.run LIMIT s ops = some s := by
  intro ops
  induction ops with
  | nil => intro s _; rfl
  | cons op ops ih =>
    intro s h
    cases op with
    | write v n =>
      simp only [OutBitStream.run, OutBitStream.write_of_closed LIMIT h, Option.bind_eq_bind,
        Option.some_bind]
      exact ih s h
    | close =>
      simp only [OutBitStream.run, OutBitStream.close_of_closed h]
      exact ih s h

theorem OutBitStream.run_capped (LIMIT : Int) (hL : LIMIT ≤ 2147483647) :
    ∀ (ops : List OutOp) (s : OutBitStream), s.Capped LIMIT →
    (∀ op ∈ ops, op.numbits ≤ 2147483640) →
    ∃ s1, OutBitStream.run LIMIT s ops = some s1 ∧ s1.Capped LIMIT := by
  intro ops
  induction ops with
  | nil => intro s h _; exact ⟨s, rfl, h⟩
  | cons op ops ih =>
    intro s h hops
    have hrest : ∀ op ∈ ops, op.numbits ≤ 2147483640 :=
      fun o ho => hops o (List.mem_cons_of_mem _ ho)
    cases op with
    | write v n =>
      have hn : n ≤ 2147483640 := hops (.write v n) (List.mem_cons_self _ _)
      obtain ⟨s1, hs1, hc1⟩ := OutBitStream.writeAux_capped LIMIT hL (n.toNat + 1) s v n h hn
        (by omega)
      obtain ⟨s2, hs2, hc2⟩ := ih s1 hc1 hrest
      refine ⟨s2, ?_, hc2⟩
      simp only [OutBitStream.run, OutBitStream.write, hs1, Option.bind_eq_bind,
        Option.some_bind, hs2]
    | close =>
      obtain ⟨s2, hs2, hc2⟩ := ih s.close (OutBitStream.close_capped hL h) hrest
      exact ⟨s2, by simp only [OutBitStream.run, hs2], hc2⟩

/-- C14: for every positive limit `LIMIT` and every sequence of `write` and `close` calls on
a freshly opened `OutBitStream` (each `numbits` at most `2^31 - 8`, so that
`bufsize + numbits` is an `int`), every call returns, the bytes in the file are never more
than `LIMIT`, also counting the byte a further `close` would flush; once the file has
`LIMIT` bytes the next `write` with `numbits > 0` closes the stream without changing the
file; and once the stream is closed no `write` or `close` changes anything. -/
theorem output_size_cap (LIMIT : Int) (hpos : 0 < LIMIT) (hL : LIMIT ≤ 2147483647)
    (ops : List OutOp) (hops : ∀ op ∈ ops, op.numbits ≤ 2147483640) :
    ∃ s, OutBitStream.run LIMIT OutBitStream.opened ops = some s ∧
      (s.file.length : Int) ≤ LIMIT ∧ (s.close.file.length : Int) ≤ LIMIT ∧
      (s.isOpen = true → (s.file.length : Int) = LIMIT → ∀ v n, 0 < n →
        OutBitStream.write LIMIT s v n = some s.close ∧ s.close.isOpen = false ∧
          s.close.file = s.file) ∧
      (s.isOpen = false → ∀ ops2, OutBitStream.run LIMIT s ops2 = some s) := by
  obtain ⟨s, hs, hcap⟩ := OutBitStream.run_capped LIMIT hL ops OutBitStream.opened
    ⟨rfl, by simpa [OutBitStream.opened, OutBitStream.open, OutBitStream.new] using le_of_lt hpos,
      fun h => absurd rfl h, by decide, by decide⟩ hops
  have hcl := OutBitStream.close_capped hL hcap
  refine ⟨s, hs, hcap.2.1, hcl.2.1, ?_, fun hc ops2 => OutBitStream.run_of_closed LIMIT ops2 s hc⟩
  intro ho hfull v n hn
  obtain ⟨hbw, _, hlt, _, _⟩ := hcap
  have hb : s.bufsize = 0 := by
    by_contra hne
    have := hlt hne
    omega
  refine ⟨?_, OutBitStream.close_closed s, OutBitStream.close_of_empty hb⟩
  have hge : s.byteswritten ≥ LIMIT := by rw [hbw, hfull]
  simp [OutBitStream.write, OutBitStream.writeAux, ho, hn, hge]

/-- Witness of C14: with a limit of 2 bytes, 33 bits are written, then one more bit, the
stream is closed and a value written after that. -/
theorem output_size_cap_witness :
    ∃ s, OutBitStream.run 2 OutBitStream.opened
        [.write 5 3, .write (-1) 30, .write 1 1, .close, .write 7 3] = some s ∧
      (s.file.length : Int) ≤ 2 ∧ (s.close.file.length : Int) ≤ 2 ∧
      (s.isOpen = true → (s.file.length : Int) = 2 → ∀ v n, 0 < n →
        OutBitStream.write 2 s v n = some s.close ∧ s.close.isOpen = false ∧
          s.close.file = s.file) ∧
      (s.isOpen = false → ∀ ops2, OutBitStream.run 2 s ops2 = some s) :=
  output_size_cap 2 (by decide) (by decide)
    [.write 5 3, .write (-1) 30, .write 1 1, .close, .write 7 3] (by decide)

/-! ## The empty source -/

theorem InBitStream.read_stuck {s : InBitStream} (h : s.isOpen = false ∨ s.bufsize ≤ 0) :
    s.read 1 = ((s.read 1).1, s) ∧ (s.read 1).1 ≠ 1 := by
  unfold InBitStream.read
  by_cases ho : s.isOpen = true
  · have hb : ¬ (s.bufsize > 0) := by
      rcases h with h | h
      · rw [ho] at h; cases h
      · omega
    simp [ho, InBitStream.readBit, hb]
  · simp [ho]

theorem buildTree_stuck : ∀ (fuel : Nat) (g : Globals) (a : Nat) (nd : Node),
    (g.stream.isOpen = false ∨ g.stream.bufsize ≤ 0) →
    g.heap.deref a = some nd → nd.left = none → nd.right = none →
    buildTree fuel g ⟨some a, some g.huffman.self⟩ = .timeout := by
  intro fuel
  induction fuel with
  | zero => intro g a nd _ _ _ _; rfl
  | succ fuel ih =>
    intro g a nd hs hd hl hr
    obtain ⟨e1, e2⟩ := InBitStream.read_stuck hs
    obtain ⟨h2, hok, hlen, hda, hdl, hdr, hframe⟩ :=
      LinkedBinaryTree.expandExternal_spec (t := g.huffman)
        (p := ⟨some a, some g.huffman.self⟩) rfl rfl hd hl hr
    have hne : ((g.stream.read 1).1 == 1) = false := by simpa using e2
    have hst : (g.stream.read 1).2 = g.stream := by rw [e1]
    have hrec := ih
      (Globals.mk h2 { g.huffman with n := g.huffman.n + 2 } (g.stream.read 1).2 g.message)
      g.heap.length (Node.fresh 0 (some a)) (by simpa only [hst] using hs) hdl rfl rfl
    simp only [buildTree, Globals.read, hne, Bool.false_eq_true, if_false, hok, Position.left,
      hda, Option.map_some']
    simp only at hrec
    rw [hrec]

/-- C15, the input on which the code fails: on the empty source `buildTree` never returns.
Each `read()` past the end yields 0, which `buildTree` takes for the marker of an internal
node, so it expands the node and descends to the left child, without end: whatever bound is
put on the depth of the recursion, `main` exceeds it, and no result is printed. -/
theorem empty_source_diverges (fuel : Nat) : main fuel (some []) = .timeout := by
  have h := buildTree_stuck fuel
    { Globals.init.addRoot with stream := (Globals.init.addRoot.stream.open (some [])).1 }
    0 (Node.fresh 0 none) (Or.inr (by decide)) rfl rfl rfl
  simp only [main]
  have e : LinkedBinaryTree.root Globals.init.addRoot.huffman
      = ⟨some 0, some Globals.init.addRoot.huffman.self⟩ := rfl
  rw [e]
  simp only at h
  rw [h]

/-! ## The depth of the tree -/

set_option maxRecDepth 100000 in
theorem bitsMSB_toByte_valMSB : ∀ b7 b6 b5 b4 b3 b2 b1 b0 : Bool,
    bitsMSB 8 ((toByte (valMSB [b7, b6, b5, b4, b3, b2, b1, b0])).val : Int)
      = [b7, b6, b5, b4, b3, b2, b1, b0] := by
  decide

theorem bitsOfBytes_packBits : ∀ (k : Nat) (bs : List Bool), bs.length = 8 * k →
    bitsOfBytes (packBits bs) = bs := by
  intro k
  induction k with
  | zero =>
    intro bs h
    have : bs = [] := List.length_eq_zero.1 (by omega)
    subst this; rfl
  | succ k ih =>
    intro bs h
    match bs, h with
    | b7 :: b6 :: b5 :: b4 :: b3 :: b2 :: b1 :: b0 :: rest, h =>
      have hr : rest.length = 8 * k := by simp only [List.length_cons] at h; omega
      simp only [packBits, bitsOfBytes, bitsMSB_toByte_valMSB, ih rest hr]
      rfl
    | [], h => simp at h
    | [_], h => simp at h; omega
    | [_, _], h => simp at h; omega
    | [_, _, _], h => simp at h; omega
    | [_, _, _, _], h => simp at h; omega
    | [_, _, _, _, _], h => simp at h; omega
    | [_, _, _, _, _, _], h => simp at h; omega
    | [_, _, _, _, _, _, _], h => simp at h; omega

theorem padZeros_length (bs : List Bool) : ∃ k, (padZeros bs).length = 8 * k := by
  refine ⟨(bs.length + 7) / 8, ?_⟩
  simp only [padZeros, List.length_append, List.length_replicate]
  omega

theorem opened_packBits (bs : List Bool) :
    (InBitStream.opened (packBits (padZeros bs))).Inv ∧
    (InBitStream.opened (packBits (padZeros bs))).pending
      = bs ++ List.replicate ((8 - bs.length % 8) % 8) false := by
  obtain ⟨hi, hp⟩ := InBitStream.opened_spec (packBits (padZeros bs))
  obtain ⟨k, hk⟩ := padZeros_length bs
  refine ⟨hi, ?_⟩
  rw [hp, bitsOfBytes_packBits k _ hk]
  rfl

theorem BTree.height_comb (k : Nat) : (BTree.comb k).height = k := by
  induction k with
  | zero => rfl
  | succ k ih => simp [BTree.comb, BTree.height, ih]

theorem BTree.leavesInRange_comb (k : Nat) : (BTree.comb k).leavesInRange := by
  induction k with
  | zero => exact ⟨by decide, by decide⟩
  | succ k ih => exact ⟨ih, by decide, by decide⟩

theorem BTree.leavesInRange_of_leaves : ∀ (t : BTree), (∀ v ∈ t.leaves, 0 ≤ v ∧ v ≤ 256) →
    t.leavesInRange := by
  intro t
  induction t with
  | leaf v =>
    intro h
    have := h v (by simp [BTree.leaves])
    exact ⟨this.1, by omega⟩
  | node l r ihl ihr =>
    intro h
    exact ⟨ihl (fun v hv => h v (by simp [BTree.leaves, hv])),
      ihr (fun v hv => h v (by simp [BTree.leaves, hv]))⟩

theorem BTree.height_lt_leaves : ∀ (t : BTree), t.height + 1 ≤ t.leaves.length := by
  intro t
  induction t with
  | leaf v => simp [BTree.height, BTree.leaves]
  | node l r ihl ihr =>
    simp only [BTree.height, BTree.leaves, List.length_append]
    omega

theorem length_le_of_nodup_range (l : List Int) (hd : l.Nodup)
    (hr : ∀ v ∈ l, 0 ≤ v ∧ v ≤ 256) : l.length ≤ 257 := by
  have hsub : l ⊆ (List.range 257).map (fun k : Nat => (k : Int)) := by
    intro v hv
    obtain ⟨h0, h1⟩ := hr v hv
    refine List.mem_map.2 ⟨v.toNat, List.mem_range.2 (by omega), by omega⟩
  have := (List.subperm_of_subset hd hsub).length_le
  simpa using this

theorem buildTree_timeout : ∀ (t : BTree) (fuel : Nat) (g : Globals) (a : Nat) (nd : Node)
    (rest : List Bool),
    fuel ≤ t.height → t.leavesInRange →
    g.stream.Inv → g.stream.pending = t.ser ++ rest →
    g.heap.deref a = some nd → nd.left = none → nd.right = none →
    buildTree fuel g ⟨some a, some g.huffman.self⟩ = .timeout := by
  intro t
  induction t with
  | leaf v =>
    intro fuel g a nd rest hfuel _ _ _ _ _ _
    have : fuel = 0 := by simp only [BTree.height] at hfuel; omega
    subst this; rfl
  | node l r ihl ihr =>
    intro fuel g a nd rest hfuel hrange hinv hpend hd hl hr
    rcases Nat.eq_zero_or_pos fuel with h0 | hpos
    · subst h0; rfl
    obtain ⟨f, rfl⟩ : ∃ f, fuel = f + 1 := ⟨fuel - 1, by omega⟩
    simp only [BTree.height] at hfuel
    obtain ⟨e1, i1, p1⟩ := InBitStream.read_one (b := false) (r := l.ser ++ (r.ser ++ rest))
      hinv (by rw [hpend]; simp [BTree.ser])
    have ha := Heap.deref_lt hd
    obtain ⟨h2, hok, hlen, hda, hdl, hdr, hframe⟩ :=
      LinkedBinaryTree.expandExternal_spec (t := g.huffman)
        (p := ⟨some a, some g.huffman.self⟩) rfl rfl hd hl hr
    by_cases hfl : f ≤ l.height
    · have hto := ihl f
        (Globals.mk h2 { g.huffman with n := g.huffman.n + 2 } (g.stream.read 1).2 g.message)
        g.heap.length (Node.fresh 0 (some a)) (r.ser ++ rest) hfl hrange.1 i1 p1 hdl rfl rfl
      simp only at hto
      simp only [buildTree, Globals.read, e1, if_false, show ((0 : Int) == 1) = false by decide,
        Bool.false_eq_true, hok, Position.left, hda, Option.map_some', hto]
    · obtain ⟨g3, hb3, i3, p3, m3, t3, len3, fr3, rep3⟩ := buildTree_spec l f
        (Globals.mk h2 { g.huffman with n := g.huffman.n + 2 } (g.stream.read 1).2 g.message)
        g.heap.length (Node.fresh 0 (some a)) (r.ser ++ rest) (by omega) hrange.1 i1 p1 hdl
        rfl rfl
      simp only at hb3 p3 m3 t3 len3 fr3 rep3
      have hda3 : g3.heap.deref a
          = some { nd with left := some g.heap.length, right := some (g.heap.length + 1) } := by
        rw [fr3 a (by omega) (by omega), hda]
      have hdr3 : g3.heap.deref (g.heap.length + 1) = some (Node.fresh 0 (some a)) := by
        rw [fr3 _ (by omega) (by omega), hdr]
      have hto := ihr f g3 (g.heap.length + 1) (Node.fresh 0 (some a)) rest (by omega)
        hrange.2 i3 p3 hdr3 rfl rfl
      have hself : g3.huffman.self = g.huffman.self := by rw [t3]
      simp only [buildTree, Globals.read, e1, if_false, show ((0 : Int) == 1) = false by decide,
        Bool.false_eq_true, hok, Position.left, hda, Option.map_some', hb3, Position.right,
        hda3]
      rw [← hself]; exact hto

/-- C18 (as amended): `buildTree` does not bound the depth; the recursion depth it reaches
is the height of the tree it builds plus one.  For every tree `t` whose leaves hold pairwise
different values of the alphabet (0 to 256), as in a valid code, that is at most the
alphabet size: on `ser t` the call returns within a recursion depth of 257 and leaves the
tree `t`, of height at most 256; and a recursion depth of the height or less is not
enough. -/
theorem deserializer_depth_bound (t : BTree) (rest : List Bool) (g : Globals)
    (hdist : t.leaves.Nodup) (hrange : ∀ v ∈ t.leaves, 0 ≤ v ∧ v ≤ 256)
    (hinv : g.stream.Inv) (hpend : g.stream.pending = t.ser ++ rest) :
    t.height + 1 ≤ 257 ∧
    (∃ g1, buildTree 257 g.addRoot (LinkedBinaryTree.root g.addRoot.huffman) = .ok () g1 ∧
      Represents g1.heap g1.huffman.rt t) ∧
    (∀ fuel, fuel ≤ t.height →
      buildTree fuel g.addRoot (LinkedBinaryTree.root g.addRoot.huffman) = .timeout) := by
  have hh : t.height + 1 ≤ 257 :=
    le_trans (BTree.height_lt_leaves t) (length_le_of_nodup_range _ hdist hrange)
  have hr := BTree.leavesInRange_of_leaves t hrange
  have hroot : Heap.deref g.addRoot.heap g.heap.length = some (Node.fresh 0 none) := by
    simp only [Globals.addRoot, LinkedBinaryTree.addRoot, Heap.alloc]
    exact Heap.deref_append_new _ _
  refine ⟨hh, ?_, ?_⟩
  · obtain ⟨g1, hb, _, _, _, t1, _, _, rep⟩ := buildTree_spec t 257 g.addRoot g.heap.length
      (Node.fresh 0 none) rest (by omega) hr hinv hpend hroot rfl rfl
    exact ⟨g1, hb, g.heap.length, by rw [t1]; rfl, reprIn_mono (Nat.zero_le _) t _ rep⟩
  · intro fuel hfuel
    exact buildTree_timeout t fuel g.addRoot g.heap.length (Node.fresh 0 none) rest hfuel hr
      hinv hpend hroot rfl rfl

/-- Witness of C18: the tree with the leaves 65 and 256, followed by the bits `1 0 1`. -/
theorem deserializer_depth_bound_witness :
    (BTree.node (.leaf 65) (.leaf 256)).height + 1 ≤ 257 ∧
    (∃ g1, buildTree 257
        ({ Globals.init with stream := InBitStream.opened [72, 56, 5] }).addRoot
        (LinkedBinaryTree.root
          ({ Globals.init with stream := InBitStream.opened [72, 56, 5] }).addRoot.huffman)
        = .ok () g1 ∧
      Represents g1.heap g1.huffman.rt (.node (.leaf 65) (.leaf 256))) ∧
    (∀ fuel, fuel ≤ (BTree.node (.leaf 65) (.leaf 256)).height →
      buildTree fuel ({ Globals.init with stream := InBitStream.opened [72, 56, 5] }).addRoot
        (LinkedBinaryTree.root
          ({ Globals.init with stream := InBitStream.opened [72, 56, 5] }).addRoot.huffman)
        = .timeout) :=
  deserializer_depth_bound (.node (.leaf 65) (.leaf 256)) [true, false, true]
    { Globals.init with stream := InBitStream.opened [72, 56, 5] } (by decide) (by decide)
    (InBitStream.opened_spec [72, 56, 5]).1 (by decide)

/-- Counterexample to C18 as stated: on the serialization of the comb of height 258, whose
leaves all hold 0, `buildTree` completes (with a recursion depth of 259, and not with 258)
and the tree it leaves has depth 258, more than the 257 values of the alphabet. -/
theorem depth_exceeds_alphabet :
    ¬ ((BTree.comb 258).height ≤ 257) ∧
    (∃ g1, buildTree 259
        ({ Globals.init with
            stream := InBitStream.opened (packBits (padZeros (BTree.comb 258).ser)) }).addRoot
        (LinkedBinaryTree.root
          ({ Globals.init with
            stream := InBitStream.opened (packBits (padZeros (BTree.comb 258).ser)) }).addRoot.huffman)
        = .ok () g1 ∧
      Represents g1.heap g1.huffman.rt (BTree.comb 258)) ∧
    buildTree 258
        ({ Globals.init with
            stream := InBitStream.opened (packBits (padZeros (BTree.comb 258).ser)) }).addRoot
        (LinkedBinaryTree.root
          ({ Globals.init with
            stream := InBitStream.opened (packBits (padZeros (BTree.comb 258).ser)) }).addRoot.huffman)
        = .timeout := by
  obtain ⟨hi, hp⟩ := opened_packBits (BTree.comb 258).ser
  have hh := BTree.height_comb 258
  have hr := BTree.leavesInRange_comb 258
  refine ⟨by rw [hh]; decide, ?_, ?_⟩
  · obtain ⟨g1, hb, _, _, _, t1, _, _, rep⟩ := buildTree_spec (BTree.comb 258) 259
      (Globals.addRoot (Globals.mk [] (LinkedBinaryTree.empty 0)
        (InBitStream.opened (packBits (padZeros (BTree.comb 258).ser))) []))
      0 (Node.fresh 0 none) _ (by rw [hh]; decide) hr hi hp rfl rfl rfl
    exact ⟨g1, hb, 0, by rw [t1]; rfl, reprIn_mono (Nat.zero_le _) _ _ rep⟩
  · exact buildTree_timeout (BTree.comb 258) 258
      (Globals.addRoot (Globals.mk [] (LinkedBinaryTree.empty 0)
        (InBitStream.opened (packBits (padZeros (BTree.comb 258).ser))) []))
      0 (Node.fresh 0 none) _ (by rw [hh]) hr hi hp rfl rfl rfl

/-! ## The message loop -/

theorem InBitStream.eof_iff {s : InBitStream} (h : s.Inv) :
    s.eof = true ↔ s.pending = [] := by
  obtain ⟨_, hb0, _, _, _, hz, _⟩ := h
  have hlen : s.pending.length = s.bufsize.toNat + 8 * s.file.length := by
    simp [InBitStream.pending, bitsMSB_length, bitsOfBytes_length]
  constructor
  · intro he
    simp only [InBitStream.eof, Bool.and_eq_true, beq_iff_eq] at he
    apply List.length_eq_zero.1
    rw [hlen, he.1, (hz he.1).2]; rfl
  · intro hp
    have h0 : s.bufsize = 0 := by
      have : s.pending.length = 0 := by rw [hp]; rfl
      omega
    simp [InBitStream.eof, h0, (hz h0).1]

theorem InBitStream.read_any {s : InBitStream} (h : s.Inv) :
    (s.read 1).1 = headBit s.pending ∧ (s.read 1).2.Inv ∧
      (s.read 1).2.pending = s.pending.tail := by
  have hv := InBitStream.read_value s 1 h (le_refl 1) (by omega)
  have hs := InBitStream.read_state s 1 h
  simp only [Nat.cast_one] at hv
  refine ⟨?_, hs.1, by rw [hs.2]; simp⟩
  rw [hv, valMSB_nextBits_succ]
  simp [nextBits, valMSB]

theorem BTree.descend_le_height : ∀ (t : BTree) (bits : List Bool),
    (t.descend bits).2 ≤ t.height := by
  intro t
  induction t with
  | leaf v => intro bits; simp [BTree.descend, BTree.height]
  | node l r ihl ihr =>
    intro bits
    rcases bits with _ | ⟨b, bits⟩
    · have := ihl []
      simp only [BTree.descend, BTree.height]; omega
    · cases b
      · have := ihl bits
        simp only [BTree.descend, BTree.height]; omega
      · have := ihr bits
        simp only [BTree.descend, BTree.height]; omega

theorem BTree.descend_pos (t : BTree) (bits : List Bool) :
    1 ≤ (t.descend bits).2 ↔ t.isLeaf = false := by
  cases t with
  | leaf v => simp [BTree.descend, BTree.isLeaf]
  | node l r =>
    rcases bits with _ | ⟨b, bits⟩
    · simp [BTree.descend, BTree.isLeaf]
    · cases b <;> simp [BTree.descend, BTree.isLeaf]

theorem decode_descend : ∀ (t : BTree) (fuel : Nat) (g : Globals) (lo a : Nat)
    (tr : Option Nat),
    reprIn g.heap lo a t → g.stream.Inv →
    ((t.descend g.stream.pending).2 < fuel →
      ∃ s, decode fuel g ⟨some a, tr⟩
          = .ok (symbolChar (t.descend g.stream.pending).1) { g with stream := s } ∧
        s.Inv ∧ s.pending = g.stream.pending.drop (t.descend g.stream.pending).2) ∧
    (fuel ≤ (t.descend g.stream.pending).2 → decode fuel g ⟨some a, tr⟩ = .timeout) := by
  intro t
  induction t with
  | leaf w =>
    intro fuel g lo a tr hrep hinv
    obtain ⟨nd, hd, he, hl, hr⟩ := hrep
    refine ⟨?_, ?_⟩
    · intro hfuel
      obtain ⟨f, rfl⟩ : ∃ f, fuel = f + 1 := ⟨fuel - 1, by omega⟩
      refine ⟨g.stream, ?_, hinv, by simp [BTree.descend]⟩
      simp only [decode, Position.isExternal, hd, Option.map_some', hl, hr, Option.isNone_none,
        Bool.and_self, Position.elem, he, symbolChar, BTree.descend]
      by_cases h256 : w = 256
      · simp [h256]
      · simp [h256]
    · intro hfuel
      have : fuel = 0 := by simp only [BTree.descend] at hfuel; omega
      subst this; rfl
  | node l r ihl ihr =>
    intro fuel g lo a tr hrep hinv
    obtain ⟨nd, la, ra, hd, hl, hr, _, _, r1, r2⟩ := hrep
    obtain ⟨e1, i1, p1⟩ := InBitStream.read_any hinv
    rcases Nat.eq_zero_or_pos fuel with h0 | hpos
    · subst h0
      exact ⟨fun h => by omega, fun _ => rfl⟩
    obtain ⟨f, rfl⟩ : ∃ f, fuel = f + 1 := ⟨fuel - 1, by omega⟩
    have hleft := ihl f (Globals.mk g.heap g.huffman (g.stream.read 1).2 g.message) lo la tr
      r1 i1
    have hright := ihr f (Globals.mk g.heap g.huffman (g.stream.read 1).2 g.message) lo ra tr
      r2 i1
    simp only [p1] at hleft hright
    rcases hp : g.stream.pending with _ | ⟨b, bits⟩
    · rw [hp] at e1 hleft
      simp only [headBit, List.tail_nil] at e1 hleft
      have hstep : decode (f + 1) g ⟨some a, tr⟩
          = decode f (Globals.mk g.heap g.huffman (g.stream.read 1).2 g.message)
              ⟨some la, tr⟩ := by
        simp only [decode, Position.isExternal, hd, Option.map_some', hl, Option.isNone_some,
          Bool.false_and, Globals.read, e1, beq_self_eq_true, if_true, Position.left]
      rw [hstep]
      simp only [BTree.descend]
      refine ⟨fun h => ?_, fun h => hleft.2 (by omega)⟩
      obtain ⟨s, hs, i2, p2⟩ := hleft.1 (by omega)
      exact ⟨s, hs, i2, by rw [p2]; simp⟩
    · rw [hp] at e1 hleft hright
      simp only [headBit, List.tail_cons] at e1 hleft hright
      cases b
      · have e1 : (g.stream.read 1).1 = 0 := by simpa using e1
        have hstep : decode (f + 1) g ⟨some a, tr⟩
            = decode f (Globals.mk g.heap g.huffman (g.stream.read 1).2 g.message)
                ⟨some la, tr⟩ := by
          simp only [decode, Position.isExternal, hd, Option.map_some', hl, Option.isNone_some,
            Bool.false_and, Globals.read, e1, beq_self_eq_true, if_true, Position.left]
        rw [hstep]
        simp only [BTree.descend]
        refine ⟨fun h => ?_, fun h => hleft.2 (by omega)⟩
        obtain ⟨s, hs, i2, p2⟩ := hleft.1 (by omega)
        exact ⟨s, hs, i2, by rw [p2]; simp⟩
      · have e1 : (g.stream.read 1).1 = 1 := by simpa using e1
        have hstep : decode (f + 1) g ⟨some a, tr⟩
            = decode f (Globals.mk g.heap g.huffman (g.stream.read 1).2 g.message)
                ⟨some ra, tr⟩ := by
          simp only [decode, Position.isExternal, hd, Option.map_some', hl, Option.isNone_some,
            Bool.false_and, Globals.read, e1, show ((1 : Int) == 0) = false by decide,
            Bool.false_eq_true, if_false, Position.right, hr]
        rw [hstep]
        simp only [BTree.descend]
        refine ⟨fun h => ?_, fun h => hright.2 (by omega)⟩
        obtain ⟨s, hs, i2, p2⟩ := hright.1 (by omega)
        exact ⟨s, hs, i2, by rw [p2]; simp⟩

theorem drain_spec : ∀ (fuel : Nat) (g : Globals), g.stream.Inv →
    g.stream.pending.length < fuel →
    ∃ s, drain fuel g = .ok () { g with stream := s } ∧ s.Inv ∧ s.pending = [] := by
  intro fuel
  induction fuel with
  | zero => intro g _ h; omega
  | succ fuel ih =>
    intro g hinv hlen
    by_cases he : g.stream.eof = true
    · exact ⟨g.stream, by simp [drain, he], hinv, (InBitStream.eof_iff hinv).1 he⟩
    · have hne : g.stream.pending ≠ [] := fun h => he ((InBitStream.eof_iff hinv).2 h)
      obtain ⟨_, i1, p1⟩ := InBitStream.read_any hinv
      have hlt : (g.stream.read 1).2.pending.length < fuel := by
        rw [p1, List.length_tail]
        have := List.length_pos.2 hne
        omega
      obtain ⟨s, hs, i2, p2⟩ := ih
        (Globals.mk g.heap g.huffman (g.stream.read 1).2 g.message) i1 hlt
      refine ⟨s, ?_, i2, p2⟩
      simp only [drain, he, Bool.false_eq_true, if_false, Globals.read]
      exact hs

theorem messageLoopCalls_spec (t : BTree) (fuel : Nat) (hleaf : t.isLeaf = false)
    (hfuel : t.height < fuel) : ∀ (calls : Nat) (g : Globals) (a : Nat),
    g.huffman.rt = some a → reprIn g.heap 0 a t → g.stream.Inv →
    g.stream.pending.length < calls → g.stream.pending.length < fuel →
    ∃ g1, messageLoopCalls calls fuel g = .ok () g1 ∧ g1.stream.eof = true ∧
      g1.heap = g.heap ∧ g1.huffman = g.huffman := by
  intro calls
  induction calls with
  | zero => intro g a _ _ _ h; omega
  | succ calls ih =>
    intro g a hrt hrep hinv hcalls hdrain
    by_cases he : g.stream.eof = true
    · exact ⟨g, by simp [messageLoopCalls, he], he, rfl, rfl⟩
    · have hne : g.stream.pending ≠ [] := fun h => he ((InBitStream.eof_iff hinv).2 h)
      have hpos := List.length_pos.2 hne
      have hk := BTree.descend_le_height t g.stream.pending
      have hk1 := (BTree.descend_pos t g.stream.pending).2 hleaf
      obtain ⟨s, hs, i1, p1⟩ := (decode_descend t fuel g 0 a (some g.huffman.self) hrep
        hinv).1 (by omega)
      have hlt : s.pending.length < g.stream.pending.length := by
        rw [p1, List.length_drop]; omega
      have hdec : decode fuel g (LinkedBinaryTree.root g.huffman)
          = .ok (symbolChar (t.descend g.stream.pending).1) { g with stream := s } := by
        simp only [LinkedBinaryTree.root, hrt]; exact hs
      by_cases hc : symbolChar (t.descend g.stream.pending).1 ≠ hashChar
      · obtain ⟨g1, hg1, e1, h1, t1⟩ := ih
          (Globals.mk g.heap g.huffman s
            (g.message ++ [symbolChar (t.descend g.stream.pending).1])) a hrt hrep i1
          (by simp only; omega) (by simp only; omega)
        refine ⟨g1, ?_, e1, h1, t1⟩
        simp only [messageLoopCalls, he, Bool.false_eq_true, if_false, hdec]
        rw [if_pos hc]
        exact hg1
      · obtain ⟨s2, hs2, i2, p2⟩ := drain_spec fuel (Globals.mk g.heap g.huffman s g.message)
          i1 (by simp only; omega)
        obtain ⟨g1, hg1, e1, h1, t1⟩ := ih (Globals.mk g.heap g.huffman s2 g.message) a hrt
          hrep i2 (by simp only; rw [p2]; simp only [List.length_nil]; omega)
          (by simp only; rw [p2]; simp only [List.length_nil]; omega)
        refine ⟨g1, ?_, e1, h1, t1⟩
        simp only [messageLoopCalls, he, Bool.false_eq_true, if_false, hdec]
        rw [if_neg hc]
        simp only [hs2]
        exact hg1

/-- C20: for every well-formed tree `t` and every state of the stream, also an exhausted
one, `decode(root)` returns after reading exactly `k` bits, where `k` is the number of
choices to the leaf it reaches (a bit past the end being 0): `k` is at most the height of
`t`, it is at least 1 exactly when the root is internal, a bound above `k` on the rounds of
the loop is enough and one of `k` or less is not, and the stream is left `k` bits further,
or at its end.  Consequently, when the root is internal, the loop `while (!stream.eof())`
of `main` returns after testing its condition at most (number of remaining bits) + 1 times,
that is after at most that number of calls to `decode`, with the stream at its end. -/
theorem message_loop_progress (t : BTree) (g : Globals) (fuel : Nat)
    (hrep : Represents g.heap g.huffman.rt t) (hinv : g.stream.Inv)
    (hfuel : t.height < fuel) :
    (t.descend g.stream.pending).2 ≤ t.height ∧
    (1 ≤ (t.descend g.stream.pending).2 ↔ t.isLeaf = false) ∧
    (∃ s, decode fuel g (LinkedBinaryTree.root g.huffman)
        = .ok (symbolChar (t.descend g.stream.pending).1) { g with stream := s } ∧
      s.Inv ∧ s.pending = g.stream.pending.drop (t.descend g.stream.pending).2) ∧
    (∀ f, f ≤ (t.descend g.stream.pending).2 →
      decode f g (LinkedBinaryTree.root g.huffman) = .timeout) ∧
    (t.isLeaf = false → g.stream.pending.length < fuel →
      ∃ g1, messageLoopCalls (g.stream.pending.length + 1) fuel g = .ok () g1 ∧
        g1.stream.eof = true) := by
  obtain ⟨a, ha, rep⟩ := hrep
  have hk := BTree.descend_le_height t g.stream.pending
  refine ⟨hk, BTree.descend_pos t _, ?_, ?_, ?_⟩
  · have := (decode_descend t fuel g 0 a (some g.huffman.self) rep hinv).1 (by omega)
    simpa only [LinkedBinaryTree.root, ha] using this
  · intro f hf
    have := (decode_descend t f g 0 a (some g.huffman.self) rep hinv).2 hf
    simpa only [LinkedBinaryTree.root, ha] using this
  · intro hleaf hlen
    obtain ⟨g1, hg1, e1, _, _⟩ := messageLoopCalls_spec t fuel hleaf hfuel
      (g.stream.pending.length + 1) g a ha rep hinv (by omega) hlen
    exact ⟨g1, hg1, e1⟩

/-! ## Well-formed trees -/

theorem ATree.root_mem_addrs (T : ATree) : T.root ∈ T.addrs := by
  cases T <;> simp [ATree.root, ATree.addrs]

theorem ATree.size_eq_length (T : ATree) : T.size = T.addrs.length := by
  induction T with
  | leaf a => rfl
  | node a l r ihl ihr => simp [ATree.size, ATree.addrs, ihl, ihr]

theorem wfAt_root {h : Heap} {q : Ptr} {T : ATree} (hw : wfAt h q T) :
    ∃ nd, h.deref T.root = some nd ∧ nd.parent = q := by
  cases T with
  | leaf a => obtain ⟨nd, hd, hp, _⟩ := hw; exact ⟨nd, hd, hp⟩
  | node a l r => obtain ⟨nd, hd, hp, _⟩ := hw; exact ⟨nd, hd, hp⟩

theorem wfAt_deref {h : Heap} : ∀ {T : ATree} {q : Ptr}, wfAt h q T → ∀ b ∈ T.addrs,
    ∃ nd, h.deref b = some nd := by
  intro T
  induction T with
  | leaf a =>
    intro q hw b hb
    obtain ⟨nd, hd, _⟩ := hw
    simp only [ATree.addrs, List.mem_singleton] at hb
    subst hb; exact ⟨nd, hd⟩
  | node a l r ihl ihr =>
    intro q hw b hb
    obtain ⟨nd, hd, _, _, _, wl, wr⟩ := hw
    simp only [ATree.addrs, List.mem_cons, List.mem_append] at hb
    rcases hb with rfl | hb | hb
    · exact ⟨nd, hd⟩
    · exact ihl wl b hb
    · exact ihr wr b hb

theorem wfAt_frame {h h1 : Heap} : ∀ {T : ATree} {q : Ptr}, wfAt h q T →
    (∀ b ∈ T.addrs, h1.deref b = h.deref b) → wfAt h1 q T := by
  intro T
  induction T with
  | leaf a =>
    intro q hw hf
    obtain ⟨nd, hd, hp, hl, hr⟩ := hw
    exact ⟨nd, by rw [hf a (by simp [ATree.addrs]), hd], hp, hl, hr⟩
  | node a l r ihl ihr =>
    intro q hw hf
    obtain ⟨nd, hd, hp, hl, hr, wl, wr⟩ := hw
    refine ⟨nd, by rw [hf a (by simp [ATree.addrs]), hd], hp, hl, hr, ?_, ?_⟩
    · exact ihl wl (fun b hb => hf b (by simp [ATree.addrs, hb]))
    · exact ihr wr (fun b hb => hf b (by simp [ATree.addrs, hb]))

theorem wfAt_child_mem {h : Heap} : ∀ {T : ATree} {q : Ptr}, wfAt h q T →
    ∀ (b c : Nat) (nd : Node), b ∈ T.addrs → h.deref b = some nd →
    (nd.left = some c ∨ nd.right = some c) → c ∈ T.addrs := by
  intro T
  induction T with
  | leaf a =>
    intro q hw b c nd hb hd hc
    obtain ⟨nd1, hd1, _, hl, hr⟩ := hw
    simp only [ATree.addrs, List.mem_singleton] at hb
    subst hb
    rw [hd1] at hd; cases hd
    rcases hc with hc | hc
    · rw [hl] at hc; cases hc
    · rw [hr] at hc; cases hc
  | node a l r ihl ihr =>
    intro q hw b c nd hb hd hc
    obtain ⟨nd1, hd1, _, hl, hr, wl, wr⟩ := hw
    simp only [ATree.addrs, List.mem_cons, List.mem_append] at hb ⊢
    rcases hb with rfl | hb | hb
    · rw [hd1] at hd; cases hd
      rcases hc with hc | hc
      · rw [hl] at hc; cases hc
        exact Or.inr (Or.inl (ATree.root_mem_addrs l))
      · rw [hr] at hc; cases hc
        exact Or.inr (Or.inr (ATree.root_mem_addrs r))
    · exact Or.inr (Or.inl (ihl wl b c nd hb hd hc))
    · exact Or.inr (Or.inr (ihr wr b c nd hb hd hc))

theorem ATree.Sub.addrs_subset {X T : ATree} (hs : ATree.Sub X T) : X.addrs ⊆ T.addrs := by
  induction hs with
  | refl => exact fun _ h => h
  | left _ ih => intro b hb; simp [ATree.addrs, ih hb]
  | right _ ih => intro b hb; simp [ATree.addrs, ih hb]

theorem ATree.Sub.nodup {X T : ATree} (hs : ATree.Sub X T) (hn : T.addrs.Nodup) :
    X.addrs.Nodup := by
  induction hs with
  | refl => exact hn
  | left _ ih =>
    simp only [ATree.addrs, List.nodup_cons, List.nodup_append] at hn
    exact ih hn.2.1
  | right _ ih =>
    simp only [ATree.addrs, List.nodup_cons, List.nodup_append] at hn
    exact ih hn.2.2.1

theorem ATree.Sub.wfAt {h : Heap} {X T : ATree} (hs : ATree.Sub X T) :
    ∀ {q : Ptr}, wfAt h q T → ∃ q1, wfAt h q1 X := by
  induction hs with
  | refl => intro q hw; exact ⟨q, hw⟩
  | left _ ih =>
    intro q hw
    obtain ⟨nd, _, _, _, _, wl, _⟩ := hw
    exact ih wl
  | right _ ih =>
    intro q hw
    obtain ⟨nd, _, _, _, _, _, wr⟩ := hw
    exact ih wr

theorem ATree.Sub.trans {X Y T : ATree} (h1 : ATree.Sub X Y) (h2 : ATree.Sub Y T) :
    ATree.Sub X T := by
  induction h2 with
  | refl => exact h1
  | left _ ih => exact ATree.Sub.left ih
  | right _ ih => exact ATree.Sub.right ih

theorem ATree.exists_sub : ∀ (T : ATree) (b : Nat), b ∈ T.addrs →
    ∃ X, ATree.Sub X T ∧ X.root = b := by
  intro T
  induction T with
  | leaf a =>
    intro b hb
    simp only [ATree.addrs, List.mem_singleton] at hb
    exact ⟨.leaf a, ATree.Sub.refl, hb.symm⟩
  | node a l r ihl ihr =>
    intro b hb
    simp only [ATree.addrs, List.mem_cons, List.mem_append] at hb
    rcases hb with rfl | hb | hb
    · exact ⟨_, ATree.Sub.refl, rfl⟩
    · obtain ⟨X, hs, hr⟩ := ihl b hb
      exact ⟨X, ATree.Sub.left hs, hr⟩
    · obtain ⟨X, hs, hr⟩ := ihr b hb
      exact ⟨X, ATree.Sub.right hs, hr⟩

theorem ATree.Sub.owner {X T : ATree} (hs : ATree.Sub X T) :
    X = T ∨ ∃ a l r, ATree.Sub (.node a l r) T ∧ (X = l ∨ X = r) := by
  induction hs with
  | refl => exact Or.inl rfl
  | @left a l r hl ih =>
    rcases ih with rfl | ⟨a1, l1, r1, hs1, hx⟩
    · exact Or.inr ⟨a, X, r, ATree.Sub.refl, Or.inl rfl⟩
    · exact Or.inr ⟨a1, l1, r1, ATree.Sub.left hs1, hx⟩
  | @right a l r hr ih =>
    rcases ih with rfl | ⟨a1, l1, r1, hs1, hx⟩
    · exact Or.inr ⟨a, l, X, ATree.Sub.refl, Or.inr rfl⟩
    · exact Or.inr ⟨a1, l1, r1, ATree.Sub.right hs1, hx⟩

theorem ATree.Sub.eq_of_root {X T : ATree} (hs : ATree.Sub X T) (hn : T.addrs.Nodup)
    (hr : X.root = T.root) : X = T := by
  cases hs with
  | refl => rfl
  | @left a l r hl =>
    exfalso
    simp only [ATree.addrs, List.nodup_cons, List.mem_append, not_or] at hn
    have := hl.addrs_subset (ATree.root_mem_addrs X)
    rw [hr] at this
    exact hn.1.1 this
  | @right a l r hl =>
    exfalso
    simp only [ATree.addrs, List.nodup_cons, List.mem_append, not_or] at hn
    have := hl.addrs_subset (ATree.root_mem_addrs X)
    rw [hr] at this
    exact hn.1.2 this

theorem ATree.replaceAt_of_not_mem (x : Nat) (S : ATree) : ∀ (T : ATree), x ∉ T.addrs →
    T.replaceAt x S = T := by
  intro T
  induction T with
  | leaf a =>
    intro hx
    simp only [ATree.addrs, List.mem_singleton] at hx
    simp [ATree.replaceAt, Ne.symm hx]
  | node a l r ihl ihr =>
    intro hx
    simp only [ATree.addrs, List.mem_cons, List.mem_append, not_or] at hx
    simp [ATree.replaceAt, Ne.symm hx.1, ihl hx.2.1, ihr hx.2.2]

theorem ATree.replaceAt_root_eq (S T : ATree) : T.replaceAt T.root S = S := by
  cases T <;> simp [ATree.replaceAt, ATree.root]

theorem ATree.replaceAt_root (x : Nat) (S T : ATree) :
    (T.replaceAt x S).root = if T.root = x then S.root else T.root := by
  cases T with
  | leaf a =>
    by_cases h : a = x <;> simp [ATree.replaceAt, ATree.root, h]
  | node a l r =>
    by_cases h : a = x <;> simp [ATree.replaceAt, ATree.root, h]

/-- Replacing the subtree `X` of a well-formed `T` by `S`: the result is well-formed in the
heap `h1` when `S` is, under the parent link that the root of `X` had, the owner of `X`
points to the root of `S` instead, and the other nodes of `T` outside `X` are as in `h`. -/
theorem wfAt_replaceAt {h h1 : Heap} {X S : ATree}
    (hS : ∀ nd, h.deref X.root = some nd → wfAt h1 nd.parent S) :
    ∀ {T : ATree}, ATree.Sub X T → ∀ (q : Ptr), wfAt h q T → T.addrs.Nodup →
    (∀ o nd, o ∈ T.addrs → h.deref o = some nd → nd.left = some X.root →
      h1.deref o = some { nd with left := some S.root }) →
    (∀ o nd, o ∈ T.addrs → h.deref o = some nd → nd.right = some X.root →
      h1.deref o = some { nd with right := some S.root }) →
    (∀ b nd, b ∈ T.addrs → b ∉ X.addrs → h.deref b = some nd → nd.left ≠ some X.root →
      nd.right ≠ some X.root → h1.deref b = some nd) →
    wfAt h1 q (T.replaceAt X.root S) := by
  intro T hs
  induction hs with
  | refl =>
    intro q hw _ _ _ _
    rw [ATree.replaceAt_root_eq]
    obtain ⟨nd, hd, hp⟩ := wfAt_root hw
    rw [← hp]; exact hS nd hd
  | @left a l r hl ih =>
    intro q hw hn hL hR hF
    have hn0 := hn
    simp only [ATree.addrs, List.nodup_cons, List.mem_append, not_or, List.nodup_append] at hn
    obtain ⟨⟨hal, har⟩, hnl, hnr, hdisj⟩ := hn
    have hxl : X.root ∈ l.addrs := hl.addrs_subset (ATree.root_mem_addrs X)
    have hxa : a ≠ X.root := fun e => hal (e ▸ hxl)
    have hxr : X.root ∉ r.addrs := fun e => hdisj hxl e
    obtain ⟨nd, hd, hp, hnl1, hnr1, wl, wr⟩ := hw
    have hmem : ∀ b, b ∈ l.addrs ∨ b ∈ r.addrs → b ∈ (ATree.node a l r).addrs := by
      intro b hb; simp only [ATree.addrs, List.mem_cons, List.mem_append]; exact Or.inr hb
    have hwl := ih (some a) wl hnl
      (fun o nd ho => hL o nd (hmem o (Or.inl ho)))
      (fun o nd ho => hR o nd (hmem o (Or.inl ho)))
      (fun b nd hb => hF b nd (hmem b (Or.inl hb)))
    have hwr : wfAt h1 (some a) r := by
      apply wfAt_frame wr
      intro b hb
      obtain ⟨ndb, hdb⟩ := wfAt_deref wr b hb
      rw [hdb]
      apply hF b ndb (hmem b (Or.inr hb)) (fun e => hdisj (hl.addrs_subset e) hb) hdb
      · intro e; exact hxr (wfAt_child_mem wr b _ ndb hb hdb (Or.inl e))
      · intro e; exact hxr (wfAt_child_mem wr b _ ndb hb hdb (Or.inr e))
    have hrr : r.root ≠ X.root := fun e => hxr (e ▸ ATree.root_mem_addrs r)
    have hroot := ATree.replaceAt_root X.root S l
    simp only [ATree.replaceAt, hxa, if_false, ATree.replaceAt_of_not_mem X.root S r hxr]
    by_cases hlx : l.root = X.root
    · rw [if_pos hlx] at hroot
      have := hL a nd (by simp [ATree.addrs]) hd (by rw [hnl1, hlx])
      exact ⟨_, this, hp, by rw [hroot], hnr1, hwl, hwr⟩
    · rw [if_neg hlx] at hroot
      have := hF a nd (by simp [ATree.addrs]) (fun e => hal (hl.addrs_subset e)) hd
        (by rw [hnl1]; intro e; exact hlx (Option.some.inj e))
        (by rw [hnr1]; intro e; exact hrr (Option.some.inj e))
      exact ⟨nd, this, hp, by rw [hroot, hnl1], hnr1, hwl, hwr⟩
  | @right a l r hl ih =>
    intro q hw hn hL hR hF
    simp only [ATree.addrs, List.nodup_cons, List.mem_append, not_or, List.nodup_append] at hn
    obtain ⟨⟨hal, har⟩, hnl, hnr, hdisj⟩ := hn
    have hxr : X.root ∈ r.addrs := hl.addrs_subset (ATree.root_mem_addrs X)
    have hxa : a ≠ X.root := fun e => har (e ▸ hxr)
    have hxl : X.root ∉ l.addrs := fun e => hdisj e hxr
    obtain ⟨nd, hd, hp, hnl1, hnr1, wl, wr⟩ := hw
    have hmem : ∀ b, b ∈ l.addrs ∨ b ∈ r.addrs → b ∈ (ATree.node a l r).addrs := by
      intro b hb; simp only [ATree.addrs, List.mem_cons, List.mem_append]; exact Or.inr hb
    have hwr := ih (some a) wr hnr
      (fun o nd ho => hL o nd (hmem o (Or.inr ho)))
      (fun o nd ho => hR o nd (hmem o (Or.inr ho)))
      (fun b nd hb => hF b nd (hmem b (Or.inr hb)))
    have hwl : wfAt h1 (some a) l := by
      apply wfAt_frame wl
      intro b hb
      obtain ⟨ndb, hdb⟩ := wfAt_deref wl b hb
      rw [hdb]
      apply hF b ndb (hmem b (Or.inl hb)) (fun e => hdisj hb (hl.addrs_subset e)) hdb
      · intro e; exact hxl (wfAt_child_mem wl b _ ndb hb hdb (Or.inl e))
      · intro e; exact hxl (wfAt_child_mem wl b _ ndb hb hdb (Or.inr e))
    have hll : l.root ≠ X.root := fun e => hxl (e ▸ ATree.root_mem_addrs l)
    have hroot := ATree.replaceAt_root X.root S r
    simp only [ATree.replaceAt, hxa, if_false, ATree.replaceAt_of_not_mem X.root S l hxl]
    by_cases hrx : r.root = X.root
    · rw [if_pos hrx] at hroot
      have := hR a nd (by simp [ATree.addrs]) hd (by rw [hnr1, hrx])
      exact ⟨_, this, hp, hnl1, by rw [hroot], hwl, hwr⟩
    · rw [if_neg hrx] at hroot
      have := hF a nd (by simp [ATree.addrs]) (fun e => har (hl.addrs_subset e)) hd
        (by rw [hnl1]; intro e; exact hll (Option.some.inj e))
        (by rw [hnr1]; intro e; exact hrx (Option.some.inj e))
      exact ⟨nd, this, hp, hnl1, by rw [hroot, hnr1], hwl, hwr⟩

theorem ATree.mem_addrs_replaceAt {X S : ATree} : ∀ {T : ATree}, ATree.Sub X T →
    T.addrs.Nodup → ∀ b, b ∈ (T.replaceAt X.root S).addrs ↔
      (b ∈ T.addrs ∧ b ∉ X.addrs) ∨ b ∈ S.addrs := by
  intro T hs
  induction hs with
  | refl =>
    intro _ b
    rw [ATree.replaceAt_root_eq]
    constructor
    · intro h; exact Or.inr h
    · rintro (⟨h1, h2⟩ | h)
      · exact absurd h1 h2
      · exact h
  | @left a l r hl ih =>
    intro hn b
    simp only [ATree.addrs, List.nodup_cons, List.mem_append, not_or, List.nodup_append] at hn
    obtain ⟨⟨hal, har⟩, hnl, hnr, hdisj⟩ := hn
    have hxl : X.root ∈ l.addrs := hl.addrs_subset (ATree.root_mem_addrs X)
    have hxa : a ≠ X.root := fun e => hal (e ▸ hxl)
    have hxr : X.root ∉ r.addrs := fun e => hdisj hxl e
    have hax : b = a → b ∉ X.addrs := fun e hb => hal (e ▸ hl.addrs_subset hb)
    have hrx : b ∈ r.addrs → b ∉ X.addrs := fun hb hx => hdisj (hl.addrs_subset hx) hb
    simp only [ATree.replaceAt, hxa, if_false, ATree.replaceAt_of_not_mem X.root S r hxr,
      ATree.addrs, List.mem_cons, List.mem_append, ih hnl b]
    tauto
  | @right a l r hl ih =>
    intro hn b
    simp only [ATree.addrs, List.nodup_cons, List.mem_append, not_or, List.nodup_append] at hn
    obtain ⟨⟨hal, har⟩, hnl, hnr, hdisj⟩ := hn
    have hxr : X.root ∈ r.addrs := hl.addrs_subset (ATree.root_mem_addrs X)
    have hxa : a ≠ X.root := fun e => har (e ▸ hxr)
    have hxl : X.root ∉ l.addrs := fun e => hdisj e hxr
    have hax : b = a → b ∉ X.addrs := fun e hb => har (e ▸ hl.addrs_subset hb)
    have hlx : b ∈ l.addrs → b ∉ X.addrs := fun hb hx => hdisj hb (hl.addrs_subset hx)
    simp only [ATree.replaceAt, hxa, if_false, ATree.replaceAt_of_not_mem X.root S l hxl,
      ATree.addrs, List.mem_cons, List.mem_append, ih hnr b]
    tauto

theorem ATree.nodup_replaceAt {X S : ATree} (hS : S.addrs.Nodup) : ∀ {T : ATree},
    ATree.Sub X T → T.addrs.Nodup → (∀ b ∈ S.addrs, b ∈ T.addrs → b ∈ X.addrs) →
    (T.replaceAt X.root S).addrs.Nodup := by
  intro T hs
  induction hs with
  | refl => intro _ _; rw [ATree.replaceAt_root_eq]; exact hS
  | @left a l r hl ih =>
    intro hn hd
    have hn0 := hn
    simp only [ATree.addrs, List.nodup_cons, List.mem_append, not_or, List.nodup_append] at hn
    obtain ⟨⟨hal, har⟩, hnl, hnr, hdisj⟩ := hn
    have hxl : X.root ∈ l.addrs := hl.addrs_subset (ATree.root_mem_addrs X)
    have hxa : a ≠ X.root := fun e => hal (e ▸ hxl)
    have hxr : X.root ∉ r.addrs := fun e => hdisj hxl e
    have hmem := fun b => ATree.mem_addrs_replaceAt (S := S) hl hnl b
    have hin : ∀ b, b ∈ S.addrs → (b = a ∨ b ∈ l.addrs ∨ b ∈ r.addrs) → b ∈ l.addrs := by
      intro b hb hc
      exact hl.addrs_subset (hd b hb (by
        simp only [ATree.addrs, List.mem_cons, List.mem_append]; exact hc))
    simp only [ATree.replaceAt, hxa, if_false, ATree.replaceAt_of_not_mem X.root S r hxr,
      ATree.addrs, List.nodup_cons, List.mem_append, not_or, List.nodup_append]
    refine ⟨⟨?_, har⟩, ih hnl (fun b hb hbl => hd b hb (by
        simp only [ATree.addrs, List.mem_cons, List.mem_append]; exact Or.inr (Or.inl hbl))),
      hnr, ?_⟩
    · intro ha
      rcases (hmem a).1 ha with ⟨h1, _⟩ | h1
      · exact hal h1
      · exact hal (hin a h1 (Or.inl rfl))
    · intro b hb hbr
      rcases (hmem b).1 hb with ⟨h1, _⟩ | h1
      · exact hdisj h1 hbr
      · exact hdisj (hin b h1 (Or.inr (Or.inr hbr))) hbr
  | @right a l r hl ih =>
    intro hn hd
    simp only [ATree.addrs, List.nodup_cons, List.mem_append, not_or, List.nodup_append] at hn
    obtain ⟨⟨hal, har⟩, hnl, hnr, hdisj⟩ := hn
    have hxr : X.root ∈ r.addrs := hl.addrs_subset (ATree.root_mem_addrs X)
    have hxa : a ≠ X.root := fun e => har (e ▸ hxr)
    have hxl : X.root ∉ l.addrs := fun e => hdisj e hxr
    have hmem := fun b => ATree.mem_addrs_replaceAt (S := S) hl hnr b
    have hin : ∀ b, b ∈ S.addrs → (b = a ∨ b ∈ l.addrs ∨ b ∈ r.addrs) → b ∈ r.addrs := by
      intro b hb hc
      exact hl.addrs_subset (hd b hb (by
        simp only [ATree.addrs, List.mem_cons, List.mem_append]; exact hc))
    simp only [ATree.replaceAt, hxa, if_false, ATree.replaceAt_of_not_mem X.root S l hxl,
      ATree.addrs, List.nodup_cons, List.mem_append, not_or, List.nodup_append]
    refine ⟨⟨hal, ?_⟩, hnl, ih hnr (fun b hb hbl => hd b hb (by
        simp only [ATree.addrs, List.mem_cons, List.mem_append]; exact Or.inr (Or.inr hbl))),
      ?_⟩
    · intro ha
      rcases (hmem a).1 ha with ⟨h1, _⟩ | h1
      · exact har h1
      · exact har (hin a h1 (Or.inl rfl))
    · intro b hbl hb
      rcases (hmem b).1 hb with ⟨h1, _⟩ | h1
      · exact hdisj hbl h1
      · exact hdisj hbl (hin b h1 (Or.inr (Or.inl hbl)))

theorem ATree.size_replaceAt {X S : ATree} : ∀ {T : ATree}, ATree.Sub X T →
    T.addrs.Nodup → (T.replaceAt X.root S).size + X.size = T.size + S.size := by
  intro T hs
  induction hs with
  | refl => intro _; rw [ATree.replaceAt_root_eq]; omega
  | @left a l r hl ih =>
    intro hn
    simp only [ATree.addrs, List.nodup_cons, List.mem_append, not_or, List.nodup_append] at hn
    obtain ⟨⟨hal, har⟩, hnl, hnr, hdisj⟩ := hn
    have hxl : X.root ∈ l.addrs := hl.addrs_subset (ATree.root_mem_addrs X)
    have hxa : a ≠ X.root := fun e => hal (e ▸ hxl)
    have hxr : X.root ∉ r.addrs := fun e => hdisj hxl e
    have := ih hnl
    simp only [ATree.replaceAt, hxa, if_false, ATree.replaceAt_of_not_mem X.root S r hxr,
      ATree.size]
    omega
  | @right a l r hl ih =>
    intro hn
    simp only [ATree.addrs, List.nodup_cons, List.mem_append, not_or, List.nodup_append] at hn
    obtain ⟨⟨hal, har⟩, hnl, hnr, hdisj⟩ := hn
    have hxr : X.root ∈ r.addrs := hl.addrs_subset (ATree.root_mem_addrs X)
    have hxa : a ≠ X.root := fun e => har (e ▸ hxr)
    have hxl : X.root ∉ l.addrs := fun e => hdisj e hxr
    have := ih hnr
    simp only [ATree.replaceAt, hxa, if_false, ATree.replaceAt_of_not_mem X.root S l hxl,
      ATree.size]
    omega

theorem wfAt_owner_link {h : Heap} : ∀ {T : ATree} {q : Ptr}, wfAt h q T →
    ∀ (o c : Nat) (nd : Node), o ∈ T.addrs → h.deref o = some nd →
    (nd.left = some c ∨ nd.right = some c) →
    ∃ ndc, h.deref c = some ndc ∧ ndc.parent = some o := by
  intro T
  induction T with
  | leaf a =>
    intro q hw o c nd ho hd hc
    obtain ⟨nd1, hd1, _, hl, hr⟩ := hw
    simp only [ATree.addrs, List.mem_singleton] at ho
    subst ho
    rw [hd1] at hd; cases hd
    rcases hc with hc | hc
    · rw [hl] at hc; cases hc
    · rw [hr] at hc; cases hc
  | node a l r ihl ihr =>
    intro q hw o c nd ho hd hc
    obtain ⟨nd1, hd1, _, hl, hr, wl, wr⟩ := hw
    simp only [ATree.addrs, List.mem_cons, List.mem_append] at ho
    rcases ho with rfl | ho | ho
    · rw [hd1] at hd; cases hd
      rcases hc with hc | hc
      · rw [hl] at hc; cases hc; exact wfAt_root wl
      · rw [hr] at hc; cases hc; exact wfAt_root wr
    · exact ihl wl o c nd ho hd hc
    · exact ihr wr o c nd ho hd hc

theorem wfAt_parent {h : Heap} : ∀ {T : ATree} {q : Ptr}, wfAt h q T → ∀ b ∈ T.addrs,
    ∃ nd, h.deref b = some nd ∧
      ((b = T.root ∧ nd.parent = q) ∨ ∃ o ∈ T.addrs, nd.parent = some o) := by
  intro T
  induction T with
  | leaf a =>
    intro q hw b hb
    obtain ⟨nd, hd, hp, _⟩ := hw
    simp only [ATree.addrs, List.mem_singleton] at hb
    subst hb
    exact ⟨nd, hd, Or.inl ⟨rfl, hp⟩⟩
  | node a l r ihl ihr =>
    intro q hw b hb
    obtain ⟨nd, hd, hp, _, _, wl, wr⟩ := hw
    simp only [ATree.addrs, List.mem_cons, List.mem_append] at hb
    rcases hb with rfl | hb | hb
    · exact ⟨nd, hd, Or.inl ⟨rfl, hp⟩⟩
    · obtain ⟨ndb, hdb, hc⟩ := ihl wl b hb
      refine ⟨ndb, hdb, Or.inr ?_⟩
      rcases hc with ⟨_, hpb⟩ | ⟨o, ho, hpb⟩
      · exact ⟨a, by simp [ATree.addrs], hpb⟩
      · exact ⟨o, by simp [ATree.addrs, ho], hpb⟩
    · obtain ⟨ndb, hdb, hc⟩ := ihr wr b hb
      refine ⟨ndb, hdb, Or.inr ?_⟩
      rcases hc with ⟨_, hpb⟩ | ⟨o, ho, hpb⟩
      · exact ⟨a, by simp [ATree.addrs], hpb⟩
      · exact ⟨o, by simp [ATree.addrs, ho], hpb⟩

/-- A node of a subtree of `T` that is also a node of the tree `T2`, whose root has a null
parent link, makes the root of `T` a node of `T2`. -/
theorem ATree.Sub.root_mem_of_mem {h : Heap} {T2 : ATree} (hw2 : Decode.wfAt h none T2)
    {X T : ATree} (hs : ATree.Sub X T) : ∀ {q : Ptr}, Decode.wfAt h q T →
    X.root ∈ T2.addrs → T.root ∈ T2.addrs := by
  induction hs with
  | refl => intro q _ hx; exact hx
  | @left a l r hl ih =>
    intro q hw hx
    obtain ⟨nd, hd, hp, _, _, wl, wr⟩ := hw
    have hlr := ih wl hx
    obtain ⟨ndl, hdl, hpl⟩ := wfAt_root wl
    obtain ⟨nd2, hd2, hc⟩ := wfAt_parent hw2 l.root hlr
    rw [hdl] at hd2; cases hd2
    rcases hc with ⟨_, hn⟩ | ⟨o, ho, hpo⟩
    · rw [hpl] at hn; cases hn
    · rw [hpl] at hpo; cases hpo; exact ho
  | @right a l r hl ih =>
    intro q hw hx
    obtain ⟨nd, hd, hp, _, _, wl, wr⟩ := hw
    have hlr := ih wr hx
    obtain ⟨ndl, hdl, hpl⟩ := wfAt_root wr
    obtain ⟨nd2, hd2, hc⟩ := wfAt_parent hw2 r.root hlr
    rw [hdl] at hd2; cases hd2
    rcases hc with ⟨_, hn⟩ | ⟨o, ho, hpo⟩
    · rw [hpl] at hn; cases hn
    · rw [hpl] at hpo; cases hpo; exact ho

/-- Two well-formed trees with different roots have no node in common. -/
theorem wfAt_disjoint {h : Heap} {T1 T2 : ATree} (hw1 : wfAt h none T1)
    (hw2 : wfAt h none T2) (hne : T1.root ≠ T2.root) : ∀ b ∈ T1.addrs, b ∉ T2.addrs := by
  intro b hb1 hb2
  obtain ⟨X, hs, hx⟩ := ATree.exists_sub T1 b hb1
  have hr := hs.root_mem_of_mem hw2 hw1 (by rw [hx]; exact hb2)
  obtain ⟨nd1, hd1, hp1⟩ := wfAt_root hw1
  obtain ⟨nd2, hd2, hc⟩ := wfAt_parent hw2 T1.root hr
  rw [hd1] at hd2; cases hd2
  rcases hc with ⟨he, _⟩ | ⟨o, _, hpo⟩
  · exact hne he
  · rw [hp1] at hpo; cases hpo

theorem wfAt_reparent {h h1 : Heap} {S : ATree} {q q1 : Ptr} (hw : wfAt h q S)
    (hn : S.addrs.Nodup)
    (hroot : ∀ nd, h.deref S.root = some nd → h1.deref S.root = some { nd with parent := q1 })
    (hrest : ∀ b ∈ S.addrs, b ≠ S.root → h1.deref b = h.deref b) : wfAt h1 q1 S := by
  cases S with
  | leaf a =>
    obtain ⟨nd, hd, _, hl, hr⟩ := hw
    exact ⟨_, hroot nd hd, rfl, hl, hr⟩
  | node a l r =>
    obtain ⟨nd, hd, _, hl, hr, wl, wr⟩ := hw
    simp only [ATree.addrs, List.nodup_cons, List.mem_append, not_or] at hn
    refine ⟨_, hroot nd hd, rfl, hl, hr, ?_, ?_⟩
    · apply wfAt_frame wl
      intro b hb
      exact hrest b (by simp [ATree.addrs, hb]) (fun e => hn.1.1 (by subst e; exact hb))
    · apply wfAt_frame wr
      intro b hb
      exact hrest b (by simp [ATree.addrs, hb]) (fun e => hn.1.2 (by subst e; exact hb))

theorem wfAt_reach {h : Heap} {T : ATree} {q : Ptr} (hw : wfAt h q T) {b : Nat}
    (hr : Reach h T.root b) : b ∈ T.addrs := by
  induction hr with
  | root => exact ATree.root_mem_addrs T
  | left _ hd hl ih => exact wfAt_child_mem hw _ _ _ ih hd (Or.inl hl)
  | right _ hd hl ih => exact wfAt_child_mem hw _ _ _ ih hd (Or.inr hl)

theorem wfAt_reach_of_mem {h : Heap} {r : Nat} : ∀ {T : ATree} {q : Ptr}, wfAt h q T →
    Reach h r T.root → ∀ b ∈ T.addrs, Reach h r b := by
  intro T
  induction T with
  | leaf a =>
    intro q _ hr b hb
    simp only [ATree.addrs, List.mem_singleton] at hb
    subst hb; exact hr
  | node a l r ihl ihr =>
    intro q hw hr b hb
    obtain ⟨nd, hd, _, hl, hrr, wl, wr⟩ := hw
    simp only [ATree.addrs, List.mem_cons, List.mem_append] at hb
    rcases hb with rfl | hb | hb
    · exact hr
    · exact ihl wl (Reach.left hr hd hl) b hb
    · exact ihr wr (Reach.right hr hd hrr) b hb

/-- In a well-formed tree with the nodes `T`, the nodes reachable from the root are exactly
the nodes of `T`, so that `n` is the number of reachable nodes. -/
theorem WFWith.reach_iff {h : Heap} {t : Tree} {T : ATree} (hw : WFWith h t T) (b : Nat) :
    Reach h T.root b ↔ b ∈ T.addrs :=
  ⟨fun hr => wfAt_reach hw.2.1 hr, fun hb => wfAt_reach_of_mem hw.2.1 Reach.root b hb⟩

/-- The subtree at an external node of a well-formed tree is a leaf. -/
theorem ATree.Sub.leaf_of_external {h : Heap} {X T : ATree} {q : Ptr} (hs : ATree.Sub X T)
    (hw : Decode.wfAt h q T) {nd : Node} (hd : h.deref X.root = some nd)
    (hl : nd.left = none) : X = .leaf X.root := by
  obtain ⟨q1, hx⟩ := hs.wfAt hw
  cases X with
  | leaf a => rfl
  | node a l r =>
    obtain ⟨nd1, hd1, _, hl1, _⟩ := hx
    simp only [ATree.root] at hd
    rw [hd1] at hd; cases hd
    rw [hl] at hl1; cases hl1

theorem Node.with_left_self {nd : Node} {c : Ptr} (hc : nd.left = c) :
    { nd with left := c } = nd := by
  cases nd; cases hc; rfl

theorem Node.with_right_self {nd : Node} {c : Ptr} (hc : nd.right = c) :
    { nd with right := c } = nd := by
  cases nd; cases hc; rfl

theorem Node.with_parent_self {nd : Node} {c : Ptr} (hc : nd.parent = c) :
    { nd with parent := c } = nd := by
  cases nd; cases hc; rfl

/-- The node `e` of a well-formed tree that has no left child is a leaf of the tree. -/
theorem ATree.sub_leaf_of_external {h : Heap} {T : ATree} {q : Ptr} (hw : wfAt h q T)
    {e : Nat} (he : e ∈ T.addrs) {nd : Node} (hd : h.deref e = some nd)
    (hl : nd.left = none) : ATree.Sub (.leaf e) T := by
  obtain ⟨X, hs, hx⟩ := ATree.exists_sub T e he
  subst hx
  have := hs.leaf_of_external hw hd hl
  rw [this] at hs
  exact hs

/-- `expandExternal` on a leaf `e` of a well-formed tree with the nodes `T`: the tree is
well-formed again, with `e` replaced by an internal node with two new leaves. -/
theorem LinkedBinaryTree.expandExternal_wf {t : Tree} {h : Heap} {p : Position} {T : ATree}
    {e : Nat} {nd : Node} (hw : WFWith h t T) (hp : p.node = some e)
    (ht : p.tree = some t.self) (he : e ∈ T.addrs) (hd : h.deref e = some nd)
    (hl : nd.left = none) (hr : nd.right = none) :
    ∃ h2, LinkedBinaryTree.expandExternal t h p = .ok () (h2, { t with n := t.n + 2 }) ∧
      WFWith h2 { t with n := t.n + 2 }
        (T.replaceAt e (.node e (.leaf h.length) (.leaf (h.length + 1)))) := by
  obtain ⟨hrt, hwf, hnd, hsz⟩ := hw
  obtain ⟨h2, hok, hlen, hde, hdl, hdr, hfr⟩ :=
    LinkedBinaryTree.expandExternal_spec (t := t) hp ht hd hl hr
  have hsub := ATree.sub_leaf_of_external hwf he hd hl
  have helt := Heap.deref_lt hd
  have hmemlt : ∀ b ∈ T.addrs, b < h.length := by
    intro b hb
    obtain ⟨ndb, hdb⟩ := wfAt_deref hwf b hb
    exact Heap.deref_lt hdb
  refine ⟨h2, hok, ?_, ?_, ?_, ?_⟩
  · show t.rt = some _
    rw [ATree.replaceAt_root, hrt]
    by_cases hc : T.root = e
    · rw [if_pos hc, hc]; rfl
    · rw [if_neg hc]
  · apply wfAt_replaceAt (h := h) (X := .leaf e)
      (S := .node e (.leaf h.length) (.leaf (h.length + 1))) ?_ hsub none hwf hnd ?_ ?_ ?_
    · intro nd1 hd1
      simp only [ATree.root] at hd1
      rw [hd] at hd1; cases hd1
      exact ⟨_, hde, rfl, rfl, rfl, ⟨_, hdl, rfl, rfl, rfl⟩, ⟨_, hdr, rfl, rfl, rfl⟩⟩
    · intro o ndo ho hdo hlo
      simp only [ATree.root] at hlo ⊢
      have hoe : o ≠ e := by
        rintro rfl
        rw [hd] at hdo; cases hdo
        rw [hl] at hlo; cases hlo
      rw [hfr o (hmemlt o ho) hoe, hdo, Node.with_left_self hlo]
    · intro o ndo ho hdo hlo
      simp only [ATree.root] at hlo ⊢
      have hoe : o ≠ e := by
        rintro rfl
        rw [hd] at hdo; cases hdo
        rw [hr] at hlo; cases hlo
      rw [hfr o (hmemlt o ho) hoe, hdo, Node.with_right_self hlo]
    · intro b ndb hb hbe hdb _ _
      simp only [ATree.addrs, List.mem_singleton] at hbe
      rw [hfr b (hmemlt b hb) hbe, hdb]
  · apply ATree.nodup_replaceAt (X := .leaf e) _ hsub hnd
    · intro b hb hbT
      have := hmemlt b hbT
      simp only [ATree.addrs, List.mem_cons, List.mem_singleton, List.cons_append,
        List.nil_append, List.mem_nil_iff, or_false] at hb ⊢
      rcases hb with rfl | rfl | rfl
      · trivial
      · omega
      · omega
    · simp only [ATree.addrs, List.cons_append, List.nil_append, List.nodup_cons,
        List.mem_cons, List.mem_singleton, List.not_mem_nil, not_false_eq_true,
        List.nodup_nil, and_true, not_or]
      omega
  · show t.n + 2 = _
    have hs := ATree.size_replaceAt (X := .leaf e)
      (S := .node e (.leaf h.length) (.leaf (h.length + 1))) hsub hnd
    simp only [ATree.size, ATree.root] at hs
    rw [hsz]
    have : ((T.replaceAt e (.node e (.leaf h.length) (.leaf (h.length + 1)))).size : Int)
        = (T.size : Int) + 2 := by omega
    rw [this]

theorem Heap.deref_free_eq (h : Heap) (a : Nat) : (h.free a).deref a = none := by
  simp only [Heap.free, Heap.deref, List.getD_eq_getElem?_getD, List.getElem?_set, if_true]
  by_cases ha : a < h.length
  · rw [if_pos ha]; rfl
  · rw [if_neg ha]; rfl

theorem Heap.deref_free_ne (h : Heap) {a b : Nat} (hab : a ≠ b) :
    (h.free a).deref b = h.deref b := Heap.deref_set_ne h none hab

/-- A leaf `e` of a well-formed tree that is not the root: its parent `par`, the subtree
`P` at the parent and the subtree `S` at the sibling of `e`. -/
theorem ATree.external_sibling {h : Heap} {T : ATree} {e : Nat} {nd : Node}
    (hw : wfAt h none T) (hn : T.addrs.Nodup) (he : e ∈ T.addrs) (hd : h.deref e = some nd)
    (hl : nd.left = none) (hne : e ≠ T.root) :
    ∃ par ndp P S, ATree.Sub P T ∧ P.root = par ∧ wfAt h ndp.parent P ∧
      h.deref par = some ndp ∧ nd.parent = some par ∧ wfAt h (some par) S ∧ S.addrs.Nodup ∧
      (∀ b, b ∈ P.addrs ↔ b = par ∨ b = e ∨ b ∈ S.addrs) ∧
      par ≠ e ∧ par ∉ S.addrs ∧ e ∉ S.addrs ∧ P.size = S.size + 2 ∧
      ((ndp.left = some e ∧ ndp.right = some S.root) ∨
        (ndp.left = some S.root ∧ ndp.right = some e)) ∧
      ATree.Sub S T := by
  have hsub := ATree.sub_leaf_of_external hw he hd hl
  rcases hsub.owner with hT | ⟨a, l, r, hs, hlr⟩
  · rw [← hT] at hne; exact absurd rfl hne
  · obtain ⟨q1, hwP⟩ := hs.wfAt hw
    have hnP := hs.nodup hn
    obtain ⟨ndp, hdp, hpp, hpl, hpr, wl, wr⟩ := hwP
    have hwP : wfAt h ndp.parent (.node a l r) := ⟨ndp, hdp, rfl, hpl, hpr, wl, wr⟩
    simp only [ATree.addrs, List.nodup_cons, List.mem_append, not_or, List.nodup_append]
      at hnP
    obtain ⟨⟨hal, har⟩, hnl, hnr, hdis⟩ := hnP
    rcases hlr with hlr | hlr
    · subst hlr
      obtain ⟨nd1, hd1, hp1, _⟩ := wl
      rw [hd] at hd1; cases hd1
      simp only [ATree.addrs, List.mem_singleton] at hal
      have her : e ∉ r.addrs := fun hx => hdis (by simp [ATree.addrs]) hx
      refine ⟨a, ndp, _, r, hs, rfl, hwP, hdp, hp1, wr, hnr, ?_, hal, har, her, ?_,
        Or.inl ⟨hpl, hpr⟩, (ATree.Sub.right ATree.Sub.refl).trans hs⟩
      · intro b; simp [ATree.addrs]
      · simp [ATree.size]; omega
    · subst hlr
      obtain ⟨nd1, hd1, hp1, _⟩ := wr
      rw [hd] at hd1; cases hd1
      simp only [ATree.addrs, List.mem_singleton] at har
      have her : e ∉ l.addrs := fun hx => hdis hx (by simp [ATree.addrs])
      refine ⟨a, ndp, _, l, hs, rfl, hwP, hdp, hp1, wl, hnl, ?_, har, hal, her, ?_,
        Or.inr ⟨hpl, hpr⟩, (ATree.Sub.left ATree.Sub.refl).trans hs⟩
      · intro b; simp [ATree.addrs]; tauto
      · simp [ATree.size]

/-- The subtree `P` of a well-formed tree `T` is `T` itself or the child of a node `g`,
which is not in `P` and has `P` on exactly one side. -/
theorem ATree.Sub.grand {h : Heap} {T P : ATree} (hw : Decode.wfAt h none T)
    (hn : T.addrs.Nodup) (hs : ATree.Sub P T) :
    (P = T) ∨ ∃ g ndg, g ∈ T.addrs ∧ g ∉ P.addrs ∧ h.deref g = some ndg ∧
      Decode.wfAt h (some g) P ∧
      ((ndg.left = some P.root ∧ ndg.right ≠ some P.root) ∨
        (ndg.left ≠ some P.root ∧ ndg.right = some P.root)) := by
  rcases hs.owner with hT | ⟨a, l, r, hsG, hlr⟩
  · exact Or.inl hT
  · right
    obtain ⟨q1, hwG⟩ := hsG.wfAt hw
    have hnG := hsG.nodup hn
    obtain ⟨ndg, hdg, _, hgl, hgr, wl, wr⟩ := hwG
    simp only [ATree.addrs, List.nodup_cons, List.mem_append, not_or, List.nodup_append]
      at hnG
    obtain ⟨⟨hal, har⟩, hnl, hnr, hdis⟩ := hnG
    have hne : l.root ≠ r.root := fun hx =>
      hdis (ATree.root_mem_addrs l) (hx ▸ ATree.root_mem_addrs r)
    have hgT : a ∈ T.addrs := hsG.addrs_subset (by simp [ATree.addrs])
    rcases hlr with rfl | rfl
    · refine ⟨a, ndg, hgT, hal, hdg, wl, Or.inl ⟨hgl, ?_⟩⟩
      rw [hgr]; intro hx; exact hne (Option.some.inj hx).symm
    · refine ⟨a, ndg, hgT, har, hdg, wr, Or.inr ⟨?_, hgr⟩⟩
      rw [hgl]; intro hx; exact hne (Option.some.inj hx)

/-- The heap and the result of `removeAboveExternal` on a leaf `e` of a well-formed tree
with the nodes `T`, where `e` is not the root. -/
theorem LinkedBinaryTree.removeAboveExternal_heap {t : Tree} {h : Heap} {p : Position}
    {T : ATree} {e : Nat} {nd : Node} (hw : WFWith h t T) (hp : p.node = some e)
    (ht : p.tree = some t.self) (he : e ∈ T.addrs) (hd : h.deref e = some nd)
    (hl : nd.left = none) (hr : nd.right = none) (hne : t.rt ≠ some e) :
    ∃ par ndp P S nds h2,
      ATree.Sub P T ∧ P.root = par ∧ h.deref par = some ndp ∧ nd.parent = some par ∧
      wfAt h (some par) S ∧ S.addrs.Nodup ∧
      (∀ b, b ∈ P.addrs ↔ b = par ∨ b = e ∨ b ∈ S.addrs) ∧
      par ≠ e ∧ par ∉ S.addrs ∧ e ∉ S.addrs ∧ P.size = S.size + 2 ∧
      ((ndp.left = some e ∧ ndp.right = some S.root) ∨
        (ndp.left = some S.root ∧ ndp.right = some e)) ∧
      ATree.Sub S T ∧ h.deref S.root = some nds ∧
      (ndp.parent = none ↔ t.rt = some par) ∧
      LinkedBinaryTree.removeAboveExternal t h p = .ok ⟨some S.root, some t.self⟩
        (h2, { t with rt := if t.rt = some par then some S.root else t.rt, n := t.n - 2 }) ∧
      h2.deref e = none ∧ h2.deref par = none ∧
      h2.deref S.root = some { nds with parent := ndp.parent } ∧
      (∀ g ndg, ndp.parent = some g → h.deref g = some ndg →
        (ndg.left = some par ∧ ndg.right ≠ some par ∧
          h2.deref g = some { ndg with left := some S.root }) ∨
        (ndg.left ≠ some par ∧ ndg.right = some par ∧
          h2.deref g = some { ndg with right := some S.root })) ∧
      (∀ b, b ≠ e → b ≠ par → b ≠ S.root → ndp.parent ≠ some b →
        h2.deref b = h.deref b) := by
  obtain ⟨hrt, hwf, hnd, hsz⟩ := hw
  have heT : e ≠ T.root := fun hx => hne (by rw [hrt, hx])
  obtain ⟨par, ndp, P, S, hsP, hPr, hwP, hdp, hpe, hwS, hnS, hPmem, hpare, hparS, heS, hPsz,
    hch, hsS⟩ := ATree.external_sibling hwf hnd he hd hl heT
  obtain ⟨nds, hds, hps⟩ := wfAt_root hwS
  have hSe : S.root ≠ e := fun hx => heS (hx ▸ ATree.root_mem_addrs S)
  have hSp : S.root ≠ par := fun hx => hparS (hx ▸ ATree.root_mem_addrs S)
  have hsib : (if some e = ndp.left then ndp.right else ndp.left) = some S.root := by
    rcases hch with ⟨h1, h2⟩ | ⟨h1, h2⟩
    · rw [if_pos h1.symm, h2]
    · rw [if_neg, h1]
      rw [h1]; intro hx; exact hSe (Option.some.inj hx).symm
  have hval := LinkedBinaryTree.validate_external (t := t) hp ht hd hl hr
  have helt := Heap.deref_lt hd
  have hplt := Heap.deref_lt hdp
  have hslt := Heap.deref_lt hds
  refine ⟨par, ndp, P, S, nds, ?_⟩
  rcases hsP.grand hwf hnd with hPT | ⟨g, ndg, hgT, hgP, hdg, hwPg, hside⟩
  · subst hPT
    have hpn : ndp.parent = none := by
      obtain ⟨ndr, hdr, hpr⟩ := wfAt_root hwf
      rw [hPr, hdp] at hdr; cases hdr; exact hpr
    have hrtp : t.rt = some par := by rw [hrt, hPr]
    refine ⟨Heap.free (Heap.free (h.set S.root (some { nds with parent := none })) e) par,
      hsP, hPr, hdp, hpe, hwS, hnS, hPmem, hpare, hparS, heS, hPsz, hch, hsS, hds,
      ⟨fun _ => hrtp, fun _ => hpn⟩, ?_, ?_, ?_, ?_, ?_, ?_⟩
    · unfold LinkedBinaryTree.removeAboveExternal
      simp only [hval, hd, Option.bind, hpe, hdp, hsib, hrtp, if_true, Heap.update_eq hds]
    · rw [Heap.deref_free_ne _ hpare, Heap.deref_free_eq]
    · rw [Heap.deref_free_eq]
    · rw [Heap.deref_free_ne _ hSp.symm, Heap.deref_free_ne _ hSe.symm,
        Heap.deref_set_eq _ _ hslt, hpn]
    · intro g ndg hg _
      rw [hpn] at hg; cases hg
    · intro b hbe hbp hbs _
      rw [Heap.deref_free_ne _ (Ne.symm hbp), Heap.deref_free_ne _ (Ne.symm hbe),
        Heap.deref_set_ne _ _ (Ne.symm hbs)]
  · have hpg : ndp.parent = some g := by
      obtain ⟨ndr, hdr, hpr⟩ := wfAt_root hwPg
      rw [hPr, hdp] at hdr; cases hdr; exact hpr
    have hrtp : ¬ t.rt = some par := by
      intro hx
      rw [hrt] at hx
      obtain ⟨ndr, hdr, hpr⟩ := wfAt_root hwf
      rw [Option.some.inj hx, hdp] at hdr; cases hdr
      rw [hpg] at hpr; cases hpr
    have hrtp2 : ¬ some par = t.rt := fun hx => hrtp hx.symm
    have hgp : g ≠ par := fun hx => hgP ((hPmem g).2 (Or.inl hx))
    have hge : g ≠ e := fun hx => hgP ((hPmem g).2 (Or.inr (Or.inl hx)))
    have hgs : g ≠ S.root :=
      fun hx => hgP ((hPmem g).2 (Or.inr (Or.inr (hx ▸ ATree.root_mem_addrs S))))
    have hglt := Heap.deref_lt hdg
    rw [hPr] at hside
    rcases hside with ⟨hgl, hgr⟩ | ⟨hgl, hgr⟩
    · have hds1 : Heap.deref (h.set g (some { ndg with left := some S.root })) S.root
          = some nds := by rw [Heap.deref_set_ne _ _ hgs, hds]
      refine ⟨Heap.free (Heap.free ((h.set g (some { ndg with left := some S.root })).set
          S.root (some { nds with parent := some g })) e) par,
        hsP, hPr, hdp, hpe, hwS, hnS, hPmem, hpare, hparS, heS, hPsz, hch, hsS, hds,
        ⟨fun hx => (by rw [hpg] at hx; cases hx), fun hx => absurd hx hrtp⟩,
        ?_, ?_, ?_, ?_, ?_, ?_⟩
      · unfold LinkedBinaryTree.removeAboveExternal
        simp only [hval, hd, Option.bind, hpe, hdp, hsib, hrtp, hrtp2, if_false, hpg, hdg,
          hgl, if_true, Heap.update_eq hds1]
      · rw [Heap.deref_free_ne _ hpare, Heap.deref_free_eq]
      · rw [Heap.deref_free_eq]
      · rw [Heap.deref_free_ne _ hSp.symm, Heap.deref_free_ne _ hSe.symm,
          Heap.deref_set_eq _ _ (by simpa using hslt), hpg]
      · intro g1 ndg1 hg1 hdg1
        rw [hpg] at hg1; cases hg1
        rw [hdg] at hdg1; cases hdg1
        refine Or.inl ⟨hgl, hgr, ?_⟩
        rw [Heap.deref_free_ne _ hgp.symm, Heap.deref_free_ne _ hge.symm,
          Heap.deref_set_ne _ _ hgs.symm, Heap.deref_set_eq _ _ hglt]
      · intro b hbe hbp hbs hbg
        rw [hpg] at hbg
        have hbg1 : g ≠ b := fun hx => hbg (by rw [hx])
        rw [Heap.deref_free_ne _ (Ne.symm hbp), Heap.deref_free_ne _ (Ne.symm hbe),
          Heap.deref_set_ne _ _ (Ne.symm hbs), Heap.deref_set_ne _ _ hbg1]
    · have hds1 : Heap.deref (h.set g (some { ndg with right := some S.root })) S.root
          = some nds := by rw [Heap.deref_set_ne _ _ hgs, hds]
      have hgl2 : ¬ some par = ndg.left := fun hx => hgl hx.symm
      refine ⟨Heap.free (Heap.free ((h.set g (some { ndg with right := some S.root })).set
          S.root (some { nds with parent := some g })) e) par,
        hsP, hPr, hdp, hpe, hwS, hnS, hPmem, hpare, hparS, heS, hPsz, hch, hsS, hds,
        ⟨fun hx => (by rw [hpg] at hx; cases hx), fun hx => absurd hx hrtp⟩,
        ?_, ?_, ?_, ?_, ?_, ?_⟩
      · unfold LinkedBinaryTree.removeAboveExternal
        simp only [hval, hd, Option.bind, hpe, hdp, hsib, hrtp, hrtp2, if_false, hpg, hdg,
          hgl2, Heap.update_eq hds1]
      · rw [Heap.deref_free_ne _ hpare, Heap.deref_free_eq]
      · rw [Heap.deref_free_eq]
      · rw [Heap.deref_free_ne _ hSp.symm, Heap.deref_free_ne _ hSe.symm,
          Heap.deref_set_eq _ _ (by simpa using hslt), hpg]
      · intro g1 ndg1 hg1 hdg1
        rw [hpg] at hg1; cases hg1
        rw [hdg] at hdg1; cases hdg1
        refine Or.inr ⟨hgl, hgr, ?_⟩
        rw [Heap.deref_free_ne _ hgp.symm, Heap.deref_free_ne _ hge.symm,
          Heap.deref_set_ne _ _ hgs.symm, Heap.deref_set_eq _ _ hglt]
      · intro b hbe hbp hbs hbg
        rw [hpg] at hbg
        have hbg1 : g ≠ b := fun hx => hbg (by rw [hx])
        rw [Heap.deref_free_ne _ (Ne.symm hbp), Heap.deref_free_ne _ (Ne.symm hbe),
          Heap.deref_set_ne _ _ (Ne.symm hbs), Heap.deref_set_ne _ _ hbg1]

theorem ATree.Sub.parent_not_mem {h : Heap} {T P : ATree} (hw : Decode.wfAt h none T)
    (hn : T.addrs.Nodup) (hs : ATree.Sub P T) {ndp : Node} {g : Nat}
    (hdp : h.deref P.root = some ndp) (hg : ndp.parent = some g) : g ∉ P.addrs := by
  rcases hs.grand hw hn with hPT | ⟨g1, ndg, _, hgP, _, hwP, _⟩
  · subst hPT
    obtain ⟨ndr, hdr, hpr⟩ := wfAt_root hw
    rw [hdp] at hdr; cases hdr
    rw [hg] at hpr; cases hpr
  · obtain ⟨ndr, hdr, hpr⟩ := wfAt_root hwP
    rw [hdp] at hdr; cases hdr
    rw [hg] at hpr; cases hpr
    exact hgP

/-- `removeAboveExternal` on a leaf `e`, not the root, of a well-formed tree with the nodes
`T`: the nodes `e` and its parent `par` are freed, the subtree `S` at the sibling of `e`
takes the place of the subtree at `par`, and the tree is well-formed again. -/
theorem LinkedBinaryTree.removeAboveExternal_spec {t : Tree} {h : Heap} {p : Position}
    {T : ATree} {e : Nat} {nd : Node} (hw : WFWith h t T) (hp : p.node = some e)
    (ht : p.tree = some t.self) (he : e ∈ T.addrs) (hd : h.deref e = some nd)
    (hl : nd.left = none) (hr : nd.right = none) (hne : t.rt ≠ some e) :
    ∃ par ndp S nds h2,
      nd.parent = some par ∧ h.deref par = some ndp ∧ h.deref S.root = some nds ∧
      ((ndp.left = some e ∧ ndp.right = some S.root) ∨
        (ndp.left = some S.root ∧ ndp.right = some e)) ∧
      ATree.Sub S T ∧ par ∈ T.addrs ∧ par ≠ e ∧ par ∉ S.addrs ∧ e ∉ S.addrs ∧
      (ndp.parent = none ↔ t.rt = some par) ∧
      LinkedBinaryTree.removeAboveExternal t h p = .ok ⟨some S.root, some t.self⟩
        (h2, { t with rt := if t.rt = some par then some S.root else t.rt, n := t.n - 2 }) ∧
      WFWith h2 { t with rt := if t.rt = some par then some S.root else t.rt, n := t.n - 2 }
        (T.replaceAt par S) ∧
      (∀ b, b ∈ (T.replaceAt par S).addrs ↔ b ∈ T.addrs ∧ b ≠ e ∧ b ≠ par) ∧
      h2.deref e = none ∧ h2.deref par = none ∧
      h2.deref S.root = some { nds with parent := ndp.parent } ∧
      (∀ g ndg, ndp.parent = some g → h.deref g = some ndg →
        (ndg.left = some par ∧ ndg.right ≠ some par ∧
          h2.deref g = some { ndg with left := some S.root }) ∨
        (ndg.left ≠ some par ∧ ndg.right = some par ∧
          h2.deref g = some { ndg with right := some S.root })) ∧
      (∀ b, b ≠ e → b ≠ par → b ≠ S.root → ndp.parent ≠ some b →
        h2.deref b = h.deref b) ∧
      (∀ b ∈ S.addrs, b ≠ S.root → h2.deref b = h.deref b) ∧
      (∀ b, h2.deref b = none ↔ (h.deref b = none ∨ b = e ∨ b = par)) := by
  obtain ⟨par, ndp, P, S, nds, h2, hsP, hPr, hdp, hpe, hwS, hnS, hPmem, hpare, hparS, heS,
    hPsz, hch, hsS, hds, hroot, hok, hde, hdpar, hdS, hgrand, hframe⟩ :=
    LinkedBinaryTree.removeAboveExternal_heap hw hp ht he hd hl hr hne
  obtain ⟨hrt, hwf, hnd, hsz⟩ := hw
  have hparT : par ∈ T.addrs := hsP.addrs_subset (hPr ▸ ATree.root_mem_addrs P)
  have hSP : ∀ b ∈ S.addrs, b ∈ P.addrs := fun b hb => (hPmem b).2 (Or.inr (Or.inr hb))
  have hgn : ∀ b ∈ P.addrs, ndp.parent ≠ some b := by
    intro b hb hx
    rw [← hPr] at hdp
    exact hsP.parent_not_mem hwf hnd hdp hx hb
  have hsame : ∀ b ∈ S.addrs, b ≠ S.root → h2.deref b = h.deref b := fun b hb hbr =>
    hframe b (fun hx => heS (hx ▸ hb)) (fun hx => hparS (hx ▸ hb)) hbr (hgn b (hSP b hb))
  have hgone : ∀ b, h2.deref b = none ↔ (h.deref b = none ∨ b = e ∨ b = par) := by
    intro b
    by_cases hbe : b = e
    · subst hbe; simp [hde]
    by_cases hbp : b = par
    · subst hbp; simp [hdpar]
    by_cases hbs : b = S.root
    · subst hbs; simp [hdS, hds, hbe, hbp]
    by_cases hbg : ndp.parent = some b
    · obtain ⟨ndp1, hdp1, hc⟩ := wfAt_parent hwf par hparT
      rw [hdp] at hdp1; cases hdp1
      have hbT : b ∈ T.addrs := by
        rcases hc with ⟨_, hn⟩ | ⟨o, ho, hpo⟩
        · rw [hn] at hbg; cases hbg
        · rw [hpo] at hbg; cases hbg; exact ho
      obtain ⟨ndb, hdb⟩ := wfAt_deref hwf b hbT
      rcases hgrand b ndb hbg hdb with ⟨_, _, hh⟩ | ⟨_, _, hh⟩
      · simp [hh, hdb, hbe, hbp]
      · simp [hh, hdb, hbe, hbp]
    · rw [hframe b hbe hbp hbs hbg]; simp [hbe, hbp]
  refine ⟨par, ndp, S, nds, h2, hpe, hdp, hds, hch, hsS, hparT, hpare, hparS, heS, hroot,
    hok, ⟨?_, ?_, ?_, ?_⟩, ?_, hde, hdpar, hdS, hgrand, hframe, hsame, hgone⟩
  · show (if t.rt = some par then some S.root else t.rt) = some (T.replaceAt par S).root
    rw [ATree.replaceAt_root, hrt]
    by_cases hc : T.root = par
    · rw [if_pos hc, if_pos (by rw [hc])]
    · rw [if_neg hc, if_neg (fun hx => hc (Option.some.inj hx))]
  · subst hPr
    apply wfAt_replaceAt (h := h) (X := P) (S := S) ?_ hsP none hwf hnd ?_ ?_ ?_
    · intro nd1 hd1
      rw [hdp] at hd1; cases hd1
      apply wfAt_reparent hwS hnS
      · intro nd2 hd2
        rw [hds] at hd2; cases hd2
        exact hdS
      · intro b hb hbr
        have hbP := hSP b hb
        rw [hframe b (fun hx => heS (hx ▸ hb)) (fun hx => hparS (hx ▸ hb)) hbr (hgn b hbP)]
    · intro o ndo ho hdo hlo
      obtain ⟨ndc, hdc, hpc⟩ := wfAt_owner_link hwf o P.root ndo ho hdo (Or.inl hlo)
      rw [hdp] at hdc; cases hdc
      rcases hgrand o ndo hpc hdo with ⟨_, _, hh⟩ | ⟨hnl, _, _⟩
      · exact hh
      · exact absurd hlo hnl
    · intro o ndo ho hdo hro
      obtain ⟨ndc, hdc, hpc⟩ := wfAt_owner_link hwf o P.root ndo ho hdo (Or.inr hro)
      rw [hdp] at hdc; cases hdc
      rcases hgrand o ndo hpc hdo with ⟨_, hnr, _⟩ | ⟨_, _, hh⟩
      · exact absurd hro hnr
      · exact hh
    · intro b ndb hb hbP hdb hnl hnr
      have hbe : b ≠ e := fun hx => hbP ((hPmem b).2 (Or.inr (Or.inl hx)))
      have hbp : b ≠ P.root := fun hx => hbP ((hPmem b).2 (Or.inl hx))
      have hbs : b ≠ S.root := fun hx => hbP (hSP b (hx ▸ ATree.root_mem_addrs S))
      have hbg : ndp.parent ≠ some b := by
        intro hx
        rcases hgrand b ndb hx hdb with ⟨hh, _, _⟩ | ⟨_, hh, _⟩
        · exact hnl hh
        · exact hnr hh
      rw [hframe b hbe hbp hbs hbg, hdb]
  · subst hPr
    exact ATree.nodup_replaceAt hnS hsP hnd (fun b hb _ => hSP b hb)
  · subst hPr
    show t.n - 2 = (((T.replaceAt P.root S).size : Nat) : Int)
    have hs := ATree.size_replaceAt (S := S) hsP hnd
    rw [hsz]
    omega
  · subst hPr
    intro b
    rw [ATree.mem_addrs_replaceAt hsP hnd, hPmem]
    have hST := hsS.addrs_subset
    constructor
    · rintro (⟨hbT, hbP⟩ | hbS)
      · exact ⟨hbT, fun hx => hbP (Or.inr (Or.inl hx)), fun hx => hbP (Or.inl hx)⟩
      · exact ⟨hST hbS, fun hx => heS (hx ▸ hbS), fun hx => hparS (hx ▸ hbS)⟩
    · rintro ⟨hbT, hbe, hbp⟩
      by_cases hbS : b ∈ S.addrs
      · exact Or.inr hbS
      · exact Or.inl ⟨hbT, fun hx => by
          rcases hx with hx | hx | hx
          · exact hbp hx
          · exact hbe hx
          · exact hbS hx⟩

/-- The heap and the trees after `replaceExternalWithSubtree` on a leaf `e` of a
well-formed tree with the nodes `T` and a well-formed tree with the nodes `T2` and another
root. -/
theorem LinkedBinaryTree.replaceExternalWithSubtree_heap {t t2 : Tree} {h : Heap}
    {p : Position} {T T2 : ATree} {e : Nat} {nd : Node} (hw : WFWith h t T)
    (hw2 : WFWith h t2 T2) (hdis : t.rt ≠ t2.rt) (hp : p.node = some e)
    (ht : p.tree = some t.self) (he : e ∈ T.addrs) (hd : h.deref e = some nd)
    (hl : nd.left = none) (hr : nd.right = none) :
    ∃ nd2 h2, h.deref T2.root = some nd2 ∧ nd2.parent = none ∧
      (∀ b ∈ T.addrs, b ∉ T2.addrs) ∧ ATree.Sub (.leaf e) T ∧
      (nd.parent = none ↔ t.rt = some e) ∧
      LinkedBinaryTree.replaceExternalWithSubtree t h p t2 = .ok ()
        (h2, { t with rt := if t.rt = some e then t2.rt else t.rt, n := t.n + (t2.n - 1) },
          { t2 with n := 0, rt := none }) ∧
      h2.deref e = none ∧
      h2.deref T2.root = some { nd2 with parent := nd.parent } ∧
      (∀ g ndg, nd.parent = some g → h.deref g = some ndg →
        (ndg.left = some e ∧ ndg.right ≠ some e ∧
          h2.deref g = some { ndg with left := some T2.root }) ∨
        (ndg.left ≠ some e ∧ ndg.right = some e ∧
          h2.deref g = some { ndg with right := some T2.root })) ∧
      (∀ b, b ≠ e → b ≠ T2.root → nd.parent ≠ some b → h2.deref b = h.deref b) := by
  obtain ⟨hrt, hwf, hnd, hsz⟩ := hw
  obtain ⟨hrt2, hwf2, hnd2, hsz2⟩ := hw2
  have hroots : T.root ≠ T2.root := fun hx => hdis (by rw [hrt, hrt2, hx])
  have hdisj := wfAt_disjoint hwf hwf2 hroots
  have hsub := ATree.sub_leaf_of_external hwf he hd hl
  obtain ⟨nd2, hd2, hp2⟩ := wfAt_root hwf2
  have h2e : T2.root ≠ e := fun hx => hdisj e he (hx ▸ ATree.root_mem_addrs T2)
  have hval := LinkedBinaryTree.validate_external (t := t) hp ht hd hl hr
  have h2lt := Heap.deref_lt hd2
  refine ⟨nd2, ?_⟩
  rcases hsub.grand hwf hnd with hPT | ⟨g, ndg, hgT, hgP, hdg, hwPg, hside⟩
  · have hrte : t.rt = some e := by rw [hrt, ← hPT]; rfl
    have hpn : nd.parent = none := by
      obtain ⟨ndr, hdr, hpr⟩ := wfAt_root hwf
      rw [← hPT] at hdr
      simp only [ATree.root] at hdr
      rw [hd] at hdr; cases hdr; exact hpr
    refine ⟨h.free e, hd2, hp2, hdisj, hsub, ⟨fun _ => hrte, fun _ => hpn⟩, ?_, ?_, ?_, ?_,
      ?_⟩
    · unfold LinkedBinaryTree.replaceExternalWithSubtree
      simp only [hval, hrte, if_true]
    · rw [Heap.deref_free_eq]
    · rw [Heap.deref_free_ne _ h2e.symm, hd2, hpn, Node.with_parent_self hp2]
    · intro g ndg hg _
      rw [hpn] at hg; cases hg
    · intro b hbe _ _
      rw [Heap.deref_free_ne _ (Ne.symm hbe)]
  · simp only [ATree.root] at hside
    have hpg : nd.parent = some g := by
      obtain ⟨ndr, hdr, hpr, _⟩ := hwPg
      rw [hd] at hdr; cases hdr; exact hpr
    have hrte : ¬ t.rt = some e := by
      intro hx
      rw [hrt] at hx
      obtain ⟨ndr, hdr, hpr⟩ := wfAt_root hwf
      rw [Option.some.inj hx, hd] at hdr; cases hdr
      rw [hpg] at hpr; cases hpr
    have hrte2 : ¬ some e = t.rt := fun hx => hrte hx.symm
    have hge : g ≠ e := fun hx => hgP (by simp [ATree.addrs, hx])
    have hg2 : g ≠ T2.root := fun hx => hdisj g hgT (hx ▸ ATree.root_mem_addrs T2)
    have hglt := Heap.deref_lt hdg
    have hdg1 : Heap.deref (h.set T2.root (some { nd2 with parent := some g })) g
        = some ndg := by rw [Heap.deref_set_ne _ _ hg2.symm, hdg]
    have hglt1 : g < (h.set T2.root (some { nd2 with parent := some g })).length := by
      simpa using hglt
    rcases hside with ⟨hgl, hgr⟩ | ⟨hgl, hgr⟩
    · refine ⟨Heap.free ((h.set T2.root (some { nd2 with parent := some g })).set g
          (some { ndg with left := some T2.root })) e, hd2, hp2, hdisj, hsub,
        ⟨fun hx => (by rw [hpg] at hx; cases hx), fun hx => absurd hx hrte⟩, ?_, ?_, ?_, ?_,
        ?_⟩
      · unfold LinkedBinaryTree.replaceExternalWithSubtree
        simp only [hval, hrte, hrte2, if_false, hd, hrt2, Heap.update_eq hd2, hpg, hdg1, hgl,
          if_true]
      · rw [Heap.deref_free_eq]
      · rw [Heap.deref_free_ne _ h2e.symm, Heap.deref_set_ne _ _ hg2,
          Heap.deref_set_eq _ _ h2lt, hpg]
      · intro g1 ndg1 hg1 hdg1x
        rw [hpg] at hg1; cases hg1
        rw [hdg] at hdg1x; cases hdg1x
        refine Or.inl ⟨hgl, hgr, ?_⟩
        rw [Heap.deref_free_ne _ hge.symm, Heap.deref_set_eq _ _ hglt1]
      · intro b hbe hb2 hbg
        rw [hpg] at hbg
        have hbg1 : g ≠ b := fun hx => hbg (by rw [hx])
        rw [Heap.deref_free_ne _ (Ne.symm hbe), Heap.deref_set_ne _ _ hbg1,
          Heap.deref_set_ne _ _ (Ne.symm hb2)]
    · have hgl2 : ¬ some e = ndg.left := fun hx => hgl hx.symm
      refine ⟨Heap.free ((h.set T2.root (some { nd2 with parent := some g })).set g
          (some { ndg with right := some T2.root })) e, hd2, hp2, hdisj, hsub,
        ⟨fun hx => (by rw [hpg] at hx; cases hx), fun hx => absurd hx hrte⟩, ?_, ?_, ?_, ?_,
        ?_⟩
      · unfold LinkedBinaryTree.replaceExternalWithSubtree
        simp only [hval, hrte, hrte2, if_false, hd, hrt2, Heap.update_eq hd2, hpg, hdg1, hgl2]
      · rw [Heap.deref_free_eq]
      · rw [Heap.deref_free_ne _ h2e.symm, Heap.deref_set_ne _ _ hg2,
          Heap.deref_set_eq _ _ h2lt, hpg]
      · intro g1 ndg1 hg1 hdg1x
        rw [hpg] at hg1; cases hg1
        rw [hdg] at hdg1x; cases hdg1x
        refine Or.inr ⟨hgl, hgr, ?_⟩
        rw [Heap.deref_free_ne _ hge.symm, Heap.deref_set_eq _ _ hglt1]
      · intro b hbe hb2 hbg
        rw [hpg] at hbg
        have hbg1 : g ≠ b := fun hx => hbg (by rw [hx])
        rw [Heap.deref_free_ne _ (Ne.symm hbe), Heap.deref_set_ne _ _ hbg1,
          Heap.deref_set_ne _ _ (Ne.symm hb2)]

/-- `replaceExternalWithSubtree` on a leaf `e` of a well-formed tree with the nodes `T` and
a well-formed tree with the nodes `T2` and another root: `e` is freed, `T2` takes its
place, the receiver is well-formed again and the other tree is empty. -/
theorem LinkedBinaryTree.replaceExternalWithSubtree_spec {t t2 : Tree} {h : Heap}
    {p : Position} {T T2 : ATree} {e : Nat} {nd : Node} (hw : WFWith h t T)
    (hw2 : WFWith h t2 T2) (hdis : t.rt ≠ t2.rt) (hp : p.node = some e)
    (ht : p.tree = some t.self) (he : e ∈ T.addrs) (hd : h.deref e = some nd)
    (hl : nd.left = none) (hr : nd.right = none) :
    ∃ nd2 h2, h.deref T2.root = some nd2 ∧
      (nd.parent = none ↔ t.rt = some e) ∧
      LinkedBinaryTree.replaceExternalWithSubtree t h p t2 = .ok ()
        (h2, { t with rt := if t.rt = some e then t2.rt else t.rt, n := t.n + (t2.n - 1) },
          { t2 with n := 0, rt := none }) ∧
      WFWith h2 { t with rt := if t.rt = some e then t2.rt else t.rt, n := t.n + (t2.n - 1) }
        (T.replaceAt e T2) ∧
      (∀ b, b ∈ (T.replaceAt e T2).addrs ↔ (b ∈ T.addrs ∧ b ≠ e) ∨ b ∈ T2.addrs) ∧
      h2.deref e = none ∧
      h2.deref T2.root = some { nd2 with parent := nd.parent } ∧
      (∀ g ndg, nd.parent = some g → h.deref g = some ndg →
        (ndg.left = some e ∧ ndg.right ≠ some e ∧
          h2.deref g = some { ndg with left := some T2.root }) ∨
        (ndg.left ≠ some e ∧ ndg.right = some e ∧
          h2.deref g = some { ndg with right := some T2.root })) ∧
      (∀ b, b ≠ e → b ≠ T2.root → nd.parent ≠ some b → h2.deref b = h.deref b) ∧
      (∀ b ∈ T2.addrs, b ≠ T2.root → h2.deref b = h.deref b) ∧
      (∀ b ∈ T.addrs, b ∉ T2.addrs) ∧
      (∀ b, h2.deref b = none ↔ (h.deref b = none ∨ b = e)) := by
  obtain ⟨nd2, h2, hd2, hp2, hdisj, hsub, hroot, hok, hde, hdS, hgrand, hframe⟩ :=
    LinkedBinaryTree.replaceExternalWithSubtree_heap hw hw2 hdis hp ht he hd hl hr
  obtain ⟨hrt, hwf, hnd, hsz⟩ := hw
  obtain ⟨hrt2, hwf2, hnd2, hsz2⟩ := hw2
  have hparT : ∀ b, nd.parent = some b → b ∈ T.addrs := by
    intro b hb
    obtain ⟨nd1, hd1, hc⟩ := wfAt_parent hwf e he
    rw [hd] at hd1; cases hd1
    rcases hc with ⟨_, hn⟩ | ⟨o, ho, hpo⟩
    · rw [hn] at hb; cases hb
    · rw [hpo] at hb; cases hb; exact ho
  have hsame : ∀ b ∈ T2.addrs, b ≠ T2.root → h2.deref b = h.deref b := fun b hb hbr =>
    hframe b (fun hx => hdisj e he (hx ▸ hb)) hbr (fun hx => hdisj b (hparT b hx) hb)
  have hgone : ∀ b, h2.deref b = none ↔ (h.deref b = none ∨ b = e) := by
    intro b
    by_cases hbe : b = e
    · subst hbe; simp [hde]
    by_cases hbs : b = T2.root
    · subst hbs; simp [hdS, hd2, hbe]
    by_cases hbg : nd.parent = some b
    · obtain ⟨ndb, hdb⟩ := wfAt_deref hwf b (hparT b hbg)
      rcases hgrand b ndb hbg hdb with ⟨_, _, hh⟩ | ⟨_, _, hh⟩
      · simp [hh, hdb, hbe]
      · simp [hh, hdb, hbe]
    · rw [hframe b hbe hbs hbg]; simp [hbe]
  refine ⟨nd2, h2, hd2, hroot, hok, ⟨?_, ?_, ?_, ?_⟩, ?_, hde, hdS, hgrand, hframe, hsame,
    hdisj, hgone⟩
  · show (if t.rt = some e then t2.rt else t.rt) = some (T.replaceAt e T2).root
    rw [ATree.replaceAt_root, hrt, hrt2]
    by_cases hc : T.root = e
    · rw [if_pos hc, if_pos (by rw [hc])]
    · rw [if_neg hc, if_neg (fun hx => hc (Option.some.inj hx))]
  · apply wfAt_replaceAt (h := h) (X := .leaf e) (S := T2) ?_ hsub none hwf hnd ?_ ?_ ?_
    · intro nd1 hd1
      simp only [ATree.root] at hd1
      rw [hd] at hd1; cases hd1
      apply wfAt_reparent hwf2 hnd2
      · intro nd3 hd3
        rw [hd2] at hd3; cases hd3
        exact hdS
      · intro b hb hbr
        rw [hframe b (fun hx => hdisj e he (hx ▸ hb)) hbr
          (fun hx => hdisj b (hparT b hx) hb)]
    · intro o ndo ho hdo hlo
      simp only [ATree.root] at hlo ⊢
      obtain ⟨ndc, hdc, hpc⟩ := wfAt_owner_link hwf o e ndo ho hdo (Or.inl hlo)
      rw [hd] at hdc; cases hdc
      rcases hgrand o ndo hpc hdo with ⟨_, _, hh⟩ | ⟨hnl, _, _⟩
      · exact hh
      · exact absurd hlo hnl
    · intro o ndo ho hdo hro
      simp only [ATree.root] at hro ⊢
      obtain ⟨ndc, hdc, hpc⟩ := wfAt_owner_link hwf o e ndo ho hdo (Or.inr hro)
      rw [hd] at hdc; cases hdc
      rcases hgrand o ndo hpc hdo with ⟨_, hnr, _⟩ | ⟨_, _, hh⟩
      · exact absurd hro hnr
      · exact hh
    · intro b ndb hb hbP hdb hnl hnr
      simp only [ATree.addrs, List.mem_singleton, ATree.root] at hbP hnl hnr
      have hb2 : b ≠ T2.root := fun hx => hdisj b hb (hx ▸ ATree.root_mem_addrs T2)
      have hbg : nd.parent ≠ some b := by
        intro hx
        rcases hgrand b ndb hx hdb with ⟨hh, _, _⟩ | ⟨_, hh, _⟩
        · exact hnl hh
        · exact hnr hh
      rw [hframe b hbP hb2 hbg, hdb]
  · exact ATree.nodup_replaceAt (X := .leaf e) hnd2 hsub hnd
      (fun b hb hbT => absurd hb (hdisj b hbT))
  · show t.n + (t2.n - 1) = (((T.replaceAt e T2).size : Nat) : Int)
    have hs := ATree.size_replaceAt (X := .leaf e) (S := T2) hsub hnd
    simp only [ATree.size, ATree.root] at hs
    rw [hsz, hsz2]
    omega
  · intro b
    have := ATree.mem_addrs_replaceAt (X := .leaf e) (S := T2) hsub hnd b
    simp only [ATree.addrs, List.mem_singleton, ATree.root] at this
    exact this

theorem Position.external_links {p : Position} {h : Heap} {e : Nat} {nd : Node}
    (hp : p.node = some e) (hd : h.deref e = some nd) (hext : p.isExternal h = some true) :
    nd.left = none ∧ nd.right = none := by
  simp only [Position.isExternal, hp, hd, Option.map_some', Option.some.injEq,
    Bool.and_eq_true, Option.isNone_iff_eq_none] at hext
  exact hext

theorem demo_wf : WFWith demoHeap demoTree demoShape :=
  ⟨rfl, ⟨_, rfl, rfl, rfl, rfl,
    ⟨_, rfl, rfl, rfl, rfl, ⟨_, rfl, rfl, rfl, rfl⟩, ⟨_, rfl, rfl, rfl, rfl⟩⟩,
    ⟨_, rfl, rfl, rfl, rfl⟩⟩, by decide, rfl⟩

theorem demo_other_wf : WFWith demoHeap demoOther (.leaf 5) :=
  ⟨rfl, ⟨_, rfl, rfl, rfl, rfl⟩, by decide, rfl⟩

/-- C11: for a well-formed tree with the nodes `T` and an external position `p` of it whose
node `e` has a parent, `removeAboveExternal(p)` returns the position, bound to this tree, of
the sibling of `e`; `n` is smaller by 2; exactly the node `e` and its parent `par` are
freed; the subtree `S` at the sibling takes the place of the subtree at `par`, every node
of `S` but its root is as before and the root of `S` has got the parent link that `par`
had: when that link is null the sibling is the new root, otherwise the grandparent has the
sibling as the child on the side where `par` was; every other node is as before and the
tree is well-formed again. -/
theorem removeAboveExternal_postcondition (t : Tree) (h : Heap) (p : Position) (T : ATree)
    (e : Nat) (nd : Node) (hw : WFWith h t T) (hp : p.node = some e)
    (ht : p.tree = some t.self) (he : e ∈ T.addrs) (hd : h.deref e = some nd)
    (hext : p.isExternal h = some true) (hpar : nd.parent ≠ none) :
    ∃ par ndp S nds h2,
      nd.parent = some par ∧ h.deref par = some ndp ∧ h.deref S.root = some nds ∧
      ((ndp.left = some e ∧ ndp.right = some S.root) ∨
        (ndp.left = some S.root ∧ ndp.right = some e)) ∧
      ATree.Sub S T ∧ par ∈ T.addrs ∧ par ≠ e ∧ par ∉ S.addrs ∧ e ∉ S.addrs ∧
      (ndp.parent = none ↔ t.rt = some par) ∧
      LinkedBinaryTree.removeAboveExternal t h p = .ok ⟨some S.root, some t.self⟩
        (h2, { t with rt := if t.rt = some par then some S.root else t.rt, n := t.n - 2 }) ∧
      WFWith h2 { t with rt := if t.rt = some par then some S.root else t.rt, n := t.n - 2 }
        (T.replaceAt par S) ∧
      (∀ b, b ∈ (T.replaceAt par S).addrs ↔ b ∈ T.addrs ∧ b ≠ e ∧ b ≠ par) ∧
      h2.deref e = none ∧ h2.deref par = none ∧
      h2.deref S.root = some { nds with parent := ndp.parent } ∧
      (∀ g ndg, ndp.parent = some g → h.deref g = some ndg →
        (ndg.left = some par ∧ ndg.right ≠ some par ∧
          h2.deref g = some { ndg with left := some S.root }) ∨
        (ndg.left ≠ some par ∧ ndg.right = some par ∧
          h2.deref g = some { ndg with right := some S.root })) ∧
      (∀ b, b ≠ e → b ≠ par → b ≠ S.root → ndp.parent ≠ some b →
        h2.deref b = h.deref b) ∧
      (∀ b ∈ S.addrs, b ≠ S.root → h2.deref b = h.deref b) ∧
      (∀ b, h2.deref b = none ↔ (h.deref b = none ∨ b = e ∨ b = par)) := by
  obtain ⟨hl, hr⟩ := Position.external_links hp hd hext
  have hne : t.rt ≠ some e := by
    intro hx
    obtain ⟨ndr, hdr, hpr⟩ := wfAt_root hw.2.1
    rw [hw.1] at hx
    rw [Option.some.inj hx, hd] at hdr
    cases hdr
    exact hpar hpr
  exact LinkedBinaryTree.removeAboveExternal_spec hw hp ht he hd hl hr hne

/-- Witness of C11: the leaf 3 of the sample tree is removed with its parent 1; the leaf 4
becomes the left child of the root. -/
theorem removeAboveExternal_postcondition_witness :
    ∃ par ndp S nds h2,
      (⟨65, some 1, none, none, 0⟩ : Node).parent = some par ∧
      demoHeap.deref par = some ndp ∧ demoHeap.deref S.root = some nds ∧
      ((ndp.left = some 3 ∧ ndp.right = some S.root) ∨
        (ndp.left = some S.root ∧ ndp.right = some 3)) ∧
      ATree.Sub S demoShape ∧ par ∈ demoShape.addrs ∧ par ≠ 3 ∧ par ∉ S.addrs ∧
      3 ∉ S.addrs ∧ (ndp.parent = none ↔ demoTree.rt = some par) ∧
      LinkedBinaryTree.removeAboveExternal demoTree demoHeap ⟨some 3, some 0⟩
        = .ok ⟨some S.root, some demoTree.self⟩
        (h2, { demoTree with
          rt := if demoTree.rt = some par then some S.root else demoTree.rt,
          n := demoTree.n - 2 }) ∧
      WFWith h2 { demoTree with
          rt := if demoTree.rt = some par then some S.root else demoTree.rt,
          n := demoTree.n - 2 }
        (demoShape.replaceAt par S) ∧
      (∀ b, b ∈ (demoShape.replaceAt par S).addrs ↔ b ∈ demoShape.addrs ∧ b ≠ 3 ∧ b ≠ par) ∧
      h2.deref 3 = none ∧ h2.deref par = none ∧
      h2.deref S.root = some { nds with parent := ndp.parent } ∧
      (∀ g ndg, ndp.parent = some g → demoHeap.deref g = some ndg →
        (ndg.left = some par ∧ ndg.right ≠ some par ∧
          h2.deref g = some { ndg with left := some S.root }) ∨
        (ndg.left ≠ some par ∧ ndg.right = some par ∧
          h2.deref g = some { ndg with right := some S.root })) ∧
      (∀ b, b ≠ 3 → b ≠ par → b ≠ S.root → ndp.parent ≠ some b →
        h2.deref b = demoHeap.deref b) ∧
      (∀ b ∈ S.addrs, b ≠ S.root → h2.deref b = demoHeap.deref b) ∧
      (∀ b, h2.deref b = none ↔ (demoHeap.deref b = none ∨ b = 3 ∨ b = par)) :=
  removeAboveExternal_postcondition demoTree demoHeap ⟨some 3, some 0⟩ demoShape 3
    ⟨65, some 1, none, none, 0⟩ demo_wf rfl rfl (by decide) rfl rfl (by decide)

/-- C12: for a well-formed receiver with the nodes `T`, an external position `p` of it with
the node `e`, and a well-formed non-empty tree `other` with the nodes `T2` that is another
tree (its root is not the root of the receiver, so that the two trees share no node),
`replaceExternalWithSubtree(p, other)` returns; the receiver is well-formed with the nodes
of `T` in which `T2` stands in place of the leaf `e`; the root of `T2` has got the parent
link of `e`: it is the root of the receiver when `e` was, otherwise the parent of `e` has
it as the child on the side where `e` was; every other node of `T2` and of `T` is as
before, exactly `e` is freed, the size is the sum of the sizes less 1, and `other` is empty
with a null root. -/
theorem replaceExternalWithSubtree_postcondition (t other : Tree) (h : Heap) (p : Position)
    (T T2 : ATree) (e : Nat) (nd : Node) (hw : WFWith h t T) (hw2 : WFWith h other T2)
    (hdis : t.rt ≠ other.rt) (hp : p.node = some e) (ht : p.tree = some t.self)
    (he : e ∈ T.addrs) (hd : h.deref e = some nd) (hext : p.isExternal h = some true) :
    ∃ nd2 h2, h.deref T2.root = some nd2 ∧
      (nd.parent = none ↔ t.rt = some e) ∧
      LinkedBinaryTree.replaceExternalWithSubtree t h p other = .ok ()
        (h2, { t with rt := if t.rt = some e then other.rt else t.rt,
                      n := t.n + (other.n - 1) },
          { other with n := 0, rt := none }) ∧
      WFWith h2 { t with rt := if t.rt = some e then other.rt else t.rt,
                         n := t.n + (other.n - 1) }
        (T.replaceAt e T2) ∧
      (∀ b, b ∈ (T.replaceAt e T2).addrs ↔ (b ∈ T.addrs ∧ b ≠ e) ∨ b ∈ T2.addrs) ∧
      h2.deref e = none ∧
      h2.deref T2.root = some { nd2 with parent := nd.parent } ∧
      (∀ g ndg, nd.parent = some g → h.deref g = some ndg →
        (ndg.left = some e ∧ ndg.right ≠ some e ∧
          h2.deref g = some { ndg with left := some T2.root }) ∨
        (ndg.left ≠ some e ∧ ndg.right = some e ∧
          h2.deref g = some { ndg with right := some T2.root })) ∧
      (∀ b, b ≠ e → b ≠ T2.root → nd.parent ≠ some b → h2.deref b = h.deref b) ∧
      (∀ b ∈ T2.addrs, b ≠ T2.root → h2.deref b = h.deref b) ∧
      (∀ b ∈ T.addrs, b ∉ T2.addrs) ∧
      (∀ b, h2.deref b = none ↔ (h.deref b = none ∨ b = e)) := by
  obtain ⟨hl, hr⟩ := Position.external_links hp hd hext
  exact LinkedBinaryTree.replaceExternalWithSubtree_spec hw hw2 hdis hp ht he hd hl hr

/-- Witness of C12: the one-node tree at 5 is put in place of the leaf 2 of the sample
tree. -/
theorem replaceExternalWithSubtree_postcondition_witness :
    ∃ nd2 h2, demoHeap.deref (ATree.leaf 5).root = some nd2 ∧
      ((⟨66, some 0, none, none, 0⟩ : Node).parent = none ↔ demoTree.rt = some 2) ∧
      LinkedBinaryTree.replaceExternalWithSubtree demoTree demoHeap ⟨some 2, some 0⟩
        demoOther = .ok ()
        (h2, { demoTree with rt := if demoTree.rt = some 2 then demoOther.rt else demoTree.rt,
                             n := demoTree.n + (demoOther.n - 1) },
          { demoOther with n := 0, rt := none }) ∧
      WFWith h2 { demoTree with
          rt := if demoTree.rt = some 2 then demoOther.rt else demoTree.rt,
          n := demoTree.n + (demoOther.n - 1) }
        (demoShape.replaceAt 2 (.leaf 5)) ∧
      (∀ b, b ∈ (demoShape.replaceAt 2 (.leaf 5)).addrs ↔
        (b ∈ demoShape.addrs ∧ b ≠ 2) ∨ b ∈ (ATree.leaf 5).addrs) ∧
      h2.deref 2 = none ∧
      h2.deref (ATree.leaf 5).root
        = some { nd2 with parent := (⟨66, some 0, none, none, 0⟩ : Node).parent } ∧
      (∀ g ndg, (⟨66, some 0, none, none, 0⟩ : Node).parent = some g →
        demoHeap.deref g = some ndg →
        (ndg.left = some 2 ∧ ndg.right ≠ some 2 ∧
          h2.deref g = some { ndg with left := some (ATree.leaf 5).root }) ∨
        (ndg.left ≠ some 2 ∧ ndg.right = some 2 ∧
          h2.deref g = some { ndg with right := some (ATree.leaf 5).root })) ∧
      (∀ b, b ≠ 2 → b ≠ (ATree.leaf 5).root →
        (⟨66, some 0, none, none, 0⟩ : Node).parent ≠ some b →
        h2.deref b = demoHeap.deref b) ∧
      (∀ b ∈ (ATree.leaf 5).addrs, b ≠ (ATree.leaf 5).root →
        h2.deref b = demoHeap.deref b) ∧
      (∀ b ∈ demoShape.addrs, b ∉ (ATree.leaf 5).addrs) ∧
      (∀ b, h2.deref b = none ↔ (demoHeap.deref b = none ∨ b = 2)) :=
  replaceExternalWithSubtree_postcondition demoTree demoOther demoHeap ⟨some 2, some 0⟩
    demoShape (.leaf 5) 2 ⟨66, some 0, none, none, 0⟩ demo_wf demo_other_wf (by decide) rfl
    rfl (by decide) rfl rfl

theorem demo_represents : Represents demoGlobals.heap demoGlobals.huffman.rt demoCode :=
  ⟨0, rfl, _, 1, 2, rfl, rfl, rfl, Nat.zero_le _, Nat.zero_le _,
    ⟨_, 3, 4, rfl, rfl, rfl, Nat.zero_le _, Nat.zero_le _, ⟨_, rfl, rfl, rfl, rfl⟩,
      ⟨_, rfl, rfl, rfl, rfl⟩⟩,
    ⟨_, rfl, rfl, rfl, rfl⟩⟩

/-- Witness of C20: the sample tree and a stream opened on a file of one byte. -/
theorem message_loop_progress_witness :
    (demoCode.descend demoGlobals.stream.pending).2 ≤ demoCode.height ∧
    (1 ≤ (demoCode.descend demoGlobals.stream.pending).2 ↔ demoCode.isLeaf = false) ∧
    (∃ s, decode 9 demoGlobals (LinkedBinaryTree.root demoGlobals.huffman)
        = .ok (symbolChar (demoCode.descend demoGlobals.stream.pending).1)
            { demoGlobals with stream := s } ∧
      s.Inv ∧ s.pending
        = demoGlobals.stream.pending.drop (demoCode.descend demoGlobals.stream.pending).2) ∧
    (∀ f, f ≤ (demoCode.descend demoGlobals.stream.pending).2 →
      decode f demoGlobals (LinkedBinaryTree.root demoGlobals.huffman) = .timeout) ∧
    (demoCode.isLeaf = false → demoGlobals.stream.pending.length < 9 →
      ∃ g1, messageLoopCalls (demoGlobals.stream.pending.length + 1) 9 demoGlobals
          = .ok () g1 ∧ g1.stream.eof = true) :=
  message_loop_progress demoCode demoGlobals 9 demo_represents
    (InBitStream.opened_spec [64]).1 (by decide)

/-! ## Well-formedness and the shape of a tree -/

theorem Reach.reach_append {h : Heap} {a b c : Nat} (h1 : Reach h a b) (h2 : Reach h b c) :
    Reach h a c := by
  induction h2 with
  | root => exact h1
  | left _ hd hl ih => exact Reach.left ih hd hl
  | right _ hd hl ih => exact Reach.right ih hd hl

theorem Reach.child {h : Heap} {a c : Nat} {nd : Node} (hd : h.deref a = some nd)
    (hc : nd.left = some c ∨ nd.right = some c) : Reach h a c := by
  rcases hc with hc | hc
  · exact Reach.left Reach.root hd hc
  · exact Reach.right Reach.root hd hc

theorem ReachN.reach {h : Heap} {a k b : Nat} (hr : ReachN h a k b) : Reach h a b := by
  induction hr with
  | root => exact Reach.root
  | step _ hd hc ih => exact ih.reach_append (Reach.child hd hc)

theorem Reach.reachN {h : Heap} {a b : Nat} (hr : Reach h a b) : ∃ k, ReachN h a k b := by
  induction hr with
  | root => exact ⟨0, ReachN.root⟩
  | left _ hd hl ih => obtain ⟨k, hk⟩ := ih; exact ⟨k + 1, ReachN.step hk hd (Or.inl hl)⟩
  | right _ hd hl ih => obtain ⟨k, hk⟩ := ih; exact ⟨k + 1, ReachN.step hk hd (Or.inr hl)⟩

theorem ReachN.steps_append {h : Heap} {a b c k m : Nat} (h1 : ReachN h a k b)
    (h2 : ReachN h b m c) : ReachN h a (k + m) c := by
  induction h2 with
  | root => exact h1
  | step _ hd hc ih => exact ReachN.step ih hd hc

theorem ReachN.depth_unique {h : Heap} {r : Nat} (hL : Linked h r) {k b : Nat}
    (h1 : ReachN h r k b) : ∀ {j : Nat}, ReachN h r j b → k = j := by
  obtain ⟨ndr, hdr, hpr⟩ := hL.1
  induction h1 with
  | root =>
    intro j h2
    cases h2 with
    | root => rfl
    | step hy hd hc =>
      obtain ⟨ndc, hdc, hpc⟩ := hL.2 _ hy.reach _ _ hd hc
      rw [hdr] at hdc; cases hdc
      rw [hpr] at hpc; cases hpc
  | step hy hd hc ih =>
    intro j h2
    obtain ⟨ndc, hdc, hpc⟩ := hL.2 _ hy.reach _ _ hd hc
    cases h2 with
    | root =>
      rw [hdr] at hdc; cases hdc
      rw [hpr] at hpc; cases hpc
    | step hy2 hd2 hc2 =>
      obtain ⟨ndc2, hdc2, hpc2⟩ := hL.2 _ hy2.reach _ _ hd2 hc2
      rw [hdc] at hdc2; cases hdc2
      rw [hpc] at hpc2; cases hpc2
      rw [ih hy2]

theorem ReachN.source_unique {h : Heap} {r : Nat} (hL : Linked h r) {x m b : Nat}
    (hx : Reach h r x) (h1 : ReachN h x m b) :
    ∀ {y : Nat}, Reach h r y → ReachN h y m b → x = y := by
  induction h1 with
  | root =>
    intro y _ h2
    cases h2
    rfl
  | step hz hd hc ih =>
    intro y hy h2
    obtain ⟨ndc, hdc, hpc⟩ := hL.2 _ (hx.reach_append hz.reach) _ _ hd hc
    cases h2 with
    | step hz2 hd2 hc2 =>
      obtain ⟨ndc2, hdc2, hpc2⟩ := hL.2 _ (hy.reach_append hz2.reach) _ _ hd2 hc2
      rw [hdc] at hdc2; cases hdc2
      rw [hpc] at hpc2; cases hpc2
      exact ih hy hz2

/-- No node is reachable from a child of its own. -/
theorem Linked.acyclic {h : Heap} {r a c : Nat} {nd : Node} (hL : Linked h r)
    (ha : Reach h r a) (hd : h.deref a = some nd)
    (hc : nd.left = some c ∨ nd.right = some c) : ¬ Reach h c a := by
  intro hca
  obtain ⟨k, hk⟩ := ha.reachN
  obtain ⟨m, hm⟩ := hca.reachN
  have h1 := (ReachN.step hk hd hc).steps_append hm
  have := ReachN.depth_unique hL hk h1
  omega

/-- No node is reachable from both children of a node. -/
theorem Linked.disjoint {h : Heap} {r a c1 c2 b : Nat} {nd : Node} (hL : Linked h r)
    (ha : Reach h r a) (hd : h.deref a = some nd) (h1 : nd.left = some c1)
    (h2 : nd.right = some c2) (hne : c1 ≠ c2) (hb1 : Reach h c1 b) (hb2 : Reach h c2 b) :
    False := by
  obtain ⟨k, hk⟩ := ha.reachN
  obtain ⟨m1, hm1⟩ := hb1.reachN
  obtain ⟨m2, hm2⟩ := hb2.reachN
  have e1 := (ReachN.step hk hd (Or.inl h1)).steps_append hm1
  have e2 := (ReachN.step hk hd (Or.inr h2)).steps_append hm2
  have hm : m1 = m2 := by
    have := ReachN.depth_unique hL e1 e2
    omega
  subst hm
  exact hne (ReachN.source_unique hL (ha.reach_append (Reach.child hd (Or.inl h1))) hm1
    (ha.reach_append (Reach.child hd (Or.inr h2))) hm2)

/-- The shape of the subtree at a reachable node `a`: `anc` lists nodes that are not
reachable from `a`, and `j` bounds the number of the other nodes. -/
theorem Linked.exists_shape {h : Heap} {r : Nat} (hL : Linked h r)
    (hP : ∀ b, Reach h r b → ∃ nd, h.deref b = some nd ∧
      ((nd.left = none ∧ nd.right = none) ∨
        ∃ c1 c2, nd.left = some c1 ∧ nd.right = some c2 ∧ c1 ≠ c2))
    (l : List Nat) (hl : ∀ b, Reach h r b → b ∈ l) :
    ∀ (j a : Nat) (anc : List Nat), anc.Nodup → (∀ x ∈ anc, x ∈ l) → Reach h r a →
      (∀ x ∈ anc, ¬ Reach h a x) → l.length ≤ anc.length + j →
      ∃ T nd, T.root = a ∧ h.deref a = some nd ∧ wfAt h nd.parent T ∧ T.addrs.Nodup ∧
        ∀ b ∈ T.addrs, Reach h a b := by
  intro j
  induction j with
  | zero =>
    intro a anc hn hsub ha hanc hlen
    exfalso
    have ha1 : a ∉ anc := fun hx => hanc a hx Reach.root
    have hn1 : (a :: anc).Nodup := List.nodup_cons.2 ⟨ha1, hn⟩
    have hs1 : (a :: anc) ⊆ l := by
      intro x hx
      rcases List.mem_cons.1 hx with rfl | hx
      · exact hl _ ha
      · exact hsub x hx
    have := (List.subperm_of_subset hn1 hs1).length_le
    simp only [List.length_cons] at this
    omega
  | succ j ih =>
    intro a anc hn hsub ha hanc hlen
    obtain ⟨nd, hd, hc⟩ := hP a ha
    rcases hc with ⟨h1, h2⟩ | ⟨c1, c2, h1, h2, hne⟩
    · exact ⟨.leaf a, nd, rfl, hd, ⟨nd, hd, rfl, h1, h2⟩, by simp [ATree.addrs], by
        intro b hb
        simp only [ATree.addrs, List.mem_singleton] at hb
        subst hb; exact Reach.root⟩
    · have ha1 : a ∉ anc := fun hx => hanc a hx Reach.root
      have hn1 : (a :: anc).Nodup := List.nodup_cons.2 ⟨ha1, hn⟩
      have hs1 : ∀ x ∈ a :: anc, x ∈ l := by
        intro x hx
        rcases List.mem_cons.1 hx with rfl | hx
        · exact hl _ ha
        · exact hsub x hx
      have hr1 : Reach h a c1 := Reach.child hd (Or.inl h1)
      have hr2 : Reach h a c2 := Reach.child hd (Or.inr h2)
      have hanc1 : ∀ x ∈ a :: anc, ¬ Reach h c1 x := by
        intro x hx hcx
        rcases List.mem_cons.1 hx with rfl | hx
        · exact hL.acyclic ha hd (Or.inl h1) hcx
        · exact hanc x hx (hr1.reach_append hcx)
      have hanc2 : ∀ x ∈ a :: anc, ¬ Reach h c2 x := by
        intro x hx hcx
        rcases List.mem_cons.1 hx with rfl | hx
        · exact hL.acyclic ha hd (Or.inr h2) hcx
        · exact hanc x hx (hr2.reach_append hcx)
      have hlen1 : l.length ≤ (a :: anc).length + j := by
        simp only [List.length_cons]; omega
      obtain ⟨T1, nd1, hT1, hd1, hw1, hnd1, hm1⟩ :=
        ih c1 (a :: anc) hn1 hs1 (ha.reach_append hr1) hanc1 hlen1
      obtain ⟨T2, nd2, hT2, hd2, hw2, hnd2, hm2⟩ :=
        ih c2 (a :: anc) hn1 hs1 (ha.reach_append hr2) hanc2 hlen1
      obtain ⟨x1, hx1, hp1⟩ := hL.2 a ha nd c1 hd (Or.inl h1)
      obtain ⟨x2, hx2, hp2⟩ := hL.2 a ha nd c2 hd (Or.inr h2)
      rw [hd1] at hx1; cases hx1
      rw [hd2] at hx2; cases hx2
      rw [hp1] at hw1
      rw [hp2] at hw2
      refine ⟨.node a T1 T2, nd, rfl, hd, ⟨nd, hd, rfl, by rw [hT1, h1], by rw [hT2, h2],
        hw1, hw2⟩, ?_, ?_⟩
      · simp only [ATree.addrs, List.nodup_cons, List.mem_append, not_or,
          List.nodup_append]
        refine ⟨⟨fun hx => hL.acyclic ha hd (Or.inl h1) (hm1 a hx),
          fun hx => hL.acyclic ha hd (Or.inr h2) (hm2 a hx)⟩, hnd1, hnd2, ?_⟩
        intro b hb1 hb2
        exact hL.disjoint ha hd h1 h2 hne (hm1 b hb1) (hm2 b hb2)
      · intro b hb
        simp only [ATree.addrs, List.mem_cons, List.mem_append] at hb
        rcases hb with rfl | hb | hb
        · exact Reach.root
        · exact hr1.reach_append (hm1 b hb)
        · exact hr2.reach_append (hm2 b hb)

/-- A non-empty tree is well-formed exactly when its reachable nodes have the shape of a
tree: `WF` in terms of `WFWith`. -/
theorem WF_iff_shape (h : Heap) (t : Tree) :
    WF h t ↔ (t.rt = none ∧ t.n = 0) ∨ ∃ T, WFWith h t T := by
  constructor
  · rintro ⟨h0, h1⟩
    rcases hr : t.rt with _ | r
    · exact Or.inl ⟨rfl, h0 hr⟩
    · right
      obtain ⟨⟨l, hln, hlm, hlen⟩, hP, hroot⟩ := h1 r hr
      have hL : Linked h r := by
        refine ⟨hroot, ?_⟩
        intro b hb nd c hd hc
        obtain ⟨nd1, hd1, _, hh⟩ := hP b hb
        rw [hd] at hd1; cases hd1
        exact hh c hc
      obtain ⟨T, nd, hT, hd, hw, hnd, hm⟩ := hL.exists_shape
        (fun b hb => by obtain ⟨nd, hd, hc, _⟩ := hP b hb; exact ⟨nd, hd, hc⟩)
        l (fun b hb => (hlm b).2 hb) l.length r [] List.nodup_nil
        (fun x hx => by cases hx) Reach.root (fun x hx => by cases hx) (by simp)
      obtain ⟨ndr, hdr, hpr⟩ := hroot
      rw [hd] at hdr; cases hdr
      rw [hpr] at hw
      refine ⟨T, (by rw [hT]; exact hr), hw, hnd, ?_⟩
      rw [hlen, ATree.size_eq_length]
      have hperm : l.Perm T.addrs := by
        rw [List.perm_ext_iff_of_nodup hln hnd]
        intro b
        rw [hlm b]
        subst hT
        exact ⟨fun hb => wfAt_reach hw hb, fun hb => hm b hb⟩
      rw [hperm.length_eq]
  · rintro (⟨h0, h1⟩ | ⟨T, hrt, hw, hnd, hsz⟩)
    · exact ⟨fun _ => h1, fun r hr => by rw [h0] at hr; cases hr⟩
    · refine ⟨fun hx => (by rw [hrt] at hx; cases hx), ?_⟩
      intro r hr
      rw [hrt] at hr
      cases hr
      refine ⟨⟨T.addrs, hnd, fun b => ⟨fun hb => wfAt_reach_of_mem hw Reach.root b hb,
        fun hb => wfAt_reach hw hb⟩, by rw [hsz, ATree.size_eq_length]⟩, ?_, wfAt_root hw⟩
      intro b hb
      have hbT := wfAt_reach hw hb
      obtain ⟨X, hs, hx⟩ := ATree.exists_sub T b hbT
      obtain ⟨q1, hwX⟩ := hs.wfAt hw
      have hnX := hs.nodup hnd
      subst hx
      cases X with
      | leaf a =>
        obtain ⟨nd, hd, _, hl, hrr⟩ := hwX
        refine ⟨nd, hd, Or.inl ⟨hl, hrr⟩, ?_⟩
        intro c hc
        rcases hc with hc | hc
        · rw [hl] at hc; cases hc
        · rw [hrr] at hc; cases hc
      | node a l r =>
        obtain ⟨nd, hd, _, hl, hrr, wl, wr⟩ := hwX
        simp only [ATree.addrs, List.nodup_cons, List.mem_append, not_or,
          List.nodup_append] at hnX
        refine ⟨nd, hd, Or.inr ⟨l.root, r.root, hl, hrr, ?_⟩, ?_⟩
        · intro hx
          exact hnX.2.2.2 (ATree.root_mem_addrs l) (hx ▸ ATree.root_mem_addrs r)
        · intro c hc
          rcases hc with hc | hc
          · rw [hl] at hc; cases hc; exact wfAt_root wl
          · rw [hrr] at hc; cases hc; exact wfAt_root wr

theorem WF.of_shape {h : Heap} {t : Tree} {T : ATree} (hw : WFWith h t T) : WF h t :=
  (WF_iff_shape h t).2 (Or.inr ⟨T, hw⟩)

theorem WF.of_empty {h : Heap} {t : Tree} (hr : t.rt = none) (hn : t.n = 0) : WF h t :=
  (WF_iff_shape h t).2 (Or.inl ⟨hr, hn⟩)

theorem WF.shape {h : Heap} {t : Tree} (hw : WF h t) (hr : t.rt ≠ none) :
    ∃ T, WFWith h t T := by
  rcases (WF_iff_shape h t).1 hw with ⟨h0, _⟩ | hT
  · exact absurd h0 hr
  · exact hT

theorem LinkedBinaryTree.addRoot_wf (t : Tree) (h : Heap) (value : Int) :
    WFWith (LinkedBinaryTree.addRoot t h value).1 (LinkedBinaryTree.addRoot t h value).2
      (.leaf h.length) :=
  ⟨rfl, ⟨_, Heap.deref_append_new h _, rfl, rfl, rfl⟩, by simp [ATree.addrs], rfl⟩

theorem LinkedBinaryTree.replaceExternalWithSubtreeSelf_ok {t : Tree} {h : Heap}
    {p : Position} {T : ATree} {e : Nat} {nd : Node} (hw : WFWith h t T)
    (hp : p.node = some e) (ht : p.tree = some t.self) (he : e ∈ T.addrs)
    (hd : h.deref e = some nd) (hl : nd.left = none) (hr : nd.right = none) :
    ∃ h2, LinkedBinaryTree.replaceExternalWithSubtreeSelf t h p
      = .ok () (h2, { t with n := 0, rt := none }) := by
  obtain ⟨hrt, hwf, hnd, hsz⟩ := hw
  have hval := LinkedBinaryTree.validate_external (t := t) hp ht hd hl hr
  unfold LinkedBinaryTree.replaceExternalWithSubtreeSelf
  by_cases hroot : some e = t.rt
  · exact ⟨h.free e, by simp only [hval, hroot, if_true]⟩
  · obtain ⟨ndr, hdr, hpr⟩ := wfAt_root hwf
    obtain ⟨nd1, hd1, hc⟩ := wfAt_parent hwf e he
    rw [hd] at hd1; cases hd1
    rcases hc with ⟨hx, _⟩ | ⟨par, hparT, hpar⟩
    · exact absurd (by rw [hrt, hx]) hroot
    · obtain ⟨ndp, hdp⟩ := wfAt_deref hwf par hparT
      have hrlt := Heap.deref_lt hdr
      have hroot2 : ¬ some e = some T.root := fun hx => hroot (by rw [hrt]; exact hx)
      by_cases hpr2 : T.root = par
      · have hdp1 : Heap.deref (h.set T.root (some { ndr with parent := some par })) par
            = some { ndr with parent := some par } := by
          rw [← hpr2, Heap.deref_set_eq _ _ hrlt]
        simp only [hval, hd, hrt, Heap.update_eq hdr, hpar, hdp1, hroot2, if_false]
        exact ⟨_, rfl⟩
      · have hdp1 : Heap.deref (h.set T.root (some { ndr with parent := some par })) par
            = some ndp := by
          rw [Heap.deref_set_ne _ _ hpr2, hdp]
        simp only [hval, hd, hrt, Heap.update_eq hdr, hpar, hdp1, hroot2, if_false]
        exact ⟨_, rfl⟩

/-- C19: a tree is well-formed when its size is the number of nodes reachable from the
root, every such node has no children or two, the parent link of every child is its owner,
and the parent link of the root is null (an empty tree has a null root and size 0).  In
every heap, the empty one included, the tree that `addRoot` leaves is well-formed, on an
empty tree as on any other.  For a well-formed tree and an external position `p` of it,
`expandExternal(p)` returns and leaves the tree well-formed; so does
`removeAboveExternal(p)` when the node of `p` is not the root; so does
`replaceExternalWithSubtree(p, other)` for a well-formed non-empty `other` that is another
tree (with another root), and the emptied `other` is well-formed as well; when `other` is
the receiver itself the call returns and leaves it empty, hence well-formed. -/
theorem wellformedness_preserved (h : Heap) :
    (∀ (t0 : Tree) (value : Int),
      WF (LinkedBinaryTree.addRoot t0 h value).1 (LinkedBinaryTree.addRoot t0 h value).2) ∧
    (∀ (t : Tree) (p : Position) (e r : Nat), WF h t → t.rt = some r → Reach h r e →
      p.node = some e → p.tree = some t.self → p.isExternal h = some true →
      (∃ h2 t2, LinkedBinaryTree.expandExternal t h p = .ok () (h2, t2) ∧ WF h2 t2) ∧
      (e ≠ r → ∃ q h2 t2, LinkedBinaryTree.removeAboveExternal t h p = .ok q (h2, t2) ∧
        WF h2 t2) ∧
      (∀ other : Tree, WF h other → other.rt ≠ none → other.rt ≠ t.rt →
        ∃ h2 t2 o2, LinkedBinaryTree.replaceExternalWithSubtree t h p other
          = .ok () (h2, t2, o2) ∧ WF h2 t2 ∧ WF h2 o2) ∧
      (∃ h2 t2, LinkedBinaryTree.replaceExternalWithSubtreeSelf t h p = .ok () (h2, t2) ∧
        WF h2 t2)) := by
  refine ⟨fun t0 value => WF.of_shape (LinkedBinaryTree.addRoot_wf t0 h value), ?_⟩
  intro t p e r hw hrt he hp ht hext
  obtain ⟨T, hT⟩ := hw.shape (by rw [hrt]; exact Option.some_ne_none r)
  have hTr : T.root = r := by
    have := hT.1
    rw [hrt] at this
    exact (Option.some.inj this).symm
  have heT : e ∈ T.addrs := wfAt_reach hT.2.1 (hTr ▸ he)
  obtain ⟨nd, hd⟩ := wfAt_deref hT.2.1 e heT
  obtain ⟨hl, hr⟩ := Position.external_links hp hd hext
  refine ⟨?_, ?_, ?_, ?_⟩
  · obtain ⟨h2, hok, hw2⟩ := LinkedBinaryTree.expandExternal_wf hT hp ht heT hd hl hr
    exact ⟨h2, _, hok, WF.of_shape hw2⟩
  · intro her
    have hne : t.rt ≠ some e := by
      rw [hrt]; intro hx; exact her (Option.some.inj hx).symm
    obtain ⟨par, ndp, S, nds, h2, _, _, _, _, _, _, _, _, _, _, hok, hw2, _⟩ :=
      LinkedBinaryTree.removeAboveExternal_spec hT hp ht heT hd hl hr hne
    exact ⟨_, h2, _, hok, WF.of_shape hw2⟩
  · intro other hwo hone hdis
    obtain ⟨T2, hT2⟩ := hwo.shape hone
    obtain ⟨nd2, h2, _, _, hok, hw2, _⟩ :=
      LinkedBinaryTree.replaceExternalWithSubtree_spec hT hT2 (Ne.symm hdis) hp ht heT hd hl
        hr
    exact ⟨h2, _, _, hok, WF.of_shape hw2, WF.of_empty rfl rfl⟩
  · obtain ⟨h2, hok⟩ := LinkedBinaryTree.replaceExternalWithSubtreeSelf_ok hT hp ht heT hd
      hl hr
    exact ⟨h2, _, hok, WF.of_empty rfl rfl⟩

/-- Witness of C19: `addRoot` on the empty tree in the empty heap, as `main` calls it; then
the sample tree and its leaf 3, with the one-node tree at 5 as the other tree. -/
theorem wellformedness_preserved_witness :
    WF (LinkedBinaryTree.addRoot (LinkedBinaryTree.empty 0) [] 0).1
      (LinkedBinaryTree.addRoot (LinkedBinaryTree.empty 0) [] 0).2 ∧
    (∃ h2 t2, LinkedBinaryTree.expandExternal demoTree demoHeap ⟨some 3, some 0⟩
      = .ok () (h2, t2) ∧ WF h2 t2) ∧
    (∃ q h2 t2, LinkedBinaryTree.removeAboveExternal demoTree demoHeap ⟨some 3, some 0⟩
      = .ok q (h2, t2) ∧ WF h2 t2) ∧
    (∃ h2 t2 o2, LinkedBinaryTree.replaceExternalWithSubtree demoTree demoHeap
      ⟨some 3, some 0⟩ demoOther = .ok () (h2, t2, o2) ∧ WF h2 t2 ∧ WF h2 o2) ∧
    (∃ h2 t2, LinkedBinaryTree.replaceExternalWithSubtreeSelf demoTree demoHeap
      ⟨some 3, some 0⟩ = .ok () (h2, t2) ∧ WF h2 t2) :=
  have H := (wellformedness_preserved demoHeap).2 demoTree ⟨some 3, some 0⟩ 3 0
    (WF.of_shape demo_wf) rfl
    (@Reach.left demoHeap 0 1 3 ⟨0, some 0, some 3, some 4, 0⟩
      (@Reach.left demoHeap 0 0 1 ⟨0, none, some 1, some 2, 0⟩ Reach.root rfl rfl) rfl rfl)
    rfl rfl rfl
  ⟨(wellformedness_preserved []).1 (LinkedBinaryTree.empty 0) 0, H.1, H.2.1 (by decide),
    H.2.2.1 demoOther (WF.of_shape demo_other_wf) (by decide) (by decide), H.2.2.2⟩

end Decode
